import Mathlib

/-!
Thor kernel core: precision timer engine and kernel virtual memory arena.

A shallow embedding of `thor/generic/timer.cpp` and `thor/generic/core.cpp`.

Timer requests are C++ objects referred to by pointer; here a request is named by a
natural number and the objects live in a heap `nodes : Nat → PrecisionTimerNode` that is
carried along with the engine.  The collaborators (Clock, Alarm, WorkQueue) are
recorded as a trace of calls, most recent call last.  The clock is an arbitrary function
from the index of a `currentNanos()` call to the value it returns.
-/

namespace Thor

/-! ## Timer data model -/

/-- States of a timer request (`TimerState`). -/
inductive TimerState where
  | none
  | queued
  | elapsed
  | retired
  deriving DecidableEq, Repr

/-- A timer request (`PrecisionTimerNode`).  `_engine` records whether the back pointer
has been set.  `tokenCancelled` and `cbBound` are the state of the cancellation token
and of the callback slot `_cancelCb` (see `try_set`). -/
structure PrecisionTimerNode where
  _deadline : Nat
  _state : TimerState
  _wasCancelled : Bool
  _engine : Bool
  tokenCancelled : Bool
  cbBound : Bool
  deriving DecidableEq, Repr

/-- Modelled from the spec: the cancellation callback slot `_cancelCb` (its class is not
part of the sources).  `try_set` binds the handler to the token unless cancellation was
already requested; it reports whether the handler was bound. -/
def try_set (n : PrecisionTimerNode) : Bool × PrecisionTimerNode :=
  if n.tokenCancelled then (false, n) else (true, { n with cbBound := true })

/-- Modelled from the spec: `try_reset` is the single atomic claim of the
cancel/expiry race.  It unbinds the handler and succeeds unless cancellation has been
requested, in which case the handler owns the delivery. -/
def try_reset (n : PrecisionTimerNode) : Bool × PrecisionTimerNode :=
  if n.tokenCancelled then (false, n) else (true, { n with cbBound := false })

/-- Calls made to the collaborators. -/
inductive Event where
  | arm (deadline : Nat)
  | read (value : Nat)
  | post (timer : Nat)
  deriving DecidableEq, Repr

/-- The engine together with the heap of timer objects and the trace of collaborator
calls.  `reads` counts the `currentNanos()` calls made so far. -/
structure PrecisionTimerEngine where
  nodes : Nat → PrecisionTimerNode
  _timerQueue : List Nat
  _activeTimers : Nat
  reads : Nat
  trace : List Event

/-- Result of running an operation: normal return, fatal assertion failure (with the
state at the failing assertion), or a loop that did not finish within its fuel. -/
inductive Outcome where
  | ok (s : PrecisionTimerEngine)
  | fatal (s : PrecisionTimerEngine)
  | diverged

/-- Result of the inner `while(true)` loop of `_progress`. -/
inductive Inner where
  | returned (s : PrecisionTimerEngine)
  | broke (s : PrecisionTimerEngine)
  | fatal (s : PrecisionTimerEngine)
  | diverged

/-- Width of `size_t` and `uint64_t`. -/
def wordSize : Nat := 2 ^ 64

namespace PrecisionTimerEngine

/-- Store to a timer object. -/
def setNode (s : PrecisionTimerEngine) (t : Nat) (n : PrecisionTimerNode) :
    PrecisionTimerEngine :=
  { s with nodes := fun u => if u = t then n else s.nodes u }

/-- The call `WorkQueue::post(timer->_elapsed)`. -/
def post (s : PrecisionTimerEngine) (t : Nat) : PrecisionTimerEngine :=
  { s with trace := s.trace ++ [Event.post t] }

/-- The call `_alarm->arm(deadline)`. -/
def arm (s : PrecisionTimerEngine) (deadline : Nat) : PrecisionTimerEngine :=
  { s with trace := s.trace ++ [Event.arm deadline] }

/-- The call `_clock->currentNanos()`: the state after the call. -/
def read (clock : Nat → Nat) (s : PrecisionTimerEngine) : PrecisionTimerEngine :=
  { s with reads := s.reads + 1, trace := s.trace ++ [Event.read (clock s.reads)] }

end PrecisionTimerEngine

/-- Modelled from the spec: the pending collection is min-deadline-first (the heap type
and its comparator are not part of the sources).  `topOf dl q` is the member of `q` with
the least deadline, the earliest inserted among equals. -/
def topOf (dl : Nat → Nat) : List Nat → Option Nat
  | [] => none
  | t :: ts =>
    match topOf dl ts with
    | none => some t
    | some u => if dl t ≤ dl u then some t else some u

namespace PrecisionTimerEngine

/-- The call `_timerQueue.top()`; `none` when the collection is empty. -/
def top (s : PrecisionTimerEngine) : Option Nat :=
  topOf (fun t => (s.nodes t)._deadline) s._timerQueue

/-- Body of one iteration of the inner loop of `_progress` once `timer` is known to
be due: pop, decrement the count, then try to claim the delivery. -/
def popStep (s : PrecisionTimerEngine) (t : Nat) : PrecisionTimerEngine :=
  let s1 : PrecisionTimerEngine :=
    { s with _timerQueue := s._timerQueue.erase t,
             _activeTimers := (s._activeTimers + wordSize - 1) % wordSize }
  let r := try_reset (s1.nodes t)
  if r.1 then (s1.setNode t { r.2 with _state := TimerState.retired }).post t
  else s1.setNode t { r.2 with _state := TimerState.elapsed }

/-- The inner `while(true)` loop of `_progress`. -/
def drain (current : Nat) : Nat → PrecisionTimerEngine → Inner
  | 0, _ => Inner.diverged
  | fuel + 1, s =>
    match s.top with
    | none => Inner.returned (s.arm 0)
    | some t =>
      if (s.nodes t)._deadline > current then Inner.broke s
      else if (s.nodes t)._state ≠ TimerState.queued then Inner.fatal s
      else drain current fuel (s.popStep t)

/-- The outer `do ... while` loop of `_progress`, entered with `current` already read. -/
def progressLoop (clock : Nat → Nat) : Nat → Nat → PrecisionTimerEngine → Outcome
  | 0, _, _ => Outcome.diverged
  | fuel + 1, current, s =>
    match drain current (s._timerQueue.length + 1) s with
    | Inner.returned s1 => Outcome.ok s1
    | Inner.fatal s1 => Outcome.fatal s1
    | Inner.diverged => Outcome.diverged
    | Inner.broke s1 =>
      match s1.top with
      | none => Outcome.fatal s1
      | some t =>
        let s2 := s1.arm (s1.nodes t)._deadline
        let current1 := clock s2.reads
        let s3 := s2.read clock
        match s3.top with
        | none => Outcome.fatal s3
        | some u =>
          if (s3.nodes u)._deadline ≤ current1 then progressLoop clock fuel current1 s3
          else Outcome.ok s3

/-- The function `PrecisionTimerEngine::_progress`. -/
def _progress (clock : Nat → Nat) (s : PrecisionTimerEngine) : Outcome :=
  progressLoop clock (s._timerQueue.length + 1) (clock s.reads) (s.read clock)

/-- The function `PrecisionTimerEngine::installTimer`. -/
def installTimer (clock : Nat → Nat) (s : PrecisionTimerEngine) (t : Nat) : Outcome :=
  if (s.nodes t)._engine then Outcome.fatal s
  else
    let s1 := s.setNode t { s.nodes t with _engine := true }
    if (s1.nodes t)._state ≠ TimerState.none then Outcome.fatal s1
    else
      let r := try_set (s1.nodes t)
      if !r.1 then
        Outcome.ok
          ((s1.setNode t { r.2 with _wasCancelled := true, _state := TimerState.retired }).post t)
      else
        let s2 : PrecisionTimerEngine :=
          { s1 with _timerQueue := s1._timerQueue ++ [t],
                    _activeTimers := (s1._activeTimers + 1) % wordSize }
        let s3 := s2.setNode t { r.2 with _state := TimerState.queued }
        _progress clock s3

/-- The function `PrecisionTimerEngine::cancelTimer`. -/
def cancelTimer (s : PrecisionTimerEngine) (t : Nat) : Outcome :=
  if (s.nodes t)._state = TimerState.queued then
    let s1 : PrecisionTimerEngine :=
      { s with _timerQueue := s._timerQueue.erase t,
               _activeTimers := (s._activeTimers + wordSize - 1) % wordSize }
    let s2 := s1.setNode t { s1.nodes t with _wasCancelled := true }
    Outcome.ok ((s2.setNode t { s2.nodes t with _state := TimerState.retired }).post t)
  else if (s.nodes t)._state ≠ TimerState.elapsed then Outcome.fatal s
  else Outcome.ok ((s.setNode t { s.nodes t with _state := TimerState.retired }).post t)

/-- The function `PrecisionTimerEngine::firedAlarm`. -/
def firedAlarm (clock : Nat → Nat) (s : PrecisionTimerEngine) : Outcome :=
  _progress clock s

end PrecisionTimerEngine

/-! ## Runs of the engine -/

/-- A timer object as its issuer hands it to the engine: `setup` stored the deadline,
nothing else has happened to it.  `cancelled` tells whether cancellation was already
requested on its token. -/
def freshNode (deadline : Nat) (cancelled : Bool) : PrecisionTimerNode :=
  { _deadline := deadline, _state := TimerState.none, _wasCancelled := false,
    _engine := false, tokenCancelled := cancelled, cbBound := false }

/-- The engine after construction, with the timer objects that will be used later. -/
def initialEngine (deadline : Nat → Nat) (cancelled : Nat → Bool) : PrecisionTimerEngine :=
  { nodes := fun t => freshNode (deadline t) (cancelled t),
    _timerQueue := [], _activeTimers := 0, reads := 0, trace := [] }

/-- Modelled from the spec: the environment requests cancellation on the token of a
timer.  From then on `try_set` and `try_reset` fail for it. -/
def requestCancel (s : PrecisionTimerEngine) (t : Nat) : PrecisionTimerEngine :=
  s.setNode t { s.nodes t with tokenCancelled := true }

/-- Entry points of the engine and the one move of the environment. -/
inductive TimerOp where
  | install (t : Nat)
  | cancel (t : Nat)
  | fired
  | request (t : Nat)
  deriving DecidableEq, Repr

/-- One operation under the engine lock. -/
def applyOp (clock : Nat → Nat) (s : PrecisionTimerEngine) : TimerOp → Outcome
  | TimerOp.install t => s.installTimer clock t
  | TimerOp.cancel t => s.cancelTimer t
  | TimerOp.fired => s.firedAlarm clock
  | TimerOp.request t => Outcome.ok (requestCancel s t)

/-- A sequential interleaving of operations; it stops at the first one that does not
return. -/
def runOps (clock : Nat → Nat) : List TimerOp → PrecisionTimerEngine → Outcome
  | [], s => Outcome.ok s
  | op :: ops, s =>
    match applyOp clock s op with
    | Outcome.ok s1 => runOps clock ops s1
    | Outcome.fatal s1 => Outcome.fatal s1
    | Outcome.diverged => Outcome.diverged

/-- Number of times the completion sink of `t` was posted. -/
def postCount (s : PrecisionTimerEngine) (t : Nat) : Nat :=
  s.trace.count (Event.post t)

/-- The argument of the most recent `Alarm.arm` call, if there was one. -/
def lastArm : List Event → Option Nat
  | [] => none
  | e :: es =>
    match lastArm es with
    | some d => some d
    | none => match e with
      | Event.arm d => some d
      | _ => none

/-- The timers whose completion sink was posted, in posting order. -/
def posted : List Event → List Nat
  | [] => []
  | Event.post t :: es => t :: posted es
  | _ :: es => posted es

open PrecisionTimerEngine

/-! ## Invariants and auxiliary states of the timer engine -/

/-- The pending collection holds no request twice and holds exactly the queued ones. -/
def QueueInv (s : PrecisionTimerEngine) : Prop :=
  s._timerQueue.Nodup ∧ ∀ t, t ∈ s._timerQueue ↔ (s.nodes t)._state = TimerState.queued

/-- Every completion sink was posted once if its request is retired, never otherwise. -/
def PostInv (s : PrecisionTimerEngine) : Prop :=
  ∀ t, postCount s t = if (s.nodes t)._state = TimerState.retired then 1 else 0

/-- The state of `installTimer` at its early return (the token was already cancelled). -/
def installRetired (s : PrecisionTimerEngine) (t : Nat) : PrecisionTimerEngine :=
  { s with
    nodes := fun u => if u = t then
      { s.nodes t with _engine := true, _wasCancelled := true, _state := TimerState.retired }
      else s.nodes u,
    trace := s.trace ++ [Event.post t] }

/-- The state of `installTimer` right before it calls `_progress`. -/
def installQueued (s : PrecisionTimerEngine) (t : Nat) : PrecisionTimerEngine :=
  { s with
    nodes := fun u => if u = t then
      { s.nodes t with _engine := true, cbBound := true, _state := TimerState.queued }
      else s.nodes u,
    _timerQueue := s._timerQueue ++ [t],
    _activeTimers := (s._activeTimers + 1) % wordSize }

/-- What holds when `_progress` returns. -/
def ProgressPost (clock : Nat → Nat) (s : PrecisionTimerEngine) : Prop :=
  (s._timerQueue = [] ∧ ∃ tr, s.trace = tr ++ [Event.arm 0]) ∨
  (∃ t tr, s.top = some t ∧ 0 < s.reads ∧
    s.trace = tr ++ [Event.arm (s.nodes t)._deadline, Event.read (clock (s.reads - 1))] ∧
    clock (s.reads - 1) < (s.nodes t)._deadline)

/-- The value returned by the most recent `currentNanos()` call, if there was one. -/
def lastRead : List Event → Option Nat
  | [] => none
  | e :: es =>
    match lastRead es with
    | some v => some v
    | none => match e with
      | Event.read v => some v
      | _ => none

/-- The alarm as the progress step leaves it: disarmed with nothing pending, or armed
for the earliest pending deadline, which the clock value read after arming has not
reached. -/
def AlarmSettled (s : PrecisionTimerEngine) : Prop :=
  (s._timerQueue = [] ∧ lastArm s.trace = some 0 ∧ ∃ tr, s.trace = tr ++ [Event.arm 0]) ∨
  (∃ t tr v, s._timerQueue ≠ [] ∧ s.top = some t ∧
    (∀ u ∈ s._timerQueue, (s.nodes t)._deadline ≤ (s.nodes u)._deadline) ∧
    s.trace = tr ++ [Event.arm (s.nodes t)._deadline, Event.read v] ∧
    lastArm s.trace = some (s.nodes t)._deadline ∧ lastRead s.trace = some v ∧
    v < (s.nodes t)._deadline)

/-- No request that is due at the last clock reading is still pending. -/
def NoneOverdue (s : PrecisionTimerEngine) : Prop :=
  ∀ u ∈ s._timerQueue, ∀ v, lastRead s.trace = some v → v < (s.nodes u)._deadline

/-- The clock of the install/fire scenario: 100 while the timer is installed, 150 from
then on. -/
def scenarioClock : Nat → Nat := fun k => if k < 2 then 100 else 150

/-- A run in which no timer is cancelled and every timer is installed before the clock
has reached its deadline: only `installTimer` and `firedAlarm` occur, and at each
`installTimer` the clock value that the call reads first is below the deadline. -/
def timelyRun (clock : Nat → Nat) : List TimerOp → PrecisionTimerEngine → Bool
  | [], _ => true
  | op :: ops, s =>
    (match op with
      | TimerOp.install t => decide (clock s.reads < (s.nodes t)._deadline)
      | TimerOp.fired => true
      | _ => false) &&
    (match applyOp clock s op with
      | Outcome.ok s1 => timelyRun clock ops s1
      | _ => true)

/-- Only `installTimer` and `firedAlarm` occur in a run. -/
def installsAndAlarms (ops : List TimerOp) : Prop :=
  ∀ op ∈ ops, op = TimerOp.fired ∨ ∃ t, op = TimerOp.install t

/-- Completions were posted in non-decreasing deadline order. -/
def DeadlineOrdered (deadline : Nat → Nat) (s : PrecisionTimerEngine) : Prop :=
  ((posted s.trace).map deadline).Pairwise (fun a b => a ≤ b)

/-- Invariant behind the delivery order: deadlines are as set up, no token is
cancelled, posts so far are ordered, every posted deadline is at most every pending
one, and every posted deadline was reached by some clock reading. -/
def OrderInv (clock deadline : Nat → Nat) (s : PrecisionTimerEngine) : Prop :=
  (∀ t, (s.nodes t)._deadline = deadline t) ∧
  (∀ t, (s.nodes t).tokenCancelled = false) ∧
  DeadlineOrdered deadline s ∧
  (∀ p ∈ posted s.trace, ∀ u ∈ s._timerQueue, deadline p ≤ deadline u) ∧
  (∀ p ∈ posted s.trace, ∃ k, k < s.reads ∧ deadline p ≤ clock k)

/-! ## Kernel virtual memory arena -/

/-- Modelled from the spec: the page shift `kPageShift` (an architecture constant that
is not part of the sources); pages are 4 KiB. -/
def kPageShift : Nat := 12

/-- Modelled from the spec: the page size `kPageSize`, `1 << kPageShift`. -/
def kPageSize : Nat := 4096

/-- The expression `size_t{1} << n`, as a 64-bit value.  For `n ≥ 64` the C++ shift is
undefined; the model takes the truncated value. -/
def shiftOne (n : Nat) : Nat := 2 ^ n % wordSize

/-- The loop `while(length > (size_t{1} << (kPageShift + order))) ++order;` entered
with the given `order`; `none` when it has not exited within the fuel. -/
def orderLoop (length : Nat) : Nat → Nat → Option Nat
  | 0, _ => none
  | fuel + 1, order =>
    if length > shiftOne (kPageShift + order) then orderLoop length fuel (order + 1)
    else some order

/-- The order computation of `allocate` and `deallocate`: `int order = 0;` and the loop.
Every exit of the loop happens within 52 passes (see `orderLoop_exit_bound`). -/
def computeOrder (length : Nat) : Option Nat := orderLoop length 64 0

/-- The base `vmBase` of the window reserved by the constructor. -/
def vmBase : Nat := 0xFFFFE00000000000

/-- The size `desiredSize` of the window reserved by the constructor (2 GiB). -/
def desiredSize : Nat := 0x80000000

/-- Modelled from the spec: the failure value `BuddyAccessor::illegalAddress` of the
block allocator (`ILLEGAL`), the all-ones address. -/
def illegalAddress : Nat := wordSize - 1

/-- The arena `KernelVirtualMemory` with the two global usage counters.  Of the block
allocator `buddy_` the model keeps the blocks it has handed out, as (address, order),
and its maximum order. -/
structure KernelVirtualMemory where
  blocks : List (Nat × Nat)
  tableOrder : Nat
  kernelVirtualUsage : Nat
  kernelMemoryUsage : Nat

/-- Result of `allocate`. -/
inductive AllocResult where
  | ok (pointer : Nat) (s : KernelVirtualMemory)
  | fatal (s : KernelVirtualMemory)
  | diverged

/-- Result of `deallocate`. -/
inductive ArenaResult where
  | ok (s : KernelVirtualMemory)
  | fatal (s : KernelVirtualMemory)
  | diverged

namespace KernelVirtualMemory

/-- The function `KernelVirtualMemory::allocate`.  `address` is what
`buddy_.allocate(order, 64)` returns.  The shadow-memory hooks are left out. -/
def allocate (s : KernelVirtualMemory) (length address : Nat) : AllocResult :=
  match computeOrder length with
  | none => AllocResult.diverged
  | some order =>
    if order > s.tableOrder then AllocResult.fatal s
    else if address = illegalAddress then AllocResult.fatal s
    else
      AllocResult.ok address
        { s with
          blocks := (address, order) :: s.blocks,
          kernelVirtualUsage :=
            (s.kernelVirtualUsage + shiftOne (kPageShift + order)) % wordSize }

/-- The function `KernelVirtualMemory::deallocate`. -/
def deallocate (s : KernelVirtualMemory) (pointer length : Nat) : ArenaResult :=
  match computeOrder length with
  | none => ArenaResult.diverged
  | some order =>
    let s1 : KernelVirtualMemory := { s with blocks := s.blocks.erase (pointer, order) }
    if ¬ (s1.kernelVirtualUsage ≥ shiftOne (kPageShift + order)) then ArenaResult.fatal s1
    else
      ArenaResult.ok
        { s1 with
          kernelVirtualUsage := s1.kernelVirtualUsage - shiftOne (kPageShift + order) }

end KernelVirtualMemory

/-- The arena after construction. -/
def initialArena (tableOrder : Nat) : KernelVirtualMemory :=
  { blocks := [], tableOrder := tableOrder, kernelVirtualUsage := 0, kernelMemoryUsage := 0 }

/-- Two blocks do not overlap. -/
def blocksDisjoint (a b : Nat × Nat) : Prop :=
  a.1 + 2 ^ (kPageShift + a.2) ≤ b.1 ∨ b.1 + 2 ^ (kPageShift + b.2) ≤ a.1

/-- A block lies in the window of the arena. -/
def blockInWindow (a : Nat × Nat) : Prop :=
  vmBase ≤ a.1 ∧ a.1 + 2 ^ (kPageShift + a.2) ≤ vmBase + desiredSize

/-- Modelled from the spec: the contract of the block allocator.  A block it hands out
lies in the window of the arena and overlaps no block that is still handed out. -/
def buddyContract (s : KernelVirtualMemory) (order address : Nat) : Prop :=
  address = illegalAddress ∨
    (blockInWindow (address, order) ∧ ∀ b ∈ s.blocks, blocksDisjoint (address, order) b)

/-- Calls into the arena: `allocate(length)` together with the address the block
allocator answers, and `deallocate(pointer, length)`. -/
inductive ArenaOp where
  | allocate (length address : Nat)
  | deallocate (pointer length : Nat)

/-- States of the arena reachable from construction: the block allocator keeps its
contract, and `deallocate` is called for blocks that are handed out, with the length
class they were allocated with. -/
inductive ArenaReachable (tableOrder : Nat) : KernelVirtualMemory → Prop where
  | init : ArenaReachable tableOrder (initialArena tableOrder)
  | allocate (s s1 : KernelVirtualMemory) (length order address pointer : Nat) :
      ArenaReachable tableOrder s → computeOrder length = some order →
      buddyContract s order address →
      s.allocate length address = AllocResult.ok pointer s1 → ArenaReachable tableOrder s1
  | deallocate (s s1 : KernelVirtualMemory) (pointer length order : Nat) :
      ArenaReachable tableOrder s → computeOrder length = some order →
      (pointer, order) ∈ s.blocks →
      s.deallocate pointer length = ArenaResult.ok s1 → ArenaReachable tableOrder s1

/-- Sum of the granule sizes of the blocks handed out. -/
def reservedBytes : List (Nat × Nat) → Nat
  | [] => 0
  | b :: bs => 2 ^ (kPageShift + b.2) + reservedBytes bs

/-- Invariant of the arena: the handed-out blocks lie in the window, do not overlap,
and the reserved-bytes counter is the sum of their granule sizes. -/
def ArenaInv (s : KernelVirtualMemory) : Prop :=
  (∀ b ∈ s.blocks, blockInWindow b) ∧ s.blocks.Pairwise blocksDisjoint ∧
    s.kernelVirtualUsage = reservedBytes s.blocks

/-- The arena after `allocate(8192)` on the fresh arena was answered with the base of
the window. -/
def arenaWithOneBlock : KernelVirtualMemory :=
  { blocks := [(vmBase, 1)], tableOrder := 19, kernelVirtualUsage := 8192,
    kernelMemoryUsage := 0 }

/-! ## Kernel virtual allocator -/

/-- The failure value `static_cast<PhysicalAddr>(-1)` of the physical frame allocator. -/
def physicalSentinel : Nat := wordSize - 1

/-- The deferred-unmap closure `Closure` of `unmap`, with the fields `address` and
`size` of its base `ShootNode`. -/
structure Closure where
  address : Nat
  size : Nat
  thisPage : Nat
  deriving DecidableEq, Repr

/-- Calls made by the allocator to its collaborators and to the arena, in order. -/
inductive MemEvent where
  | frameAllocate (physical : Nat)
  | frameFree (physical : Nat)
  | mapSingle4k (address physical : Nat)
  | unmapSingle4k (address physical : Nat)
  | submitShootdown (node : Closure)
  | deallocate (pointer length : Nat)
  deriving DecidableEq, Repr

/-- The kernel memory state seen by `KernelVirtualAlloc`: the arena with the usage
counters, the page table of `KernelPageSpace` (modelled from the spec as a table from
page address to frame), the number of `physicalAllocator->allocate` calls made so far,
the closures handed to the Mapper whose shootdown has not completed, and the trace of
calls. -/
structure KernelMemory where
  arena : KernelVirtualMemory
  pageSpace : Nat → Option Nat
  allocCalls : Nat
  pending : List Closure
  events : List MemEvent

/-- Result of `map`. -/
inductive MapResult where
  | ok (address : Nat) (s : KernelMemory)
  | fatal (s : KernelMemory)
  | diverged

/-- Result of `unmap`, of its loops and of the completion of a closure. -/
inductive MemResult where
  | ok (s : KernelMemory)
  | fatal (s : KernelMemory)
  | diverged

namespace KernelVirtualAlloc

/-- The backing loop of `map`, `for(offset = 0; offset < length; offset += kPageSize)`,
entered at `offset`.  `frames k` is what the `k`-th call of
`physicalAllocator->allocate` returns.  On every exit of the loop `offset + kPageSize`
stays below `2^64`, so the model adds without wrapping. -/
def mapLoop (frames : Nat → Nat) (p length : Nat) : Nat → Nat → KernelMemory → MemResult
  | 0, _, _ => MemResult.diverged
  | fuel + 1, offset, s =>
    if offset < length then
      let physical := frames s.allocCalls
      let s1 : KernelMemory :=
        { s with allocCalls := s.allocCalls + 1,
                 events := s.events ++ [MemEvent.frameAllocate physical] }
      if physical = physicalSentinel then MemResult.fatal s1
      else
        mapLoop frames p length fuel (offset + kPageSize)
          { s1 with
            pageSpace := fun v => if v = p + offset then some physical else s1.pageSpace v,
            events := s1.events ++ [MemEvent.mapSingle4k (p + offset) physical] }
    else MemResult.ok s

/-- The function `KernelVirtualAlloc::map`.  `address` is the answer of the block
allocator to the `allocate` call made inside. -/
def map (frames : Nat → Nat) (s : KernelMemory) (length address : Nat) : MapResult :=
  match s.arena.allocate length address with
  | AllocResult.diverged => MapResult.diverged
  | AllocResult.fatal a => MapResult.fatal { s with arena := a }
  | AllocResult.ok p a =>
    match mapLoop frames p length (length / kPageSize + 2) 0 { s with arena := a } with
    | MemResult.diverged => MapResult.diverged
    | MemResult.fatal s1 => MapResult.fatal s1
    | MemResult.ok s1 =>
      MapResult.ok p
        { s1 with
          arena := { s1.arena with
            kernelMemoryUsage := (s1.arena.kernelMemoryUsage + length) % wordSize } }

/-- The loop of `unmap` that removes the mappings and frees the frames.  Modelled from
the spec: `unmapSingle4k` returns the frame the page was mapped to; for a page that is
not mapped the Mapper has no frame to return and the model stops. -/
def unmapLoop (address length : Nat) : Nat → Nat → KernelMemory → MemResult
  | 0, _, _ => MemResult.diverged
  | fuel + 1, offset, s =>
    if offset < length then
      match s.pageSpace (address + offset) with
      | none => MemResult.fatal s
      | some physical =>
        unmapLoop address length fuel (offset + kPageSize)
          { s with
            pageSpace := fun v => if v = address + offset then none else s.pageSpace v,
            events := s.events ++ [MemEvent.unmapSingle4k (address + offset) physical,
              MemEvent.frameFree physical] }
    else MemResult.ok s

/-- The method `Closure::complete` of the closure built by `unmap`. -/
def complete (c : Closure) (s : KernelMemory) : MemResult :=
  match s.arena.deallocate c.address c.size with
  | ArenaResult.diverged => MemResult.diverged
  | ArenaResult.fatal a => MemResult.fatal { s with arena := a }
  | ArenaResult.ok a =>
    MemResult.ok
      { s with arena := a,
               events := s.events ++ [MemEvent.deallocate c.address c.size,
                 MemEvent.frameFree c.thisPage] }

/-- The function `KernelVirtualAlloc::unmap`.  `shootdownDone` is what
`submitShootdown` returns.  The class of `PageAccessor` is not part of the sources:
this definition follows the runs in which its constructor returns, and `unmapThrough`
below takes the constructor as a parameter. -/
def unmap (frames : Nat → Nat) (s : KernelMemory) (address length : Nat)
    (shootdownDone : Bool) : MemResult :=
  if address % kPageSize ≠ 0 then MemResult.fatal s
  else if length % kPageSize ≠ 0 then MemResult.fatal s
  else
    match unmapLoop address length (length / kPageSize + 2) 0 s with
    | MemResult.diverged => MemResult.diverged
    | MemResult.fatal s1 => MemResult.fatal s1
    | MemResult.ok s1 =>
      let s2 : KernelMemory :=
        { s1 with
          arena := { s1.arena with
            kernelMemoryUsage := (s1.arena.kernelMemoryUsage + wordSize - length) % wordSize } }
      let physical := frames s2.allocCalls
      let c : Closure := { address := address, size := length, thisPage := physical }
      let s3 : KernelMemory :=
        { s2 with allocCalls := s2.allocCalls + 1,
                  events := s2.events ++ [MemEvent.frameAllocate physical,
                    MemEvent.submitShootdown c] }
      if shootdownDone then complete c s3
      else MemResult.ok { s3 with pending := c :: s3.pending }

/-- The Mapper reports that the shootdown of a pending closure has completed and
invokes its `complete`. -/
def shootdownCompletes (s : KernelMemory) (c : Closure) : MemResult :=
  complete c { s with pending := s.pending.erase c }

end KernelVirtualAlloc

/-- The kernel memory state over a fresh arena: nothing mapped, nothing pending. -/
def initialMemory (tableOrder : Nat) : KernelMemory :=
  { arena := initialArena tableOrder, pageSpace := fun _ => none, allocCalls := 0,
    pending := [], events := [] }

/-- The frames handed back to the physical frame allocator, in order. -/
def framesFreed : List MemEvent → List Nat
  | [] => []
  | MemEvent.frameFree f :: es => f :: framesFreed es
  | _ :: es => framesFreed es

/-- The frames obtained from the physical frame allocator, in order. -/
def framesAllocated : List MemEvent → List Nat
  | [] => []
  | MemEvent.frameAllocate f :: es => f :: framesAllocated es
  | _ :: es => framesAllocated es

/-- The order that `allocate` and `deallocate` compute for a length (0 where the order
loop does not exit). -/
def orderOf (length : Nat) : Nat := (computeOrder length).getD 0

/-- Modelled from the spec: what the block allocator may answer to the `allocate` call
inside `map(length)`: it keeps `buddyContract`, and a block it hands out is aligned to
its granule. -/
def buddyAnswer (a : KernelVirtualMemory) (length address : Nat) : Prop :=
  buddyContract a (orderOf length) address ∧
    (address = illegalAddress ∨ address % 2 ^ (kPageShift + orderOf length) = 0)

/-- States reachable from a fresh arena by `map` calls, `unmap` calls that name the
address and length of a range that is still mapped, and shootdown completions of
pending closures.  The index lists the ranges that are mapped and not yet unmapped, as
(address, length). -/
inductive MapReachable (frames : Nat → Nat) (tableOrder : Nat) :
    List (Nat × Nat) → KernelMemory → Prop where
  | init : MapReachable frames tableOrder [] (initialMemory tableOrder)
  | map (live : List (Nat × Nat)) (s s1 : KernelMemory) (length address pointer : Nat) :
      MapReachable frames tableOrder live s → buddyAnswer s.arena length address →
      KernelVirtualAlloc.map frames s length address = MapResult.ok pointer s1 →
      MapReachable frames tableOrder ((pointer, length) :: live) s1
  | unmap (live : List (Nat × Nat)) (s s1 : KernelMemory) (address length : Nat)
      (shootdownDone : Bool) :
      MapReachable frames tableOrder live s → (address, length) ∈ live →
      KernelVirtualAlloc.unmap frames s address length shootdownDone = MemResult.ok s1 →
      MapReachable frames tableOrder (live.erase (address, length)) s1
  | complete (live : List (Nat × Nat)) (s s1 : KernelMemory) (c : Closure) :
      MapReachable frames tableOrder live s → c ∈ s.pending →
      KernelVirtualAlloc.shootdownCompletes s c = MemResult.ok s1 →
      MapReachable frames tableOrder live s1

/-- The block of the arena behind a mapped range. -/
def blockOfRange (m : Nat × Nat) : Nat × Nat := (m.1, orderOf m.2)

/-- The block of the arena that a closure will give back. -/
def blockOfClosure (c : Closure) : Nat × Nat := (c.address, orderOf c.size)

/-- Sum of the lengths of the mapped ranges. -/
def residentBytes : List (Nat × Nat) → Nat
  | [] => 0
  | m :: ms => m.2 + residentBytes ms

/-- Invariant of the allocator: the arena invariant; the resident-bytes counter is the
sum of the mapped lengths; the blocks handed out by the arena are those of the mapped
ranges and of the pending closures; all their lengths are within reach of the order
loop. -/
def MapInv (live : List (Nat × Nat)) (s : KernelMemory) : Prop :=
  ArenaInv s.arena ∧
  s.arena.kernelMemoryUsage = residentBytes live ∧
  List.Perm s.arena.blocks (live.map blockOfRange ++ s.pending.map blockOfClosure) ∧
  (∀ m ∈ live, m.2 ≤ 2 ^ 63) ∧ (∀ c ∈ s.pending, c.size ≤ 2 ^ 63)

/-- The ranges given back to the arena by `deallocate` calls, in order. -/
def releases : List MemEvent → List (Nat × Nat)
  | [] => []
  | MemEvent.deallocate p l :: es => (p, l) :: releases es
  | _ :: es => releases es

/-- A frame allocator that never fails: the `k`-th request yields frame `4096 * (k + 1)`. -/
def plentyFrames : Nat → Nat := fun k => 4096 * (k + 1)

/-- The state in which a `map` call ended (the fresh memory if it did not end). -/
def MapResult.state : MapResult → KernelMemory
  | MapResult.ok _ s => s
  | MapResult.fatal s => s
  | MapResult.diverged => initialMemory 0

/-- The state in which an `unmap` call or a completion ended (the fresh memory if it
did not end). -/
def MemResult.state : MemResult → KernelMemory
  | MemResult.ok s => s
  | MemResult.fatal s => s
  | MemResult.diverged => initialMemory 0

/-- The memory after `map(8192)` on the fresh arena, the block allocator answering with
the base of the window. -/
def mapped8192 : KernelMemory :=
  (KernelVirtualAlloc.map plentyFrames (initialMemory 19) 8192 vmBase).state

/-- Modelled from the spec: the class `PageAccessor` is not part of the sources.  The
spec describes it as the direct physical-memory window through which the one physical
page that stores the closure is accessed, and its resource-exhaustion rule makes every
exhaustion of the physical frame allocator a halt, with no partial-failure path.  The
constructor therefore opens the window on a frame the allocator handed out (`some`
with the pointer of the window, which in the direct window is determined by the frame)
and halts on the failure sentinel (`none`). -/
def PageAccessor (physical : Nat) : Option Nat :=
  if physical = physicalSentinel then none else some physical

namespace KernelVirtualAlloc

/-- The function `KernelVirtualAlloc::unmap` with the constructor of `PageAccessor`
taken as a parameter, since its class is not part of the sources: `accessor physical`
is `none` when the constructor halts on `physical` and the pointer of the window
otherwise.  The statements are those of `unmap`, in the same order; the constructor
runs after `physicalAllocator->allocate(kPageSize)` and before the closure is built by
the placement `new` and handed to `submitShootdown`.  With a constructor that returns
for every frame this function is `unmap`. -/
def unmapThrough (accessor : Nat → Option Nat) (frames : Nat → Nat) (s : KernelMemory)
    (address length : Nat) (shootdownDone : Bool) : MemResult :=
  if address % kPageSize ≠ 0 then MemResult.fatal s
  else if length % kPageSize ≠ 0 then MemResult.fatal s
  else
    match unmapLoop address length (length / kPageSize + 2) 0 s with
    | MemResult.diverged => MemResult.diverged
    | MemResult.fatal s1 => MemResult.fatal s1
    | MemResult.ok s1 =>
      let s2 : KernelMemory :=
        { s1 with
          arena := { s1.arena with
            kernelMemoryUsage := (s1.arena.kernelMemoryUsage + wordSize - length) % wordSize } }
      let physical := frames s2.allocCalls
      let s3 : KernelMemory :=
        { s2 with allocCalls := s2.allocCalls + 1,
                  events := s2.events ++ [MemEvent.frameAllocate physical] }
      match accessor physical with
      | none => MemResult.fatal s3
      | some _ =>
        let c : Closure := { address := address, size := length, thisPage := physical }
        let s4 : KernelMemory :=
          { s3 with events := s3.events ++ [MemEvent.submitShootdown c] }
        if shootdownDone then complete c s4
        else MemResult.ok { s4 with pending := c :: s4.pending }

end KernelVirtualAlloc

theorem topOf_eq_none (dl : Nat → Nat) (q : List Nat) : topOf dl q = none ↔ q = [] := by
  cases q with
  | nil => simp [topOf]
  | cons t ts =>
    simp only [topOf]
    cases topOf dl ts with
    | none => simp
    | some u => by_cases h : dl t ≤ dl u <;> simp [h]

theorem topOf_mem (dl : Nat → Nat) : ∀ (q : List Nat) (t : Nat), topOf dl q = some t → t ∈ q := by
  intro q
  induction q with
  | nil => intro t h; simp [topOf] at h
  | cons a ts ih =>
    intro t h
    simp only [topOf] at h
    cases hts : topOf dl ts with
    | none => rw [hts] at h; simp at h; simp [h]
    | some u =>
      rw [hts] at h
      by_cases hle : dl a ≤ dl u
      · simp [hle] at h; simp [h]
      · simp [hle] at h
        have := ih u hts
        subst h
        simp [this]

theorem topOf_le (dl : Nat → Nat) :
    ∀ (q : List Nat) (t : Nat), topOf dl q = some t → ∀ u ∈ q, dl t ≤ dl u := by
  intro q
  induction q with
  | nil => intro t h; simp [topOf] at h
  | cons a ts ih =>
    intro t h u hu
    simp only [topOf] at h
    cases hts : topOf dl ts with
    | none =>
      rw [hts] at h
      have hnil := (topOf_eq_none dl ts).1 hts
      subst hnil
      simp at h hu
      subst h; subst hu; exact le_refl _
    | some v =>
      rw [hts] at h
      have hv := ih v hts
      by_cases hle : dl a ≤ dl v
      · simp [hle] at h
        subst h
        rcases List.mem_cons.1 hu with rfl | hmem
        · exact le_refl _
        · exact le_trans hle (hv u hmem)
      · simp [hle] at h
        subst h
        rcases List.mem_cons.1 hu with rfl | hmem
        · omega
        · exact hv u hmem

theorem popStep_queue (s : PrecisionTimerEngine) (t : Nat) :
    (s.popStep t)._timerQueue = s._timerQueue.erase t := by
  unfold popStep
  simp only []
  split <;> rfl

theorem popStep_reads (s : PrecisionTimerEngine) (t : Nat) :
    (s.popStep t).reads = s.reads := by
  unfold popStep
  simp only []
  split <;> rfl

theorem top_mem (s : PrecisionTimerEngine) (t : Nat) (h : s.top = some t) :
    t ∈ s._timerQueue := topOf_mem _ _ _ h

theorem drain_fuel (current : Nat) :
    ∀ (fuel : Nat) (s : PrecisionTimerEngine), s._timerQueue.length < fuel →
      drain current fuel s ≠ Inner.diverged := by
  intro fuel
  induction fuel with
  | zero => intro s h; omega
  | succ n ih =>
    intro s h
    simp only [drain]
    cases htop : s.top with
    | none => simp
    | some t =>
      simp only []
      split
      · simp
      · split
        · simp
        · apply ih
          rw [popStep_queue, List.length_erase_of_mem (top_mem s t htop)]
          have : 0 < s._timerQueue.length := List.length_pos_of_mem (top_mem s t htop)
          omega

theorem drain_spec (P : PrecisionTimerEngine → Prop) (current : Nat)
    (hpop : ∀ s t, P s → s.top = some t → (s.nodes t)._deadline ≤ current →
      (s.nodes t)._state = TimerState.queued → P (s.popStep t)) :
    ∀ (fuel : Nat) (s : PrecisionTimerEngine), P s →
      match drain current fuel s with
      | Inner.returned s1 => ∃ s0, P s0 ∧ s0._timerQueue = [] ∧ s1 = s0.arm 0
      | Inner.broke s1 => P s1 ∧ ∃ t, s1.top = some t ∧ current < (s1.nodes t)._deadline
      | Inner.fatal s1 => P s1 ∧ ∃ t, s1.top = some t ∧ (s1.nodes t)._state ≠ TimerState.queued
      | Inner.diverged => True := by
  intro fuel
  induction fuel with
  | zero => intro s _; simp [drain]
  | succ n ih =>
    intro s hP
    simp only [drain]
    cases htop : s.top with
    | none =>
      simp only []
      exact ⟨s, hP, (topOf_eq_none _ _).1 htop, rfl⟩
    | some t =>
      simp only []
      by_cases hd : (s.nodes t)._deadline > current
      · rw [if_pos hd]
        exact ⟨hP, t, htop, hd⟩
      · rw [if_neg hd]
        by_cases hs : (s.nodes t)._state ≠ TimerState.queued
        · rw [if_pos hs]
          exact ⟨hP, t, htop, hs⟩
        · rw [if_neg hs]
          exact ih _ (hpop s t hP htop (by omega) (by simpa using hs))

theorem top_arm_read (clock : Nat → Nat) (s : PrecisionTimerEngine) (d : Nat) :
    ((s.arm d).read clock).top = s.top := rfl

theorem progressLoop_spec (P : PrecisionTimerEngine → Prop) (clock : Nat → Nat)
    (hq : ∀ s t, P s → s.top = some t → (s.nodes t)._state = TimerState.queued)
    (hpop : ∀ s t k, P s → k < s.reads → s.top = some t →
      (s.nodes t)._deadline ≤ clock k → P (s.popStep t))
    (harm : ∀ s d, P s → P (s.arm d))
    (hread : ∀ s, P s → P (s.read clock)) :
    ∀ (fuel k : Nat) (s : PrecisionTimerEngine), P s → k < s.reads →
      (s._timerQueue.length < fuel ∨
        (s._timerQueue.length ≤ fuel ∧ 0 < fuel ∧
          ∃ t, s.top = some t ∧ (s.nodes t)._deadline ≤ clock k)) →
      ∃ s1, progressLoop clock fuel (clock k) s = Outcome.ok s1 ∧ P s1 ∧
        ProgressPost clock s1 := by
  intro fuel
  induction fuel with
  | zero =>
    intro k s _ _ hf
    rcases hf with hf | ⟨_, hf, _⟩ <;> omega
  | succ n ih =>
    intro k s hP hk hf
    have hdiv := drain_fuel (clock k) (s._timerQueue.length + 1) s (by omega)
    have hsp := drain_spec
      (fun s1 => P s1 ∧ s1.reads = s.reads ∧ s1._timerQueue.length ≤ s._timerQueue.length ∧
        (s1._timerQueue.length = s._timerQueue.length → s1 = s))
      (clock k)
      (by
        rintro s1 t ⟨h1, h2, h3, _⟩ htop hd _
        have hmem := top_mem s1 t htop
        have hpos : 0 < s1._timerQueue.length := List.length_pos_of_mem hmem
        refine ⟨hpop s1 t k h1 (by omega) htop hd, ?_, ?_, ?_⟩
        · rw [popStep_reads, h2]
        · rw [popStep_queue, List.length_erase_of_mem hmem]; omega
        · rw [popStep_queue, List.length_erase_of_mem hmem]; intro h; omega)
      (s._timerQueue.length + 1) s ⟨hP, rfl, le_refl _, fun _ => rfl⟩
    simp only [progressLoop]
    cases hdr : drain (clock k) (s._timerQueue.length + 1) s with
    | diverged => exact absurd hdr hdiv
    | returned s1 =>
      rw [hdr] at hsp
      obtain ⟨s0, ⟨hP0, _, _, _⟩, hq0, rfl⟩ := hsp
      exact ⟨_, rfl, harm s0 0 hP0, Or.inl ⟨hq0, s0.trace, rfl⟩⟩
    | fatal s1 =>
      rw [hdr] at hsp
      obtain ⟨⟨hP1, _, _, _⟩, t, htop, hne⟩ := hsp
      exact absurd (hq s1 t hP1 htop) hne
    | broke s1 =>
      rw [hdr] at hsp
      obtain ⟨⟨hP1, hr1, hlen1, hsame⟩, t, htop, hlt⟩ := hsp
      simp only [htop, top_arm_read]
      have hP3 : P ((s1.arm (s1.nodes t)._deadline).read clock) := hread _ (harm _ _ hP1)
      have hpos : 0 < s1._timerQueue.length := List.length_pos_of_mem (top_mem s1 t htop)
      have hlen : s1._timerQueue.length ≤ n := by
        rcases hf with hf | ⟨hf1, _, u, hu, hud⟩
        · omega
        · have hne : s1._timerQueue.length ≠ s._timerQueue.length := by
            intro heq
            have := hsame heq
            subst this
            rw [htop] at hu
            cases hu
            omega
          omega
      by_cases hdue : (s1.nodes t)._deadline ≤ clock s1.reads
      · have : (((s1.arm (s1.nodes t)._deadline).read clock).nodes t)._deadline
            ≤ clock (s1.arm (s1.nodes t)._deadline).reads := hdue
        rw [if_pos this]
        exact ih s1.reads _ hP3 (by simp [PrecisionTimerEngine.read, PrecisionTimerEngine.arm])
          (Or.inr ⟨hlen, by omega, t, htop, hdue⟩)
      · have : ¬ (((s1.arm (s1.nodes t)._deadline).read clock).nodes t)._deadline
            ≤ clock (s1.arm (s1.nodes t)._deadline).reads := hdue
        rw [if_neg this]
        refine ⟨_, rfl, hP3, Or.inr ⟨t, s1.trace, htop, ?_, ?_, ?_⟩⟩
        · simp [PrecisionTimerEngine.read, PrecisionTimerEngine.arm]
        · simp [PrecisionTimerEngine.read, PrecisionTimerEngine.arm]
        · simp only [PrecisionTimerEngine.read, PrecisionTimerEngine.arm]
          simp only [Nat.add_sub_cancel]
          omega

theorem popStep_nodes (s : PrecisionTimerEngine) (t u : Nat) :
    (s.popStep t).nodes u =
      if u = t then
        (if (s.nodes t).tokenCancelled then { s.nodes t with _state := TimerState.elapsed }
          else { s.nodes t with cbBound := false, _state := TimerState.retired })
      else s.nodes u := by
  unfold popStep try_reset
  by_cases hc : (s.nodes t).tokenCancelled = true <;>
    by_cases hu : u = t <;> simp [hc, hu, setNode, post]

theorem popStep_trace (s : PrecisionTimerEngine) (t : Nat) :
    (s.popStep t).trace =
      if (s.nodes t).tokenCancelled then s.trace else s.trace ++ [Event.post t] := by
  unfold popStep try_reset
  by_cases hc : (s.nodes t).tokenCancelled = true <;> simp [hc, setNode, post]

theorem popStep_deadline (s : PrecisionTimerEngine) (t u : Nat) :
    ((s.popStep t).nodes u)._deadline = (s.nodes u)._deadline := by
  rw [popStep_nodes]
  by_cases hu : u = t
  · subst hu; by_cases hc : (s.nodes u).tokenCancelled = true <;> simp [hc]
  · simp [hu]

theorem popStep_state_ne (s : PrecisionTimerEngine) (t : Nat) :
    ((s.popStep t).nodes t)._state ≠ TimerState.queued := by
  rw [popStep_nodes]
  by_cases hc : (s.nodes t).tokenCancelled = true <;> simp [hc]

theorem QueueInv_popStep (s : PrecisionTimerEngine) (t : Nat) (h : QueueInv s) :
    QueueInv (s.popStep t) := by
  obtain ⟨hnd, hiff⟩ := h
  refine ⟨by rw [popStep_queue]; exact hnd.erase t, ?_⟩
  intro u
  rw [popStep_queue, hnd.mem_erase_iff]
  by_cases hu : u = t
  · subst hu
    have := popStep_state_ne s u
    simp [this]
  · rw [popStep_nodes, if_neg hu]
    simp [hu, hiff u]

theorem count_post_append (tr : List Event) (t u : Nat) :
    (tr ++ [Event.post t]).count (Event.post u) =
      tr.count (Event.post u) + if u = t then 1 else 0 := by
  rw [List.count_append]
  by_cases h : u = t
  · subst h; simp
  · have : Event.post t ≠ Event.post u := by
      intro he; injection he with he; exact h he.symm
    simp [h, List.count_cons, this]

theorem PostInv_popStep (s : PrecisionTimerEngine) (t : Nat) (h : PostInv s)
    (hs : (s.nodes t)._state = TimerState.queued) : PostInv (s.popStep t) := by
  intro u
  have hu := h u
  unfold postCount at hu ⊢
  rw [popStep_trace, popStep_nodes]
  by_cases hc : (s.nodes t).tokenCancelled = true
  · rw [if_pos hc]
    by_cases hut : u = t
    · subst hut
      rw [hs] at hu
      simpa [hc] using hu
    · simpa [hut] using hu
  · rw [if_neg hc, count_post_append, hu]
    by_cases hut : u = t
    · subst hut
      simp [hc, hs]
    · simp [hut]

theorem count_post_append_other (tr : List Event) (e : Event) (u : Nat)
    (h : e ≠ Event.post u) : (tr ++ [e]).count (Event.post u) = tr.count (Event.post u) := by
  rw [List.count_append]
  simp [List.count_cons, h]

theorem PostInv_arm (s : PrecisionTimerEngine) (d : Nat) (h : PostInv s) :
    PostInv (s.arm d) := by
  intro u
  have hu := h u
  unfold postCount at hu ⊢
  simp only [PrecisionTimerEngine.arm]
  rw [count_post_append_other _ _ _ (by simp)]
  exact hu

theorem PostInv_read (clock : Nat → Nat) (s : PrecisionTimerEngine) (h : PostInv s) :
    PostInv (s.read clock) := by
  intro u
  have hu := h u
  unfold postCount at hu ⊢
  simp only [PrecisionTimerEngine.read]
  rw [count_post_append_other _ _ _ (by simp)]
  exact hu

theorem QueueInv_top_queued (s : PrecisionTimerEngine) (t : Nat) (h : QueueInv s)
    (htop : s.top = some t) : (s.nodes t)._state = TimerState.queued :=
  (h.2 t).1 (top_mem s t htop)

theorem progress_spec (P : PrecisionTimerEngine → Prop) (clock : Nat → Nat)
    (hq : ∀ s t, P s → s.top = some t → (s.nodes t)._state = TimerState.queued)
    (hpop : ∀ s t k, P s → k < s.reads → s.top = some t →
      (s.nodes t)._deadline ≤ clock k → P (s.popStep t))
    (harm : ∀ s d, P s → P (s.arm d))
    (hread : ∀ s, P s → P (s.read clock))
    (s : PrecisionTimerEngine) (hP : P s) :
    ∃ s1, s._progress clock = Outcome.ok s1 ∧ P s1 ∧ ProgressPost clock s1 := by
  unfold _progress
  exact progressLoop_spec P clock hq hpop harm hread _ s.reads _ (hread s hP)
    (by simp [PrecisionTimerEngine.read])
    (Or.inl (by simp [PrecisionTimerEngine.read]))

/-- The two invariants together. -/
theorem progress_inv (clock : Nat → Nat) (s : PrecisionTimerEngine)
    (h : QueueInv s ∧ PostInv s) :
    ∃ s1, s._progress clock = Outcome.ok s1 ∧ (QueueInv s1 ∧ PostInv s1) ∧
      ProgressPost clock s1 :=
  progress_spec (fun s => QueueInv s ∧ PostInv s) clock
    (fun s t h htop => QueueInv_top_queued s t h.1 htop)
    (fun s t _ h _ htop _ =>
      ⟨QueueInv_popStep s t h.1, PostInv_popStep s t h.2 (QueueInv_top_queued s t h.1 htop)⟩)
    (fun s d h => ⟨h.1, PostInv_arm s d h.2⟩)
    (fun s h => ⟨h.1, PostInv_read clock s h.2⟩) s h

theorem installTimer_fresh (clock : Nat → Nat) (s : PrecisionTimerEngine) (t : Nat)
    (he : (s.nodes t)._engine = false) (hs : (s.nodes t)._state = TimerState.none) :
    s.installTimer clock t =
      if (s.nodes t).tokenCancelled then Outcome.ok (installRetired s t)
      else (installQueued s t)._progress clock := by
  unfold installTimer
  by_cases hc : (s.nodes t).tokenCancelled = true
  · simp only [he, hs, hc, setNode, try_set, post, installRetired]
    simp only [if_true, Bool.false_eq_true, if_false, ne_eq, not_true_eq_false, Bool.not_false]
    congr 2
    funext u
    by_cases hu : u = t <;> simp [hu]
  · simp only [Bool.not_eq_true] at hc
    simp only [he, hs, hc, setNode, try_set, post, installQueued]
    simp only [if_true, Bool.false_eq_true, if_false, ne_eq, not_true_eq_false, Bool.not_true]
    congr 2
    funext u
    by_cases hu : u = t <;> simp [hu]

theorem installTimer_ok_fresh (clock : Nat → Nat) (s s1 : PrecisionTimerEngine) (t : Nat)
    (h : s.installTimer clock t = Outcome.ok s1) :
    (s.nodes t)._engine = false ∧ (s.nodes t)._state = TimerState.none := by
  unfold installTimer at h
  by_cases he : (s.nodes t)._engine = true
  · simp [he] at h
  · simp only [Bool.not_eq_true] at he
    refine ⟨he, ?_⟩
    by_contra hs
    simp [he, hs, setNode] at h

theorem cancelTimer_queued (s : PrecisionTimerEngine) (t : Nat)
    (hs : (s.nodes t)._state = TimerState.queued) :
    s.cancelTimer t = Outcome.ok
      { s with
        nodes := fun u => if u = t then
          { s.nodes t with _wasCancelled := true, _state := TimerState.retired }
          else s.nodes u,
        _timerQueue := s._timerQueue.erase t,
        _activeTimers := (s._activeTimers + wordSize - 1) % wordSize,
        trace := s.trace ++ [Event.post t] } := by
  unfold cancelTimer
  simp only [hs, if_true, setNode, post]
  congr 2
  funext u
  by_cases hu : u = t <;> simp [hu]

theorem cancelTimer_elapsed (s : PrecisionTimerEngine) (t : Nat)
    (hs : (s.nodes t)._state = TimerState.elapsed) :
    s.cancelTimer t = Outcome.ok
      { s with
        nodes := fun u => if u = t then { s.nodes t with _state := TimerState.retired }
          else s.nodes u,
        trace := s.trace ++ [Event.post t] } := by
  unfold cancelTimer
  simp [hs, setNode, post]

theorem cancelTimer_other (s : PrecisionTimerEngine) (t : Nat)
    (hq : (s.nodes t)._state ≠ TimerState.queued)
    (he : (s.nodes t)._state ≠ TimerState.elapsed) :
    s.cancelTimer t = Outcome.fatal s := by
  unfold cancelTimer
  simp [hq, he]

theorem inv_installRetired (s : PrecisionTimerEngine) (t : Nat)
    (hs : (s.nodes t)._state = TimerState.none) (h : QueueInv s ∧ PostInv s) :
    QueueInv (installRetired s t) ∧ PostInv (installRetired s t) := by
  obtain ⟨⟨hnd, hiff⟩, hpost⟩ := h
  refine ⟨⟨hnd, ?_⟩, ?_⟩
  · intro u
    simp only [installRetired]
    by_cases hu : u = t
    · subst hu
      have := hiff u
      rw [hs] at this
      simpa using this
    · simpa [hu] using hiff u
  · intro u
    have hu := hpost u
    unfold postCount at hu ⊢
    simp only [installRetired]
    rw [count_post_append, hu]
    by_cases hut : u = t
    · subst hut; simp [hs]
    · simp [hut]

theorem QueueInv_installQueued (s : PrecisionTimerEngine) (t : Nat)
    (hs : (s.nodes t)._state = TimerState.none) (h : QueueInv s) :
    QueueInv (installQueued s t) := by
  obtain ⟨hnd, hiff⟩ := h
  have hnot : t ∉ s._timerQueue := by
    intro hmem
    have := (hiff t).1 hmem
    rw [hs] at this
    cases this
  refine ⟨?_, ?_⟩
  · simp only [installQueued]
    rw [List.nodup_append]
    refine ⟨hnd, by simp, ?_⟩
    intro a ha hb
    simp at hb
    subst hb
    exact hnot ha
  · intro u
    simp only [installQueued]
    by_cases hu : u = t
    · subst hu; simp
    · simpa [hu] using hiff u

theorem inv_installQueued (s : PrecisionTimerEngine) (t : Nat)
    (hs : (s.nodes t)._state = TimerState.none) (h : QueueInv s ∧ PostInv s) :
    QueueInv (installQueued s t) ∧ PostInv (installQueued s t) := by
  refine ⟨QueueInv_installQueued s t hs h.1, ?_⟩
  obtain ⟨_, hpost⟩ := h
  intro u
  have hu := hpost u
  unfold postCount at hu ⊢
  simp only [installQueued]
  by_cases hut : u = t
  · subst hut
    rw [hs] at hu
    simpa using hu
  · simpa [hut] using hu

theorem progress_queueInv (clock : Nat → Nat) (s : PrecisionTimerEngine) (h : QueueInv s) :
    ∃ s1, s._progress clock = Outcome.ok s1 ∧ QueueInv s1 ∧ ProgressPost clock s1 :=
  progress_spec QueueInv clock
    (fun s t h htop => QueueInv_top_queued s t h htop)
    (fun s t _ h _ _ _ => QueueInv_popStep s t h)
    (fun _ _ h => h) (fun _ h => h) s h

theorem installTimer_inv (clock : Nat → Nat) (s s1 : PrecisionTimerEngine) (t : Nat)
    (h : QueueInv s ∧ PostInv s) (hok : s.installTimer clock t = Outcome.ok s1) :
    QueueInv s1 ∧ PostInv s1 := by
  obtain ⟨he, hs⟩ := installTimer_ok_fresh clock s s1 t hok
  rw [installTimer_fresh clock s t he hs] at hok
  by_cases hc : (s.nodes t).tokenCancelled = true
  · rw [if_pos hc] at hok
    injection hok with hok
    subst hok
    exact inv_installRetired s t hs h
  · rw [if_neg hc] at hok
    obtain ⟨s2, h2, hinv, _⟩ := progress_inv clock _ (inv_installQueued s t hs h)
    rw [h2] at hok
    injection hok with hok
    subst hok
    exact hinv

theorem cancelTimer_inv (s s1 : PrecisionTimerEngine) (t : Nat)
    (h : QueueInv s ∧ PostInv s) (hok : s.cancelTimer t = Outcome.ok s1) :
    QueueInv s1 ∧ PostInv s1 := by
  obtain ⟨⟨hnd, hiff⟩, hpost⟩ := h
  by_cases hq : (s.nodes t)._state = TimerState.queued
  · rw [cancelTimer_queued s t hq] at hok
    injection hok with hok
    subst hok
    refine ⟨⟨hnd.erase t, ?_⟩, ?_⟩
    · intro u
      simp only []
      rw [hnd.mem_erase_iff]
      by_cases hu : u = t
      · subst hu; simp
      · simpa [hu] using hiff u
    · intro u
      have hu := hpost u
      unfold postCount at hu ⊢
      simp only []
      rw [count_post_append, hu]
      by_cases hut : u = t
      · subst hut; simp [hq]
      · simp [hut]
  · by_cases he : (s.nodes t)._state = TimerState.elapsed
    · rw [cancelTimer_elapsed s t he] at hok
      injection hok with hok
      subst hok
      refine ⟨⟨hnd, ?_⟩, ?_⟩
      · intro u
        simp only []
        by_cases hu : u = t
        · subst hu
          have := hiff u
          rw [he] at this
          simpa using this
        · simpa [hu] using hiff u
      · intro u
        have hu := hpost u
        unfold postCount at hu ⊢
        simp only []
        rw [count_post_append, hu]
        by_cases hut : u = t
        · subst hut; simp [he]
        · simp [hut]
    · rw [cancelTimer_other s t hq he] at hok
      cases hok

theorem requestCancel_inv (s : PrecisionTimerEngine) (t : Nat) (h : QueueInv s ∧ PostInv s) :
    QueueInv (requestCancel s t) ∧ PostInv (requestCancel s t) := by
  obtain ⟨⟨hnd, hiff⟩, hpost⟩ := h
  refine ⟨⟨hnd, ?_⟩, ?_⟩
  · intro u
    simp only [requestCancel, setNode]
    by_cases hu : u = t
    · subst hu; simpa using hiff u
    · simpa [hu] using hiff u
  · intro u
    have hu := hpost u
    unfold postCount at hu ⊢
    simp only [requestCancel, setNode]
    by_cases hut : u = t
    · subst hut; simpa using hu
    · simpa [hut] using hu

theorem applyOp_inv (clock : Nat → Nat) (s s1 : PrecisionTimerEngine) (op : TimerOp)
    (h : QueueInv s ∧ PostInv s) (hok : applyOp clock s op = Outcome.ok s1) :
    QueueInv s1 ∧ PostInv s1 := by
  cases op with
  | install t => exact installTimer_inv clock s s1 t h hok
  | cancel t => exact cancelTimer_inv s s1 t h hok
  | fired =>
    obtain ⟨s2, h2, hinv, _⟩ := progress_inv clock s h
    simp only [applyOp, firedAlarm] at hok
    rw [h2] at hok
    injection hok with hok
    subst hok
    exact hinv
  | request t =>
    simp only [applyOp] at hok
    injection hok with hok
    subst hok
    exact requestCancel_inv s t h

theorem runOps_inv (clock : Nat → Nat) :
    ∀ (ops : List TimerOp) (s s1 : PrecisionTimerEngine), QueueInv s ∧ PostInv s →
      runOps clock ops s = Outcome.ok s1 → QueueInv s1 ∧ PostInv s1 := by
  intro ops
  induction ops with
  | nil =>
    intro s s1 h hok
    simp only [runOps] at hok
    injection hok with hok
    subst hok
    exact h
  | cons op ops ih =>
    intro s s1 h hok
    simp only [runOps] at hok
    cases hop : applyOp clock s op with
    | ok s2 =>
      rw [hop] at hok
      exact ih s2 s1 (applyOp_inv clock s s2 op h hop) hok
    | fatal s2 => rw [hop] at hok; cases hok
    | diverged => rw [hop] at hok; cases hok

theorem initialEngine_inv (deadline : Nat → Nat) (cancelled : Nat → Bool) :
    QueueInv (initialEngine deadline cancelled) ∧ PostInv (initialEngine deadline cancelled) := by
  refine ⟨⟨by simp [initialEngine], ?_⟩, ?_⟩
  · intro t; simp [initialEngine, freshNode]
  · intro t; simp [postCount, initialEngine, freshNode]

theorem lastArm_append (a b : List Event) (d : Nat) (h : lastArm b = some d) :
    lastArm (a ++ b) = some d := by
  induction a with
  | nil => simpa using h
  | cons e es ih =>
    show lastArm (e :: (es ++ b)) = some d
    simp only [lastArm, ih]

theorem lastRead_append (a b : List Event) (v : Nat) (h : lastRead b = some v) :
    lastRead (a ++ b) = some v := by
  induction a with
  | nil => simpa using h
  | cons e es ih =>
    show lastRead (e :: (es ++ b)) = some v
    simp only [lastRead, ih]

theorem ProgressPost_settled (clock : Nat → Nat) (s : PrecisionTimerEngine)
    (h : ProgressPost clock s) : AlarmSettled s ∧ NoneOverdue s := by
  rcases h with ⟨hq, tr, htr⟩ | ⟨t, tr, htop, _, htr, hlt⟩
  · refine ⟨Or.inl ⟨hq, ?_, tr, htr⟩, ?_⟩
    · rw [htr]; exact lastArm_append _ _ _ rfl
    · intro u hu; rw [hq] at hu; cases hu
  · have hmin := topOf_le _ _ _ htop
    have hr : lastRead s.trace = some (clock (s.reads - 1)) := by
      rw [htr]; exact lastRead_append _ _ _ rfl
    refine ⟨Or.inr ⟨t, tr, _, List.ne_nil_of_mem (top_mem s t htop), htop, hmin, htr, ?_, hr,
      hlt⟩, ?_⟩
    · rw [htr]; exact lastArm_append _ _ _ rfl
    · intro u hu v hv
      rw [hr] at hv
      injection hv with hv
      subst hv
      exact lt_of_lt_of_le hlt (hmin u hu)

theorem installTimer_total (clock : Nat → Nat) (s : PrecisionTimerEngine) (t : Nat)
    (h : QueueInv s ∧ PostInv s) :
    ∃ s1, (s.installTimer clock t = Outcome.ok s1 ∨ s.installTimer clock t = Outcome.fatal s1) ∧
      QueueInv s1 ∧ PostInv s1 := by
  by_cases he : (s.nodes t)._engine = true
  · exact ⟨s, Or.inr (by simp [installTimer, he]), h⟩
  · simp only [Bool.not_eq_true] at he
    by_cases hs : (s.nodes t)._state = TimerState.none
    · by_cases hc : (s.nodes t).tokenCancelled = true
      · refine ⟨installRetired s t, Or.inl ?_, inv_installRetired s t hs h⟩
        rw [installTimer_fresh clock s t he hs, if_pos hc]
      · obtain ⟨s1, h1, hinv, _⟩ := progress_inv clock _ (inv_installQueued s t hs h)
        refine ⟨s1, Or.inl ?_, hinv⟩
        rw [installTimer_fresh clock s t he hs, if_neg hc]
        exact h1
    · refine ⟨s.setNode t { s.nodes t with _engine := true }, Or.inr ?_, ?_, ?_⟩
      · simp [installTimer, he, hs, setNode]
      · refine ⟨h.1.1, ?_⟩
        intro u
        simp only [setNode]
        by_cases hu : u = t
        · subst hu; simpa using h.1.2 u
        · simpa [hu] using h.1.2 u
      · intro u
        have hu := h.2 u
        unfold postCount at hu ⊢
        simp only [setNode]
        by_cases hut : u = t
        · subst hut; simpa using hu
        · simpa [hut] using hu

theorem cancelTimer_total (s : PrecisionTimerEngine) (t : Nat) (h : QueueInv s ∧ PostInv s) :
    ∃ s1, (s.cancelTimer t = Outcome.ok s1 ∨ s.cancelTimer t = Outcome.fatal s1) ∧
      QueueInv s1 ∧ PostInv s1 := by
  by_cases hq : (s.nodes t)._state = TimerState.queued
  · exact ⟨_, Or.inl (cancelTimer_queued s t hq),
      cancelTimer_inv s _ t h (cancelTimer_queued s t hq)⟩
  · by_cases he : (s.nodes t)._state = TimerState.elapsed
    · exact ⟨_, Or.inl (cancelTimer_elapsed s t he),
        cancelTimer_inv s _ t h (cancelTimer_elapsed s t he)⟩
    · exact ⟨s, Or.inr (cancelTimer_other s t hq he), h⟩

theorem applyOp_total (clock : Nat → Nat) (s : PrecisionTimerEngine) (op : TimerOp)
    (h : QueueInv s ∧ PostInv s) :
    ∃ s1, (applyOp clock s op = Outcome.ok s1 ∨ applyOp clock s op = Outcome.fatal s1) ∧
      QueueInv s1 ∧ PostInv s1 := by
  cases op with
  | install t => exact installTimer_total clock s t h
  | cancel t => exact cancelTimer_total s t h
  | fired =>
    obtain ⟨s1, h1, hinv, _⟩ := progress_inv clock s h
    exact ⟨s1, Or.inl h1, hinv⟩
  | request t => exact ⟨_, Or.inl rfl, requestCancel_inv s t h⟩

theorem runOps_total (clock : Nat → Nat) :
    ∀ (ops : List TimerOp) (s : PrecisionTimerEngine), QueueInv s ∧ PostInv s →
      ∃ s1, (runOps clock ops s = Outcome.ok s1 ∨ runOps clock ops s = Outcome.fatal s1) ∧
        QueueInv s1 ∧ PostInv s1 := by
  intro ops
  induction ops with
  | nil => intro s h; exact ⟨s, Or.inl rfl, h⟩
  | cons op ops ih =>
    intro s h
    obtain ⟨s1, h1, hinv⟩ := applyOp_total clock s op h
    rcases h1 with h1 | h1
    · obtain ⟨s2, h2, hinv2⟩ := ih s1 hinv
      refine ⟨s2, ?_, hinv2⟩
      simp only [runOps, h1]
      exact h2
    · refine ⟨s1, Or.inr ?_, hinv⟩
      simp only [runOps, h1]

/-- C1: every sequential interleaving of `installTimer`, `cancelTimer`, `firedAlarm` and
cancellation requests on a fresh engine ends by returning or at a failed assertion of
an entry point, and in the state it ends in the completion sink of each request has
been posted exactly once if the request is retired and not at all otherwise, whichever
of cancel and expiry came first. -/
theorem C1_completion_posted_exactly_once (clock deadline : Nat → Nat)
    (cancelled : Nat → Bool) (ops : List TimerOp) :
    ∃ s, (runOps clock ops (initialEngine deadline cancelled) = Outcome.ok s ∨
        runOps clock ops (initialEngine deadline cancelled) = Outcome.fatal s) ∧
      ∀ t, postCount s t = if (s.nodes t)._state = TimerState.retired then 1 else 0 := by
  obtain ⟨s, hs, hinv⟩ := runOps_total clock ops _ (initialEngine_inv deadline cancelled)
  exact ⟨s, hs, hinv.2⟩

/-- Witness for C1: expiry first (the claim of the delivery fails, the handler
delivers) and cancel first; both runs return with the request retired and one post. -/
theorem C1_completion_posted_exactly_once_witness :
    (∃ s, runOps scenarioClock
        [TimerOp.install 0, TimerOp.request 0, TimerOp.fired, TimerOp.cancel 0]
        (initialEngine (fun _ => 150) (fun _ => false)) = Outcome.ok s ∧
      (s.nodes 0)._state = TimerState.retired ∧ postCount s 0 = 1) ∧
    (∃ s, runOps scenarioClock
        [TimerOp.install 0, TimerOp.request 0, TimerOp.cancel 0, TimerOp.fired]
        (initialEngine (fun _ => 150) (fun _ => false)) = Outcome.ok s ∧
      (s.nodes 0)._state = TimerState.retired ∧ postCount s 0 = 1) := by
  constructor
  · obtain ⟨s, hs, hp⟩ := C1_completion_posted_exactly_once scenarioClock (fun _ => 150)
      (fun _ => false) [TimerOp.install 0, TimerOp.request 0, TimerOp.fired, TimerOp.cancel 0]
    have hrun : runOps scenarioClock
        [TimerOp.install 0, TimerOp.request 0, TimerOp.fired, TimerOp.cancel 0]
        (initialEngine (fun _ => 150) (fun _ => false)) = Outcome.ok _ := rfl
    rw [hrun] at hs
    rcases hs with hs | hs
    · injection hs with hs
      subst hs
      exact ⟨_, hrun, by decide, by rw [hp 0]; decide⟩
    · cases hs
  · obtain ⟨s, hs, hp⟩ := C1_completion_posted_exactly_once scenarioClock (fun _ => 150)
      (fun _ => false) [TimerOp.install 0, TimerOp.request 0, TimerOp.cancel 0, TimerOp.fired]
    have hrun : runOps scenarioClock
        [TimerOp.install 0, TimerOp.request 0, TimerOp.cancel 0, TimerOp.fired]
        (initialEngine (fun _ => 150) (fun _ => false)) = Outcome.ok _ := rfl
    rw [hrun] at hs
    rcases hs with hs | hs
    · injection hs with hs
      subst hs
      exact ⟨_, hrun, by decide, by rw [hp 0]; decide⟩
    · cases hs

theorem progressLoop_post (clock : Nat → Nat) :
    ∀ (fuel current : Nat) (s s1 : PrecisionTimerEngine),
      progressLoop clock fuel current s = Outcome.ok s1 → ProgressPost clock s1 := by
  intro fuel
  induction fuel with
  | zero => intro current s s1 h; simp [progressLoop] at h
  | succ n ih =>
    intro current s s1 h
    have hsp := drain_spec (fun _ => True) current (fun _ _ _ _ _ _ => trivial)
      (s._timerQueue.length + 1) s trivial
    simp only [progressLoop] at h
    cases hdr : drain current (s._timerQueue.length + 1) s with
    | diverged => rw [hdr] at h; cases h
    | fatal s2 => rw [hdr] at h; cases h
    | returned s2 =>
      rw [hdr] at h hsp
      injection h with h
      subst h
      obtain ⟨s0, _, hq0, rfl⟩ := hsp
      exact Or.inl ⟨hq0, s0.trace, rfl⟩
    | broke s2 =>
      rw [hdr] at h hsp
      obtain ⟨_, t, htop, _⟩ := hsp
      simp only [htop, top_arm_read] at h
      by_cases hdue : (s2.nodes t)._deadline ≤ clock s2.reads
      · have hd : (((s2.arm (s2.nodes t)._deadline).read clock).nodes t)._deadline
            ≤ clock (s2.arm (s2.nodes t)._deadline).reads := hdue
        rw [if_pos hd] at h
        exact ih _ _ _ h
      · have hd : ¬ (((s2.arm (s2.nodes t)._deadline).read clock).nodes t)._deadline
            ≤ clock (s2.arm (s2.nodes t)._deadline).reads := hdue
        rw [if_neg hd] at h
        injection h with h
        subst h
        refine Or.inr ⟨t, s2.trace, htop, ?_, ?_, ?_⟩
        · simp [PrecisionTimerEngine.read, PrecisionTimerEngine.arm]
        · simp [PrecisionTimerEngine.read, PrecisionTimerEngine.arm]
        · simp only [PrecisionTimerEngine.read, PrecisionTimerEngine.arm]
          simp only [Nat.add_sub_cancel]
          omega

/-- C2: whenever the progress step returns, in `firedAlarm` or in `installTimer`, for
every clock: either nothing is pending and the last `Alarm.arm` call had argument 0, or
the collection is non-empty, the last `Alarm.arm` call had the earliest pending
deadline as argument and the clock value read after it is strictly below that
deadline; no request due at the last clock reading stays queued.  From a well-formed
pending collection the progress step does return.  In the install/fire scenario the
timer ends retired, posted once, the collection empty and the alarm disarmed. -/
theorem C2_progress_leaves_alarm_settled (clock : Nat → Nat) (s : PrecisionTimerEngine) :
    (∀ s1, s.firedAlarm clock = Outcome.ok s1 → AlarmSettled s1 ∧ NoneOverdue s1) ∧
    (∀ t s1, (s.nodes t).tokenCancelled = false → s.installTimer clock t = Outcome.ok s1 →
      AlarmSettled s1 ∧ NoneOverdue s1) ∧
    (QueueInv s → ∃ s1, s.firedAlarm clock = Outcome.ok s1) ∧
    (QueueInv s → ∀ t, (s.nodes t)._engine = false → (s.nodes t)._state = TimerState.none →
      (s.nodes t).tokenCancelled = false → ∃ s1, s.installTimer clock t = Outcome.ok s1) ∧
    (∃ s2, runOps scenarioClock [TimerOp.install 0, TimerOp.fired]
        (initialEngine (fun _ => 150) (fun _ => false)) = Outcome.ok s2 ∧
      (s2.nodes 0)._state = TimerState.retired ∧ postCount s2 0 = 1 ∧
      s2._timerQueue = [] ∧ lastArm s2.trace = some 0) := by
  refine ⟨?_, ?_, ?_, ?_, ⟨_, rfl, by decide, by decide, by decide, by decide⟩⟩
  · intro s1 h
    exact ProgressPost_settled clock s1 (progressLoop_post clock _ _ _ s1 h)
  · intro t s1 hc h
    obtain ⟨he, hs⟩ := installTimer_ok_fresh clock s s1 t h
    rw [installTimer_fresh clock s t he hs, hc] at h
    simp only [Bool.false_eq_true, if_false] at h
    exact ProgressPost_settled clock s1 (progressLoop_post clock _ _ _ s1 h)
  · intro hinv
    obtain ⟨s1, h1, _⟩ := progress_queueInv clock s hinv
    exact ⟨s1, h1⟩
  · intro hinv t he hs hc
    obtain ⟨s1, h1, _⟩ := progress_queueInv clock _ (QueueInv_installQueued s t hs hinv)
    refine ⟨s1, ?_⟩
    rw [installTimer_fresh clock s t he hs, hc]
    simpa using h1

/-- Witness for C2: the engine holding one timer with deadline 150, the clock at 150;
`firedAlarm` returns and leaves the alarm settled. -/
theorem C2_progress_leaves_alarm_settled_witness :
    ∃ s1, (installQueued (initialEngine (fun _ => 150) (fun _ => false)) 0).firedAlarm
        (fun _ => 150) = Outcome.ok s1 ∧ AlarmSettled s1 ∧ NoneOverdue s1 := by
  obtain ⟨s1, h1⟩ := (C2_progress_leaves_alarm_settled (fun _ => 150)
    (installQueued (initialEngine (fun _ => 150) (fun _ => false)) 0)).2.2.1
    (QueueInv_installQueued _ 0 rfl (initialEngine_inv _ _).1)
  exact ⟨s1, h1, (C2_progress_leaves_alarm_settled (fun _ => 150)
    (installQueued (initialEngine (fun _ => 150) (fun _ => false)) 0)).1 s1 h1⟩

/-- C4: in every state reached from a fresh engine through `installTimer`,
`cancelTimer` and `firedAlarm` calls that return (and cancellation requests), a request
is in the pending collection exactly when its state is queued, and every further
operation that returns preserves this. -/
theorem C4_pending_iff_queued (clock deadline : Nat → Nat) (cancelled : Nat → Bool)
    (ops : List TimerOp) (s : PrecisionTimerEngine)
    (hrun : runOps clock ops (initialEngine deadline cancelled) = Outcome.ok s) :
    (∀ t, t ∈ s._timerQueue ↔ (s.nodes t)._state = TimerState.queued) ∧
    (∀ op s1, applyOp clock s op = Outcome.ok s1 →
      ∀ t, t ∈ s1._timerQueue ↔ (s1.nodes t)._state = TimerState.queued) := by
  have h := runOps_inv clock ops _ s (initialEngine_inv deadline cancelled) hrun
  exact ⟨h.1.2, fun op s1 hop => (applyOp_inv clock s s1 op h hop).1.2⟩

/-- Witness for C4: two timers installed, the later one cancelled, the earlier one
left pending. -/
theorem C4_pending_iff_queued_witness :
    ∃ s, runOps (fun _ => 100) [TimerOp.install 0, TimerOp.install 1, TimerOp.cancel 1]
        (initialEngine (fun t => 150 + t) (fun _ => false)) = Outcome.ok s ∧
      s._timerQueue = [0] ∧
      (∀ t, t ∈ s._timerQueue ↔ (s.nodes t)._state = TimerState.queued) :=
  ⟨_, rfl, by decide,
    (C4_pending_iff_queued (fun _ => 100) (fun t => 150 + t) (fun _ => false)
      [TimerOp.install 0, TimerOp.install 1, TimerOp.cancel 1] _ rfl).1⟩

theorem posted_append (a b : List Event) : posted (a ++ b) = posted a ++ posted b := by
  induction a with
  | nil => rfl
  | cons e es ih =>
    cases e with
    | arm d => simpa [posted] using ih
    | read v => simpa [posted] using ih
    | post t => simpa [posted] using ih

theorem OrderInv_popStep (clock deadline : Nat → Nat) (s : PrecisionTimerEngine) (t k : Nat)
    (h : OrderInv clock deadline s) (hk : k < s.reads) (htop : s.top = some t)
    (hd : (s.nodes t)._deadline ≤ clock k) : OrderInv clock deadline (s.popStep t) := by
  obtain ⟨hdl, hnc, hsorted, hle, hreached⟩ := h
  have hmin := topOf_le _ _ _ htop
  have htr : (s.popStep t).trace = s.trace ++ [Event.post t] := by
    rw [popStep_trace, hnc t]; simp
  have hposted : posted (s.popStep t).trace = posted s.trace ++ [t] := by
    rw [htr, posted_append]; rfl
  refine ⟨?_, ?_, ?_, ?_, ?_⟩
  · intro u; rw [popStep_deadline]; exact hdl u
  · intro u
    rw [popStep_nodes]
    by_cases hu : u = t
    · subst hu; simp [hnc u]
    · simp [hu, hnc u]
  · unfold DeadlineOrdered at hsorted ⊢
    rw [hposted, List.map_append, List.pairwise_append]
    refine ⟨hsorted, by simp, ?_⟩
    intro a ha b hb
    simp at hb
    subst hb
    obtain ⟨p, hp, rfl⟩ := List.mem_map.1 ha
    exact hle p hp t (top_mem s t htop)
  · intro p hp u hu
    rw [popStep_queue] at hu
    have hu' := List.mem_of_mem_erase hu
    rw [hposted] at hp
    rcases List.mem_append.1 hp with hp | hp
    · exact hle p hp u hu'
    · simp at hp
      subst hp
      have := hmin u hu'
      simpa [hdl] using this
  · intro p hp
    rw [hposted] at hp
    rw [popStep_reads]
    rcases List.mem_append.1 hp with hp | hp
    · exact hreached p hp
    · simp at hp
      subst hp
      exact ⟨k, hk, by rw [← hdl p]; exact hd⟩

theorem OrderInv_arm (clock deadline : Nat → Nat) (s : PrecisionTimerEngine) (d : Nat)
    (h : OrderInv clock deadline s) : OrderInv clock deadline (s.arm d) := by
  obtain ⟨hdl, hnc, hsorted, hle, hreached⟩ := h
  have hposted : posted (s.arm d).trace = posted s.trace := by
    simp [PrecisionTimerEngine.arm, posted_append, posted]
  refine ⟨hdl, hnc, ?_, ?_, ?_⟩
  · unfold DeadlineOrdered; rw [hposted]; exact hsorted
  · rw [hposted]; exact hle
  · rw [hposted]; exact hreached

theorem OrderInv_read (clock deadline : Nat → Nat) (s : PrecisionTimerEngine)
    (h : OrderInv clock deadline s) : OrderInv clock deadline (s.read clock) := by
  obtain ⟨hdl, hnc, hsorted, hle, hreached⟩ := h
  have hposted : posted (s.read clock).trace = posted s.trace := by
    simp [PrecisionTimerEngine.read, posted_append, posted]
  refine ⟨hdl, hnc, ?_, ?_, ?_⟩
  · unfold DeadlineOrdered; rw [hposted]; exact hsorted
  · rw [hposted]; exact hle
  · rw [hposted]
    intro p hp
    obtain ⟨k, hk, hkd⟩ := hreached p hp
    exact ⟨k, by simp only [PrecisionTimerEngine.read]; omega, hkd⟩

theorem progress_orderInv (clock deadline : Nat → Nat) (s : PrecisionTimerEngine)
    (h : QueueInv s ∧ OrderInv clock deadline s) :
    ∃ s1, s._progress clock = Outcome.ok s1 ∧ QueueInv s1 ∧ OrderInv clock deadline s1 := by
  obtain ⟨s1, h1, hP, _⟩ := progress_spec (fun s => QueueInv s ∧ OrderInv clock deadline s) clock
    (fun s t h htop => QueueInv_top_queued s t h.1 htop)
    (fun s t k h hk htop hd =>
      ⟨QueueInv_popStep s t h.1, OrderInv_popStep clock deadline s t k h.2 hk htop hd⟩)
    (fun s d h => ⟨h.1, OrderInv_arm clock deadline s d h.2⟩)
    (fun s h => ⟨h.1, OrderInv_read clock deadline s h.2⟩) s h
  exact ⟨s1, h1, hP⟩

theorem OrderInv_installQueued (clock deadline : Nat → Nat) (hmono : Monotone clock)
    (s : PrecisionTimerEngine) (t : Nat) (h : OrderInv clock deadline s)
    (hlt : clock s.reads < (s.nodes t)._deadline) :
    OrderInv clock deadline (installQueued s t) := by
  obtain ⟨hdl, hnc, hsorted, hle, hreached⟩ := h
  refine ⟨?_, ?_, hsorted, ?_, hreached⟩
  · intro u
    simp only [installQueued]
    by_cases hu : u = t
    · subst hu; simpa using hdl u
    · simpa [hu] using hdl u
  · intro u
    simp only [installQueued]
    by_cases hu : u = t
    · subst hu; simpa using hnc u
    · simpa [hu] using hnc u
  · intro p hp u hu
    simp only [installQueued] at hu hp
    rcases List.mem_append.1 hu with hu | hu
    · exact hle p hp u hu
    · simp at hu
      subst hu
      obtain ⟨k, hk, hkd⟩ := hreached p hp
      have := hmono (le_of_lt hk)
      rw [hdl u] at hlt
      omega

theorem timelyRun_ordered (clock deadline : Nat → Nat) (hmono : Monotone clock) :
    ∀ (ops : List TimerOp) (s s1 : PrecisionTimerEngine),
      QueueInv s ∧ OrderInv clock deadline s → timelyRun clock ops s = true →
      runOps clock ops s = Outcome.ok s1 → QueueInv s1 ∧ OrderInv clock deadline s1 := by
  intro ops
  induction ops with
  | nil =>
    intro s s1 h _ hok
    simp only [runOps] at hok
    injection hok with hok
    subst hok
    exact h
  | cons op ops ih =>
    intro s s1 h ht hok
    simp only [runOps] at hok
    simp only [timelyRun, Bool.and_eq_true] at ht
    obtain ⟨hop, hrest⟩ := ht
    cases happ : applyOp clock s op with
    | fatal s2 => rw [happ] at hok; cases hok
    | diverged => rw [happ] at hok; cases hok
    | ok s2 =>
      rw [happ] at hok hrest
      refine ih s2 s1 ?_ hrest hok
      cases op with
      | cancel t => exact absurd hop (by simp)
      | request t => exact absurd hop (by simp)
      | fired =>
        obtain ⟨s3, h3, hinv⟩ := progress_orderInv clock deadline s h
        simp only [applyOp, firedAlarm] at happ
        rw [h3] at happ
        injection happ with happ
        subst happ
        exact hinv
      | install t =>
        simp only [applyOp] at happ
        obtain ⟨he, hs⟩ := installTimer_ok_fresh clock s s2 t happ
        rw [installTimer_fresh clock s t he hs, h.2.2.1 t] at happ
        simp only [Bool.false_eq_true, if_false] at happ
        obtain ⟨s3, h3, hinv⟩ := progress_orderInv clock deadline _
          ⟨QueueInv_installQueued s t hs h.1,
            OrderInv_installQueued clock deadline hmono s t h.2 (of_decide_eq_true hop)⟩
        rw [h3] at happ
        injection happ with happ
        subst happ
        exact hinv

theorem initialEngine_orderInv (clock deadline : Nat → Nat) :
    OrderInv clock deadline (initialEngine deadline (fun _ => false)) := by
  refine ⟨fun t => rfl, fun t => rfl, ?_, ?_, ?_⟩
  · simp [DeadlineOrdered, initialEngine, posted]
  · intro p hp; simp [initialEngine, posted] at hp
  · intro p hp; simp [initialEngine, posted] at hp

/-- C3 (as stated, refuted): timers 0 and 1 with deadlines 50 and 30 are installed in
this order while the monotone clock already reads 100 or more; both complete at once
and their sinks are posted in the order 50, 30. -/
theorem C3_order_counterexample :
    ¬ (∀ (clock deadline : Nat → Nat) (ops : List TimerOp) (s : PrecisionTimerEngine),
        Monotone clock → installsAndAlarms ops →
        (∀ t, TimerOp.install t ∈ ops → ∃ k, deadline t < clock k) →
        runOps clock ops (initialEngine deadline (fun _ => false)) = Outcome.ok s →
        DeadlineOrdered deadline s) := by
  intro h
  have hs := h (fun k => 100 + k) (fun t => if t = 0 then 50 else 30)
    [TimerOp.install 0, TimerOp.install 1] _
    (fun a b hab => by simp only; omega)
    (by intro op hop; simp at hop; rcases hop with rfl | rfl <;> simp)
    (by intro t _; refine ⟨0, ?_⟩; by_cases ht : t = 0 <;> simp [ht])
    rfl
  have hbad : ¬ List.Pairwise (fun a b => a ≤ b) [50, 30] := by decide
  exact hbad hs

/-- C3 (amended): with a monotone clock, when no timer is cancelled and every timer is
installed before the clock has reached its deadline, the completion sinks are posted in
non-decreasing deadline order. -/
theorem C3_timely_installs_complete_in_deadline_order (clock deadline : Nat → Nat)
    (ops : List TimerOp) (s : PrecisionTimerEngine) (hmono : Monotone clock)
    (htimely : timelyRun clock ops (initialEngine deadline (fun _ => false)) = true)
    (hrun : runOps clock ops (initialEngine deadline (fun _ => false)) = Outcome.ok s) :
    DeadlineOrdered deadline s :=
  (timelyRun_ordered clock deadline hmono ops _ s
    ⟨(initialEngine_inv deadline _).1, initialEngine_orderInv clock deadline⟩
    htimely hrun).2.2.2.1

/-- Witness for C3: deadlines 50 and 30 installed at clock 10, the clock then moves to
100 and the alarm fires; the sinks are posted in the order 30, 50. -/
theorem C3_timely_installs_complete_in_deadline_order_witness :
    ∃ s, runOps (fun k => if k < 4 then 10 else 100)
        [TimerOp.install 0, TimerOp.install 1, TimerOp.fired]
        (initialEngine (fun t => if t = 0 then 50 else 30) (fun _ => false)) = Outcome.ok s ∧
      posted s.trace = [1, 0] ∧
      DeadlineOrdered (fun t => if t = 0 then 50 else 30) s :=
  ⟨_, rfl, by decide,
    C3_timely_installs_complete_in_deadline_order (fun k => if k < 4 then 10 else 100)
      (fun t => if t = 0 then 50 else 30)
      [TimerOp.install 0, TimerOp.install 1, TimerOp.fired] _
      (fun a b hab => by
        show (if a < 4 then 10 else 100) ≤ (if b < 4 then 10 else 100)
        split <;> split <;> omega)
      (by decide) rfl⟩

theorem topOf_singleton (dl : Nat → Nat) (t : Nat) : topOf dl [t] = some t := rfl

theorem firedAlarm_empty (clock : Nat → Nat) (s : PrecisionTimerEngine)
    (h : s._timerQueue = []) : s.firedAlarm clock = Outcome.ok ((s.read clock).arm 0) := by
  simp [firedAlarm, _progress, progressLoop, drain, top, h, topOf, PrecisionTimerEngine.read]

/-- C5 (as stated, refuted): in the cancel-before-fire scenario (deadline 200 installed
at clock 100, cancelled at clock 120) the most recent `Alarm.arm` call after
`cancelTimer` has argument 200, not 0. -/
theorem C5_cancel_leaves_alarm_armed :
    (∃ s, runOps (fun k => if k < 2 then 100 else 120)
        [TimerOp.install 0, TimerOp.cancel 0]
        (initialEngine (fun _ => 200) (fun _ => false)) = Outcome.ok s ∧
      s._timerQueue = [] ∧ lastArm s.trace = some 200) ∧
    ¬ (∃ s, runOps (fun k => if k < 2 then 100 else 120)
        [TimerOp.install 0, TimerOp.cancel 0]
        (initialEngine (fun _ => 200) (fun _ => false)) = Outcome.ok s ∧
      s._timerQueue = [] ∧ lastArm s.trace = some 0) := by
  refine ⟨⟨_, rfl, by decide, by decide⟩, ?_⟩
  rintro ⟨s, hs, _, harm⟩
  have hrun : runOps (fun k => if k < 2 then 100 else 120)
      [TimerOp.install 0, TimerOp.cancel 0]
      (initialEngine (fun _ => 200) (fun _ => false)) = Outcome.ok _ := rfl
  rw [hrun] at hs
  injection hs with hs
  subst hs
  revert harm
  decide

/-- C5 (amended): a fresh timer installed into an empty pending collection while the
clock is below its deadline, and then cancelled, leaves the collection empty and the
request retired with its sink posted once; `cancelTimer` makes no `Alarm.arm` call, so
the most recent call still carries the cancelled deadline, and the next `firedAlarm`
disarms the alarm. -/
theorem C5_cancel_before_fire (clock : Nat → Nat) (s : PrecisionTimerEngine) (t : Nat)
    (hempty : s._timerQueue = []) (he : (s.nodes t)._engine = false)
    (hs : (s.nodes t)._state = TimerState.none)
    (hc : (s.nodes t).tokenCancelled = false)
    (h0 : clock s.reads < (s.nodes t)._deadline)
    (h1 : clock (s.reads + 1) < (s.nodes t)._deadline) :
    ∃ s1 s2 s3, s.installTimer clock t = Outcome.ok s1 ∧ s1.cancelTimer t = Outcome.ok s2 ∧
      s2._timerQueue = [] ∧ (s2.nodes t)._state = TimerState.retired ∧
      s1.trace = s.trace ++ [Event.read (clock s.reads), Event.arm (s.nodes t)._deadline,
        Event.read (clock (s.reads + 1))] ∧
      s2.trace = s1.trace ++ [Event.post t] ∧
      lastArm s2.trace = some (s.nodes t)._deadline ∧
      s2.firedAlarm clock = Outcome.ok s3 ∧ s3._timerQueue = [] ∧
      lastArm s3.trace = some 0 := by
  have hinst : s.installTimer clock t =
      Outcome.ok ((((installQueued s t).read clock).arm (s.nodes t)._deadline).read clock) := by
    rw [installTimer_fresh clock s t he hs, hc]
    have hn1 : ¬ (s.nodes t)._deadline ≤ clock (s.reads + 1) := by omega
    simp [_progress, progressLoop, drain, top, installQueued, hempty, topOf,
      PrecisionTimerEngine.read, PrecisionTimerEngine.arm, h0, hn1]
  have hq : ((((installQueued s t).read clock).arm (s.nodes t)._deadline |>.read clock).nodes
      t)._state = TimerState.queued := by
    simp [installQueued, PrecisionTimerEngine.read, PrecisionTimerEngine.arm]
  have hcancel := cancelTimer_queued _ t hq
  generalize hs1 : (((installQueued s t).read clock).arm (s.nodes t)._deadline).read clock = s1
    at hinst hcancel hq
  have hq1 : s1._timerQueue = [t] := by
    rw [← hs1]
    simp [installQueued, PrecisionTimerEngine.read, PrecisionTimerEngine.arm, hempty]
  have htr1 : s1.trace = s.trace ++ [Event.read (clock s.reads),
      Event.arm (s.nodes t)._deadline, Event.read (clock (s.reads + 1))] := by
    rw [← hs1]
    simp [installQueued, PrecisionTimerEngine.read, PrecisionTimerEngine.arm]
  refine ⟨s1, _, _, hinst, hcancel, ?_, ?_, htr1, rfl, ?_, firedAlarm_empty clock _ ?_, ?_, ?_⟩
  · simp [hq1]
  · simp
  · show lastArm (s1.trace ++ [Event.post t]) = some (s.nodes t)._deadline
    rw [htr1, List.append_assoc]
    exact lastArm_append _ _ _ rfl
  · simp [hq1]
  · simp [PrecisionTimerEngine.read, PrecisionTimerEngine.arm, hq1]
  · simp only [PrecisionTimerEngine.read, PrecisionTimerEngine.arm]
    exact lastArm_append _ _ _ rfl

/-- Witness for C5: the scenario itself, deadline 200 installed at clock 100. -/
theorem C5_cancel_before_fire_witness :
    ∃ s1 s2 s3, (initialEngine (fun _ => 200) (fun _ => false)).installTimer
        (fun k => if k < 2 then 100 else 120) 0 = Outcome.ok s1 ∧
      s1.cancelTimer 0 = Outcome.ok s2 ∧
      s2._timerQueue = [] ∧ (s2.nodes 0)._state = TimerState.retired ∧
      s1.trace = [] ++ [Event.read 100, Event.arm 200, Event.read 100] ∧
      s2.trace = s1.trace ++ [Event.post 0] ∧
      lastArm s2.trace = some 200 ∧
      s2.firedAlarm (fun k => if k < 2 then 100 else 120) = Outcome.ok s3 ∧
      s3._timerQueue = [] ∧ lastArm s3.trace = some 0 :=
  C5_cancel_before_fire (fun k => if k < 2 then 100 else 120)
    (initialEngine (fun _ => 200) (fun _ => false)) 0 rfl rfl rfl rfl (by decide) (by decide)

theorem lastArm_append_other (a : List Event) (e : Event) (h : ∀ d, e ≠ Event.arm d) :
    lastArm (a ++ [e]) = lastArm a := by
  induction a with
  | nil =>
    cases e with
    | arm d => exact absurd rfl (h d)
    | read v => rfl
    | post t => rfl
  | cons x xs ih =>
    show lastArm (x :: (xs ++ [e])) = lastArm (x :: xs)
    simp only [lastArm, ih]

/-- C6: on a queued request `cancelTimer` returns having removed exactly that request
from the pending collection (the other members stay, in order), decremented the
live-timer count by one (in `size_t` arithmetic), set the cancelled flag, retired the
request and posted its sink once; on an elapsed request it returns having left the
collection and the count alone, retired the request and posted its sink once. -/
theorem C6_cancelTimer_effect (s : PrecisionTimerEngine) (t : Nat) (hinv : QueueInv s) :
    ((s.nodes t)._state = TimerState.queued →
      ∃ s1, s.cancelTimer t = Outcome.ok s1 ∧
        t ∈ s._timerQueue ∧ t ∉ s1._timerQueue ∧
        s1._timerQueue = s._timerQueue.filter (fun u => u != t) ∧
        s1._activeTimers = (s._activeTimers + wordSize - 1) % wordSize ∧
        (0 < s._activeTimers → s._activeTimers < wordSize →
          s1._activeTimers + 1 = s._activeTimers) ∧
        (s1.nodes t)._wasCancelled = true ∧
        (s1.nodes t)._state = TimerState.retired ∧
        (∀ u, u ≠ t → s1.nodes u = s.nodes u) ∧
        s1.trace = s.trace ++ [Event.post t] ∧ postCount s1 t = postCount s t + 1) ∧
    ((s.nodes t)._state = TimerState.elapsed →
      ∃ s1, s.cancelTimer t = Outcome.ok s1 ∧
        s1._timerQueue = s._timerQueue ∧ s1._activeTimers = s._activeTimers ∧
        (s1.nodes t)._wasCancelled = (s.nodes t)._wasCancelled ∧
        (s1.nodes t)._state = TimerState.retired ∧
        (∀ u, u ≠ t → s1.nodes u = s.nodes u) ∧
        s1.trace = s.trace ++ [Event.post t] ∧ postCount s1 t = postCount s t + 1) := by
  constructor
  · intro hq
    refine ⟨_, cancelTimer_queued s t hq, (hinv.2 t).2 hq, ?_, ?_, rfl, ?_, ?_, ?_, ?_, rfl, ?_⟩
    · simp only []
      rw [hinv.1.mem_erase_iff]
      simp
    · exact hinv.1.erase_eq_filter t
    · intro hpos hlt
      simp only [wordSize] at hlt ⊢
      omega
    · simp
    · simp
    · intro u hu; simp [hu]
    · simp only [postCount, count_post_append]; simp
  · intro he
    refine ⟨_, cancelTimer_elapsed s t he, rfl, rfl, ?_, ?_, ?_, rfl, ?_⟩
    · simp
    · simp
    · intro u hu; simp [hu]
    · simp only [postCount, count_post_append]; simp

/-- Witness for C6: the only pending timer is cancelled, the count goes from 1 to 0. -/
theorem C6_cancelTimer_effect_witness :
    ∃ s1, (installQueued (initialEngine (fun _ => 200) (fun _ => false)) 0).cancelTimer 0 =
        Outcome.ok s1 ∧
      s1._timerQueue = [] ∧ s1._activeTimers = 0 ∧ postCount s1 0 = 1 := by
  obtain ⟨s1, h1, _, _, h2, h3, _, _, _, _, _, h4⟩ :=
    (C6_cancelTimer_effect (installQueued (initialEngine (fun _ => 200) (fun _ => false)) 0) 0
      (QueueInv_installQueued _ 0 rfl (initialEngine_inv _ _).1)).1 rfl
  exact ⟨s1, h1, by rw [h2]; decide, by rw [h3]; decide, by rw [h4]; decide⟩

/-- C7: for a fresh request whose token is already cancelled, `installTimer` returns
with the request retired and its sink posted once; the pending collection, the
live-timer count and every other request are untouched, the clock is not read and
`Alarm.arm` is not called (the post is the only collaborator call). -/
theorem C7_install_already_cancelled (clock : Nat → Nat) (s : PrecisionTimerEngine) (t : Nat)
    (he : (s.nodes t)._engine = false) (hs : (s.nodes t)._state = TimerState.none)
    (hc : (s.nodes t).tokenCancelled = true) :
    ∃ s1, s.installTimer clock t = Outcome.ok s1 ∧
      (s1.nodes t)._state = TimerState.retired ∧ (s1.nodes t)._wasCancelled = true ∧
      s1.trace = s.trace ++ [Event.post t] ∧ postCount s1 t = postCount s t + 1 ∧
      s1._timerQueue = s._timerQueue ∧ s1._activeTimers = s._activeTimers ∧
      s1.reads = s.reads ∧ lastArm s1.trace = lastArm s.trace ∧
      (∀ u, u ≠ t → s1.nodes u = s.nodes u) := by
  refine ⟨installRetired s t, ?_, ?_, ?_, rfl, ?_, rfl, rfl, rfl, ?_, ?_⟩
  · rw [installTimer_fresh clock s t he hs, hc]; rfl
  · simp [installRetired]
  · simp [installRetired]
  · simp only [postCount, installRetired, count_post_append]; simp
  · simp only [installRetired]
    exact lastArm_append_other _ _ (by simp)
  · intro u hu; simp [installRetired, hu]

/-- Witness for C7: a timer whose token was cancelled before installation. -/
theorem C7_install_already_cancelled_witness :
    ∃ s1, (initialEngine (fun _ => 200) (fun _ => true)).installTimer (fun _ => 100) 0 =
        Outcome.ok s1 ∧
      (s1.nodes 0)._state = TimerState.retired ∧ (s1.nodes 0)._wasCancelled = true ∧
      s1.trace = [] ++ [Event.post 0] ∧ postCount s1 0 = 0 + 1 ∧
      s1._timerQueue = [] ∧ s1._activeTimers = 0 ∧
      s1.reads = 0 ∧ lastArm s1.trace = none ∧
      (∀ u, u ≠ 0 → s1.nodes u = freshNode 200 true) :=
  C7_install_already_cancelled (fun _ => 100) (initialEngine (fun _ => 200) (fun _ => true)) 0
    rfl rfl rfl

/-- C8: `cancelTimer` ends in the fatal assertion exactly when the request is neither
queued nor elapsed, that is, none or retired; the state at the failing assertion is the
state on entry, so nothing was posted and the request, the pending collection and the
live-timer count are unchanged. -/
theorem C8_cancelTimer_fatal_iff (s : PrecisionTimerEngine) (t : Nat) :
    ((∃ s1, s.cancelTimer t = Outcome.fatal s1) ↔
      ((s.nodes t)._state ≠ TimerState.queued ∧ (s.nodes t)._state ≠ TimerState.elapsed)) ∧
    (((s.nodes t)._state ≠ TimerState.queued ∧ (s.nodes t)._state ≠ TimerState.elapsed) ↔
      ((s.nodes t)._state = TimerState.none ∨ (s.nodes t)._state = TimerState.retired)) ∧
    (∀ s1, s.cancelTimer t = Outcome.fatal s1 → s1 = s) ∧
    s.cancelTimer t ≠ Outcome.diverged := by
  by_cases hq : (s.nodes t)._state = TimerState.queued
  · have h := cancelTimer_queued s t hq
    refine ⟨⟨?_, fun hh => absurd hq hh.1⟩, by simp [hq], ?_, by rw [h]; simp⟩
    · rintro ⟨s1, h1⟩; rw [h] at h1; cases h1
    · intro s1 h1; rw [h] at h1; cases h1
  · by_cases he : (s.nodes t)._state = TimerState.elapsed
    · have h := cancelTimer_elapsed s t he
      refine ⟨⟨?_, fun hh => absurd he hh.2⟩, by simp [he], ?_, by rw [h]; simp⟩
      · rintro ⟨s1, h1⟩; rw [h] at h1; cases h1
      · intro s1 h1; rw [h] at h1; cases h1
    · have h := cancelTimer_other s t hq he
      refine ⟨⟨fun _ => ⟨hq, he⟩, fun _ => ⟨s, h⟩⟩, ?_, ?_, by rw [h]; simp⟩
      · constructor
        · intro _
          cases hst : (s.nodes t)._state with
          | none => simp
          | queued => exact absurd hst hq
          | elapsed => exact absurd hst he
          | retired => simp
        · intro _; exact ⟨hq, he⟩
      · intro s1 h1
        rw [h] at h1
        injection h1 with h1
        exact h1.symm

/-- Witness for C8: cancelling a request that was never installed is fatal and leaves
the engine as it was. -/
theorem C8_cancelTimer_fatal_iff_witness :
    (∃ s1, (initialEngine (fun _ => 200) (fun _ => false)).cancelTimer 0 = Outcome.fatal s1) ∧
    (∀ s1, (initialEngine (fun _ => 200) (fun _ => false)).cancelTimer 0 = Outcome.fatal s1 →
      s1 = initialEngine (fun _ => 200) (fun _ => false)) :=
  ⟨(C8_cancelTimer_fatal_iff (initialEngine (fun _ => 200) (fun _ => false)) 0).1.2
      ⟨by decide, by decide⟩,
    (C8_cancelTimer_fatal_iff (initialEngine (fun _ => 200) (fun _ => false)) 0).2.2.1⟩

theorem progressLoop_terminates (clock : Nat → Nat) :
    ∀ (fuel current : Nat) (s : PrecisionTimerEngine),
      (s._timerQueue.length < fuel ∨
        (s._timerQueue.length ≤ fuel ∧ 0 < fuel ∧
          ∃ t, s.top = some t ∧ (s.nodes t)._deadline ≤ current)) →
      ∃ s1, (progressLoop clock fuel current s = Outcome.ok s1 ∨
          progressLoop clock fuel current s = Outcome.fatal s1) ∧
        s1._timerQueue.Sublist s._timerQueue := by
  intro fuel
  induction fuel with
  | zero =>
    intro current s hf
    rcases hf with hf | ⟨_, hf, _⟩ <;> omega
  | succ n ih =>
    intro current s hf
    have hdiv := drain_fuel current (s._timerQueue.length + 1) s (by omega)
    have hsp := drain_spec
      (fun s1 => s1._timerQueue.Sublist s._timerQueue ∧
        (s1._timerQueue.length = s._timerQueue.length → s1 = s))
      current
      (by
        rintro s1 t ⟨h1, _⟩ htop _ _
        have hmem := top_mem s1 t htop
        have hpos : 0 < s1._timerQueue.length := List.length_pos_of_mem hmem
        have hlen := h1.length_le
        refine ⟨?_, ?_⟩
        · rw [popStep_queue]; exact (List.erase_sublist t _).trans h1
        · rw [popStep_queue, List.length_erase_of_mem hmem]; intro h; omega)
      (s._timerQueue.length + 1) s ⟨List.Sublist.refl _, fun _ => rfl⟩
    simp only [progressLoop]
    cases hdr : drain current (s._timerQueue.length + 1) s with
    | diverged => exact absurd hdr hdiv
    | returned s1 =>
      rw [hdr] at hsp
      obtain ⟨s0, ⟨hsub, _⟩, _, rfl⟩ := hsp
      exact ⟨_, Or.inl rfl, hsub⟩
    | fatal s1 =>
      rw [hdr] at hsp
      exact ⟨s1, Or.inr rfl, hsp.1.1⟩
    | broke s1 =>
      rw [hdr] at hsp
      obtain ⟨⟨hsub, hsame⟩, t, htop, hlt⟩ := hsp
      simp only [htop, top_arm_read]
      have hpos : 0 < s1._timerQueue.length := List.length_pos_of_mem (top_mem s1 t htop)
      have hle := hsub.length_le
      have hlen : s1._timerQueue.length ≤ n := by
        rcases hf with hf | ⟨hf1, _, u, hu, hud⟩
        · omega
        · have hne : s1._timerQueue.length ≠ s._timerQueue.length := by
            intro heq
            have := hsame heq
            subst this
            rw [htop] at hu
            cases hu
            omega
          omega
      by_cases hdue : (s1.nodes t)._deadline ≤ clock s1.reads
      · have hd : (((s1.arm (s1.nodes t)._deadline).read clock).nodes t)._deadline
            ≤ clock (s1.arm (s1.nodes t)._deadline).reads := hdue
        rw [if_pos hd]
        obtain ⟨s2, h2, hsub2⟩ := ih (clock (s1.arm (s1.nodes t)._deadline).reads)
          ((s1.arm (s1.nodes t)._deadline).read clock)
          (Or.inr ⟨hlen, by omega, t, htop, hdue⟩)
        exact ⟨s2, h2, hsub2.trans hsub⟩
      · have hd : ¬ (((s1.arm (s1.nodes t)._deadline).read clock).nodes t)._deadline
            ≤ clock (s1.arm (s1.nodes t)._deadline).reads := hdue
        rw [if_neg hd]
        exact ⟨_, Or.inl rfl, hsub⟩

theorem progress_terminates (clock : Nat → Nat) (s : PrecisionTimerEngine) :
    ∃ s1, (s._progress clock = Outcome.ok s1 ∨ s._progress clock = Outcome.fatal s1) ∧
      s1._timerQueue.Sublist s._timerQueue :=
  progressLoop_terminates clock _ _ (s.read clock)
    (Or.inl (by simp [PrecisionTimerEngine.read]))

theorem drain_pops (current : Nat) (s s1 : PrecisionTimerEngine) (t : Nat)
    (htop : s.top = some t) (hdue : (s.nodes t)._deadline ≤ current)
    (h : drain current (s._timerQueue.length + 1) s = Inner.broke s1 ∨
      drain current (s._timerQueue.length + 1) s = Inner.returned s1) :
    s1._timerQueue.length < s._timerQueue.length := by
  have hpos : 0 < s._timerQueue.length := List.length_pos_of_mem (top_mem s t htop)
  have hsp := drain_spec
    (fun s1 => s1._timerQueue.length ≤ s._timerQueue.length ∧
      (s1._timerQueue.length = s._timerQueue.length → s1 = s))
    current
    (by
      rintro s2 u ⟨h1, _⟩ hu _ _
      have hmem := top_mem s2 u hu
      have hpos2 : 0 < s2._timerQueue.length := List.length_pos_of_mem hmem
      refine ⟨?_, ?_⟩
      · rw [popStep_queue, List.length_erase_of_mem hmem]; omega
      · rw [popStep_queue, List.length_erase_of_mem hmem]; intro h; omega)
    (s._timerQueue.length + 1) s ⟨le_refl _, fun _ => rfl⟩
  rcases h with h | h
  · rw [h] at hsp
    obtain ⟨⟨hle, hsame⟩, u, hu, hlt⟩ := hsp
    have hne : s1._timerQueue.length ≠ s._timerQueue.length := by
      intro heq
      have := hsame heq
      subst this
      rw [htop] at hu
      cases hu
      omega
    omega
  · rw [h] at hsp
    obtain ⟨s0, _, hq0, rfl⟩ := hsp
    show (s0.arm 0)._timerQueue.length < s._timerQueue.length
    simp only [PrecisionTimerEngine.arm, hq0]
    exact hpos

/-- C18: for every pending collection and every clock (standing still, jumping or not
monotone) the progress step ends, by returning or at a failed assertion, within the
passes its loops are given, one more outer pass than requests pending on entry: a pass
of the outer loop that is entered with the earliest deadline due, as every pass after
the first is, pops at least one request.  The collection it leaves is the one it found
with some requests removed, so it pops at most as many requests as were pending.
`firedAlarm` and `installTimer` never loop indefinitely. -/
theorem C18_progress_terminates (clock : Nat → Nat) (s : PrecisionTimerEngine) :
    (∃ s1, (s._progress clock = Outcome.ok s1 ∨ s._progress clock = Outcome.fatal s1) ∧
      s1._timerQueue.Sublist s._timerQueue ∧
      s1._timerQueue.length + (s._timerQueue.length - s1._timerQueue.length) =
        s._timerQueue.length) ∧
    (∀ current t s1, s.top = some t → (s.nodes t)._deadline ≤ current →
      (drain current (s._timerQueue.length + 1) s = Inner.broke s1 ∨
        drain current (s._timerQueue.length + 1) s = Inner.returned s1) →
      s1._timerQueue.length < s._timerQueue.length) ∧
    s.firedAlarm clock ≠ Outcome.diverged ∧
    (∀ t, s.installTimer clock t ≠ Outcome.diverged) := by
  refine ⟨?_, fun current t s1 htop hdue h => drain_pops current s s1 t htop hdue h, ?_, ?_⟩
  · obtain ⟨s1, h1, hsub⟩ := progress_terminates clock s
    have := hsub.length_le
    exact ⟨s1, h1, hsub, by omega⟩
  · obtain ⟨s1, h1, _⟩ := progress_terminates clock s
    intro h
    unfold firedAlarm at h
    rcases h1 with h1 | h1 <;> rw [h1] at h <;> cases h
  · intro t h
    by_cases he : (s.nodes t)._engine = true
    · simp [installTimer, he] at h
    · simp only [Bool.not_eq_true] at he
      by_cases hs : (s.nodes t)._state = TimerState.none
      · rw [installTimer_fresh clock s t he hs] at h
        by_cases hc : (s.nodes t).tokenCancelled = true
        · rw [if_pos hc] at h; cases h
        · rw [if_neg hc] at h
          obtain ⟨s1, h1, _⟩ := progress_terminates clock (installQueued s t)
          rcases h1 with h1 | h1 <;> rw [h1] at h <;> cases h
      · simp [installTimer, he, hs, setNode] at h

/-- Witness for C18: two pending timers, both due at a clock that stands still at 500;
the inner loop pops both and the progress step returns with nothing pending. -/
theorem C18_progress_terminates_witness :
    (∃ s1, (installQueued (installQueued (initialEngine (fun t => 100 + t) (fun _ => false)) 0)
        1)._progress (fun _ => 500) = Outcome.ok s1 ∧ s1._timerQueue = []) ∧
    (∀ s1, drain 500 3
        (installQueued (installQueued (initialEngine (fun t => 100 + t) (fun _ => false)) 0) 1) =
        Inner.returned s1 → s1._timerQueue.length < 2) :=
  ⟨⟨_, rfl, by decide⟩, fun s1 h =>
    (C18_progress_terminates (fun _ => 500)
      (installQueued (installQueued (initialEngine (fun t => 100 + t) (fun _ => false)) 0)
        1)).2.1 500 0 s1 rfl (by decide) (Or.inr h)⟩

/-! ## Theorems: kernel virtual memory arena -/

theorem shiftOne_of_lt (n : Nat) (h : n < 64) : shiftOne n = 2 ^ n := by
  unfold shiftOne wordSize
  exact Nat.mod_eq_of_lt (Nat.pow_lt_pow_right (by norm_num) h)

theorem shiftOne_le (n : Nat) : shiftOne n ≤ 2 ^ 63 := by
  by_cases h : n < 64
  · rw [shiftOne_of_lt n h]
    exact Nat.pow_le_pow_right (by norm_num) (by omega)
  · unfold shiftOne wordSize
    have hsplit : 2 ^ n = 2 ^ 64 * 2 ^ (n - 64) := by
      rw [← Nat.pow_add]; congr 1; omega
    rw [hsplit, Nat.mul_mod_right]
    exact Nat.zero_le _

theorem orderLoop_never_exits (length : Nat) (h : 2 ^ 63 < length) :
    ∀ fuel order, orderLoop length fuel order = none := by
  intro fuel
  induction fuel with
  | zero => intro order; rfl
  | succ n ih =>
    intro order
    have hle := shiftOne_le (kPageShift + order)
    have hgt : length > shiftOne (kPageShift + order) := by omega
    simp only [orderLoop, if_pos hgt]
    exact ih (order + 1)

theorem orderLoop_exit (length : Nat) (h : length ≤ 2 ^ 63) :
    ∀ fuel order, order ≤ 51 → 51 - order < fuel →
      (∀ j, j < order → 2 ^ (kPageShift + j) < length) →
      ∃ k, orderLoop length fuel order = some k ∧ k ≤ 51 ∧
        length ≤ 2 ^ (kPageShift + k) ∧ ∀ j, j < k → 2 ^ (kPageShift + j) < length := by
  intro fuel
  induction fuel with
  | zero => intro order _ hf; omega
  | succ n ih =>
    intro order ho hf hlow
    have hs : shiftOne (kPageShift + order) = 2 ^ (kPageShift + order) :=
      shiftOne_of_lt _ (by unfold kPageShift; omega)
    simp only [orderLoop, hs]
    by_cases hgt : length > 2 ^ (kPageShift + order)
    · rw [if_pos hgt]
      have hne : order ≠ 51 := by
        intro h51
        subst h51
        have : (2 : Nat) ^ (kPageShift + 51) = 2 ^ 63 := by unfold kPageShift; rfl
        omega
      refine ih (order + 1) (by omega) (by omega) ?_
      intro j hj
      by_cases hjo : j = order
      · subst hjo; exact hgt
      · exact hlow j (by omega)
    · rw [if_neg hgt]
      exact ⟨order, rfl, ho, by omega, hlow⟩

theorem computeOrder_spec (length : Nat) (h : length ≤ 2 ^ 63) :
    ∃ k, computeOrder length = some k ∧ k ≤ 51 ∧
      length ≤ 2 ^ (kPageShift + k) ∧ ∀ j, j < k → 2 ^ (kPageShift + j) < length :=
  orderLoop_exit length h 64 0 (by omega) (by omega) (fun j hj => absurd hj (by omega))

theorem computeOrder_some_bound (length order : Nat) (h : computeOrder length = some order) :
    length ≤ 2 ^ 63 ∧ order ≤ 51 ∧ length ≤ 2 ^ (kPageShift + order) ∧
      ∀ j, j < order → 2 ^ (kPageShift + j) < length := by
  by_cases hl : length ≤ 2 ^ 63
  · obtain ⟨k, hk, hk51, hge, hlow⟩ := computeOrder_spec length hl
    rw [hk] at h
    injection h with h
    subst h
    exact ⟨hl, hk51, hge, hlow⟩
  · have := orderLoop_never_exits length (by omega) 64 0
    unfold computeOrder at h
    rw [this] at h
    cases h

/-- C9 (failing input): for the length `2^63 + 1`, a value of the 64-bit size type, the
loop that computes the order never exits, whatever number of passes it is given: every
64-bit granule `size_t{1} << n` is at most `2^63`, below the length, although the
order 52 would do.  At `2^63` the loop still exits, with order 51; lengths 0 and 4096
get order 0, length 4097 order 1. -/
theorem C9_order_loop_never_exits_above_2_63 :
    (∀ fuel, orderLoop (2 ^ 63 + 1) fuel 0 = none) ∧
    computeOrder (2 ^ 63 + 1) = none ∧
    2 ^ 63 + 1 < wordSize ∧ 2 ^ 63 + 1 ≤ 2 ^ (kPageShift + 52) ∧
    computeOrder (2 ^ 63) = some 51 ∧
    computeOrder 0 = some 0 ∧ computeOrder 4096 = some 0 ∧ computeOrder 4097 = some 1 :=
  ⟨fun fuel => orderLoop_never_exits _ (by omega) fuel 0,
    orderLoop_never_exits _ (by omega) 64 0, by decide, by decide, by decide, by decide,
    by decide, by decide⟩

theorem cover_exists :
    ∀ bs : List (Nat × Nat), bs.Pairwise blocksDisjoint →
      ∃ S : Finset Nat, S.card = reservedBytes bs ∧
        ∀ x, x ∈ S ↔ ∃ c ∈ bs, c.1 ≤ x ∧ x < c.1 + 2 ^ (kPageShift + c.2) := by
  intro bs
  induction bs with
  | nil => intro _; exact ⟨∅, rfl, by simp⟩
  | cons b bs ih =>
    intro hp
    rw [List.pairwise_cons] at hp
    obtain ⟨S, hcard, hmem⟩ := ih hp.2
    have hdisj : Disjoint (Finset.Ico b.1 (b.1 + 2 ^ (kPageShift + b.2))) S := by
      rw [Finset.disjoint_left]
      intro x hx hxS
      obtain ⟨c, hc, hc1, hc2⟩ := (hmem x).1 hxS
      rw [Finset.mem_Ico] at hx
      have := hp.1 c hc
      unfold blocksDisjoint at this
      omega
    refine ⟨Finset.Ico b.1 (b.1 + 2 ^ (kPageShift + b.2)) ∪ S, ?_, ?_⟩
    · rw [Finset.card_union_of_disjoint hdisj, hcard, Nat.card_Ico]
      simp [reservedBytes]
    · intro x
      rw [Finset.mem_union, Finset.mem_Ico, hmem x]
      simp only [List.mem_cons, exists_eq_or_imp]

theorem reservedBytes_le (bs : List (Nat × Nat)) (hw : ∀ b ∈ bs, blockInWindow b)
    (hp : bs.Pairwise blocksDisjoint) : reservedBytes bs ≤ desiredSize := by
  obtain ⟨S, hcard, hmem⟩ := cover_exists bs hp
  have hsub : S ⊆ Finset.Ico vmBase (vmBase + desiredSize) := by
    intro x hx
    obtain ⟨c, hc, hc1, hc2⟩ := (hmem x).1 hx
    have := hw c hc
    unfold blockInWindow at this
    rw [Finset.mem_Ico]
    omega
  have := Finset.card_le_card hsub
  rw [Nat.card_Ico, hcard] at this
  omega

theorem reservedBytes_erase (b : Nat × Nat) :
    ∀ bs : List (Nat × Nat), b ∈ bs →
      reservedBytes (bs.erase b) + 2 ^ (kPageShift + b.2) = reservedBytes bs := by
  intro bs
  induction bs with
  | nil => intro h; cases h
  | cons c cs ih =>
    intro h
    by_cases hcb : c = b
    · subst hcb
      simp [reservedBytes]
      omega
    · have hmem : b ∈ cs := by
        rcases List.mem_cons.1 h with h | h
        · exact absurd h.symm hcb
        · exact h
      rw [List.erase_cons_tail (by simpa using hcb)]
      simp only [reservedBytes]
      have := ih hmem
      omega

theorem allocate_ok (s s1 : KernelVirtualMemory) (length address pointer : Nat)
    (h : s.allocate length address = AllocResult.ok pointer s1) :
    ∃ order, computeOrder length = some order ∧ order ≤ s.tableOrder ∧
      address ≠ illegalAddress ∧ pointer = address ∧
      s1 = { s with
        blocks := (address, order) :: s.blocks,
        kernelVirtualUsage :=
          (s.kernelVirtualUsage + shiftOne (kPageShift + order)) % wordSize } := by
  unfold KernelVirtualMemory.allocate at h
  cases hc : computeOrder length with
  | none => rw [hc] at h; cases h
  | some order =>
    rw [hc] at h
    simp only [] at h
    by_cases ho : order > s.tableOrder
    · rw [if_pos ho] at h; cases h
    · rw [if_neg ho] at h
      by_cases ha : address = illegalAddress
      · rw [if_pos ha] at h; cases h
      · rw [if_neg ha] at h
        injection h with h1 h2
        exact ⟨order, rfl, by omega, ha, h1.symm, h2.symm⟩

theorem desiredSize_lt_wordSize : desiredSize < wordSize := by decide

theorem ArenaInv_allocate (s s1 : KernelVirtualMemory) (length order address pointer : Nat)
    (hinv : ArenaInv s) (hc : computeOrder length = some order)
    (hb : buddyContract s order address)
    (h : s.allocate length address = AllocResult.ok pointer s1) :
    ArenaInv s1 ∧ s1.kernelVirtualUsage = s.kernelVirtualUsage + 2 ^ (kPageShift + order) ∧
      s1.blocks = (pointer, order) :: s.blocks := by
  obtain ⟨order1, hc1, _, hne, hp, hs1⟩ := allocate_ok s s1 length address pointer h
  rw [hc] at hc1
  injection hc1 with hc1
  subst hc1
  subst hp
  obtain ⟨hw, hpair, husage⟩ := hinv
  rcases hb with hb | ⟨hbw, hbd⟩
  · exact absurd hb hne
  · have hw1 : ∀ b ∈ (pointer, order) :: s.blocks, blockInWindow b := by
      intro b hb
      rcases List.mem_cons.1 hb with rfl | hb
      · exact hbw
      · exact hw b hb
    have hp1 : ((pointer, order) :: s.blocks).Pairwise blocksDisjoint :=
      List.pairwise_cons.2 ⟨hbd, hpair⟩
    have hle := reservedBytes_le _ hw1 hp1
    have hlt := desiredSize_lt_wordSize
    simp only [reservedBytes] at hle
    have ho51 := (computeOrder_some_bound length order hc).2.1
    have hshift : shiftOne (kPageShift + order) = 2 ^ (kPageShift + order) :=
      shiftOne_of_lt _ (by unfold kPageShift; omega)
    have hu : s1.kernelVirtualUsage = s.kernelVirtualUsage + 2 ^ (kPageShift + order) := by
      rw [hs1]
      simp only [hshift]
      exact Nat.mod_eq_of_lt (by omega)
    refine ⟨⟨?_, ?_, ?_⟩, hu, ?_⟩
    · rw [hs1]; exact hw1
    · rw [hs1]; exact hp1
    · rw [hu, husage]
      rw [hs1]
      simp only [reservedBytes]
      omega
    · rw [hs1]

theorem ArenaInv_deallocate (s : KernelVirtualMemory) (length order pointer : Nat)
    (hinv : ArenaInv s) (hc : computeOrder length = some order)
    (hmem : (pointer, order) ∈ s.blocks) :
    ∃ s1, s.deallocate pointer length = ArenaResult.ok s1 ∧ ArenaInv s1 ∧
      2 ^ (kPageShift + order) ≤ s.kernelVirtualUsage ∧
      s1.kernelVirtualUsage = s.kernelVirtualUsage - 2 ^ (kPageShift + order) ∧
      s1.blocks = s.blocks.erase (pointer, order) := by
  obtain ⟨hw, hpair, husage⟩ := hinv
  have ho51 := (computeOrder_some_bound length order hc).2.1
  have hshift : shiftOne (kPageShift + order) = 2 ^ (kPageShift + order) :=
    shiftOne_of_lt _ (by unfold kPageShift; omega)
  have herase := reservedBytes_erase (pointer, order) s.blocks hmem
  simp only [] at herase
  have hge : s.kernelVirtualUsage ≥ 2 ^ (kPageShift + order) := by omega
  refine ⟨{ s with blocks := s.blocks.erase (pointer, order),
                   kernelVirtualUsage := s.kernelVirtualUsage - 2 ^ (kPageShift + order) },
    ?_, ⟨?_, ?_, ?_⟩, hge, rfl, rfl⟩
  · unfold KernelVirtualMemory.deallocate
    rw [hc]
    simp only [hshift]
    rw [if_neg (by simpa using hge)]
  · intro b hb
    exact hw b (List.mem_of_mem_erase hb)
  · exact hpair.sublist (List.erase_sublist _ _)
  · simp only []
    omega

theorem ArenaReachable_inv (tableOrder : Nat) (s : KernelVirtualMemory)
    (h : ArenaReachable tableOrder s) : ArenaInv s := by
  induction h with
  | init => exact ⟨fun b hb => absurd hb (List.not_mem_nil b), List.Pairwise.nil, rfl⟩
  | allocate s s1 length order address pointer _ hc hb hok ih =>
    exact (ArenaInv_allocate s s1 length order address pointer ih hc hb hok).1
  | deallocate s s1 pointer length order _ hc hmem hok ih =>
    obtain ⟨s2, h2, hinv, _⟩ := ArenaInv_deallocate s length order pointer ih hc hmem
    rw [h2] at hok
    injection hok with hok
    subst hok
    exact hinv

/-- C10: in every reachable state of the arena, when `allocate(L)` returns `p` it has
raised `kernelVirtualUsage` by exactly the granule `2^(12 + order(L))`; the following
`deallocate(p, L)` computes the same order, passes its underflow assertion and lowers
the counter by the same granule, back to its value before the `allocate`. -/
theorem C10_allocate_deallocate_restores_usage (tableOrder : Nat) (s s1 : KernelVirtualMemory)
    (hreach : ArenaReachable tableOrder s) (length address pointer : Nat)
    (hbuddy : ∀ order, computeOrder length = some order → buddyContract s order address)
    (halloc : s.allocate length address = AllocResult.ok pointer s1) :
    ∃ order, computeOrder length = some order ∧
      length ≤ 2 ^ (12 + order) ∧ (∀ j, j < order → 2 ^ (12 + j) < length) ∧
      s1.kernelVirtualUsage = s.kernelVirtualUsage + 2 ^ (12 + order) ∧
      ∃ s2, s1.deallocate pointer length = ArenaResult.ok s2 ∧
        2 ^ (12 + order) ≤ s1.kernelVirtualUsage ∧
        s2.kernelVirtualUsage = s1.kernelVirtualUsage - 2 ^ (12 + order) ∧
        s2.kernelVirtualUsage = s.kernelVirtualUsage := by
  obtain ⟨order, hc, _, _, _, _⟩ := allocate_ok s s1 length address pointer halloc
  obtain ⟨_, _, hge, hlow⟩ := computeOrder_some_bound length order hc
  obtain ⟨hinv1, hu1, hb1⟩ := ArenaInv_allocate s s1 length order address pointer
    (ArenaReachable_inv tableOrder s hreach) hc (hbuddy order hc) halloc
  obtain ⟨s2, h2, _, hle2, hu2, _⟩ := ArenaInv_deallocate s1 length order pointer hinv1 hc
    (by rw [hb1]; exact List.mem_cons_self _ _)
  refine ⟨order, hc, hge, hlow, hu1, s2, h2, hle2, hu2, ?_⟩
  rw [hu2, hu1]
  unfold kPageShift
  omega

/-- Witness for C10: on the fresh arena `allocate(8192)` answered with the base of the
window reserves the order-1 granule, and `deallocate` gives it back. -/
theorem C10_allocate_deallocate_restores_usage_witness :
    ∃ order, computeOrder 8192 = some order ∧
      8192 ≤ 2 ^ (12 + order) ∧ (∀ j, j < order → 2 ^ (12 + j) < 8192) ∧
      arenaWithOneBlock.kernelVirtualUsage =
        (initialArena 19).kernelVirtualUsage + 2 ^ (12 + order) ∧
      ∃ s2, arenaWithOneBlock.deallocate vmBase 8192 = ArenaResult.ok s2 ∧
        2 ^ (12 + order) ≤ arenaWithOneBlock.kernelVirtualUsage ∧
        s2.kernelVirtualUsage = arenaWithOneBlock.kernelVirtualUsage - 2 ^ (12 + order) ∧
        s2.kernelVirtualUsage = (initialArena 19).kernelVirtualUsage :=
  C10_allocate_deallocate_restores_usage 19 (initialArena 19) arenaWithOneBlock
    ArenaReachable.init 8192 vmBase vmBase
    (fun order h => Or.inr ⟨by
      have h1 : computeOrder 8192 = some 1 := by decide
      rw [h1] at h
      injection h with h
      subst h
      exact ⟨le_refl _, by decide⟩, fun b hb => absurd hb (List.not_mem_nil b)⟩)
    rfl

/-! ## Theorems: kernel virtual allocator -/

open KernelVirtualAlloc


theorem framesFreed_append (a b : List MemEvent) :
    framesFreed (a ++ b) = framesFreed a ++ framesFreed b := by
  induction a with
  | nil => rfl
  | cons e es ih => cases e <;> simpa [framesFreed] using ih

theorem framesAllocated_append (a b : List MemEvent) :
    framesAllocated (a ++ b) = framesAllocated a ++ framesAllocated b := by
  induction a with
  | nil => rfl
  | cons e es ih => cases e <;> simpa [framesAllocated] using ih

theorem mapLoop_frame (frames : Nat → Nat) (p length : Nat) :
    ∀ (fuel offset : Nat) (s s1 : KernelMemory),
      (mapLoop frames p length fuel offset s = MemResult.ok s1 ∨
        mapLoop frames p length fuel offset s = MemResult.fatal s1) →
      s1.arena = s.arena ∧ s1.pending = s.pending := by
  intro fuel
  induction fuel with
  | zero => intro offset s s1 h; rcases h with h | h <;> simp [mapLoop] at h
  | succ n ih =>
    intro offset s s1 h
    simp only [mapLoop] at h
    by_cases hlt : offset < length
    · simp only [if_pos hlt] at h
      by_cases hf : frames s.allocCalls = physicalSentinel
      · simp only [if_pos hf] at h
        rcases h with h | h
        · cases h
        · injection h with h; subst h; exact ⟨rfl, rfl⟩
      · simp only [if_neg hf] at h
        obtain ⟨h1, h2⟩ := ih _ _ _ h
        exact ⟨h1, h2⟩
    · simp only [if_neg hlt] at h
      rcases h with h | h
      · injection h with h; subst h; exact ⟨rfl, rfl⟩
      · cases h

theorem unmapLoop_frame (address length : Nat) :
    ∀ (fuel offset : Nat) (s s1 : KernelMemory),
      (unmapLoop address length fuel offset s = MemResult.ok s1 ∨
        unmapLoop address length fuel offset s = MemResult.fatal s1) →
      s1.arena = s.arena ∧ s1.pending = s.pending ∧ s1.allocCalls = s.allocCalls ∧
        framesAllocated s1.events = framesAllocated s.events := by
  intro fuel
  induction fuel with
  | zero => intro offset s s1 h; rcases h with h | h <;> simp [unmapLoop] at h
  | succ n ih =>
    intro offset s s1 h
    simp only [unmapLoop] at h
    by_cases hlt : offset < length
    · simp only [if_pos hlt] at h
      cases hp : s.pageSpace (address + offset) with
      | none =>
        rw [hp] at h
        rcases h with h | h
        · cases h
        · injection h with h; subst h; exact ⟨rfl, rfl, rfl, rfl⟩
      | some physical =>
        rw [hp] at h
        obtain ⟨h1, h2, h3, h4⟩ := ih _ _ _ h
        refine ⟨h1, h2, h3, ?_⟩
        rw [h4]
        simp [framesAllocated_append, framesAllocated]
    · simp only [if_neg hlt] at h
      rcases h with h | h
      · injection h with h; subst h; exact ⟨rfl, rfl, rfl, rfl⟩
      · cases h

theorem mapLoop_ok (frames : Nat → Nat) (p length : Nat) :
    ∀ (k fuel offset : Nat) (s : KernelMemory), offset + k * kPageSize = length → k < fuel →
      (∀ i, i < k → frames (s.allocCalls + i) ≠ physicalSentinel) →
      ∃ s1, mapLoop frames p length fuel offset s = MemResult.ok s1 ∧
        s1.allocCalls = s.allocCalls + k ∧
        (∀ i, i < k →
          s1.pageSpace (p + (offset + i * kPageSize)) = some (frames (s.allocCalls + i))) ∧
        (∀ v, (∀ i, i < k → v ≠ p + (offset + i * kPageSize)) →
          s1.pageSpace v = s.pageSpace v) ∧
        framesFreed s1.events = framesFreed s.events ∧
        framesAllocated s1.events = framesAllocated s.events ++
          (List.range k).map (fun i => frames (s.allocCalls + i)) := by
  intro k
  induction k with
  | zero =>
    intro fuel offset s hlen hf _
    obtain ⟨n, rfl⟩ : ∃ n, fuel = n + 1 := ⟨fuel - 1, by omega⟩
    have hnlt : ¬ offset < length := by omega
    refine ⟨s, by simp only [mapLoop, if_neg hnlt], rfl, ?_, fun _ _ => rfl, rfl, by simp⟩
    intro i hi; omega
  | succ k ih =>
    intro fuel offset s hlen hf hframes
    obtain ⟨n, rfl⟩ : ∃ n, fuel = n + 1 := ⟨fuel - 1, by omega⟩
    have hps : kPageSize = 4096 := rfl
    have hlt : offset < length := by rw [hps] at hlen; omega
    have hf0 : frames s.allocCalls ≠ physicalSentinel := hframes 0 (by omega)
    simp only [mapLoop, if_pos hlt, if_neg hf0]
    obtain ⟨s1, h1, hcalls, hpages, hother, hfreed, halloc⟩ := ih n (offset + kPageSize)
      { s with
        allocCalls := s.allocCalls + 1,
        pageSpace := fun v => if v = p + offset then some (frames s.allocCalls)
          else s.pageSpace v,
        events := s.events ++ [MemEvent.frameAllocate (frames s.allocCalls)] ++
          [MemEvent.mapSingle4k (p + offset) (frames s.allocCalls)] }
      (by rw [← hlen]; ring) (by omega)
      (fun i hi => by
        have := hframes (i + 1) (by omega)
        simpa [Nat.add_assoc, Nat.add_comm 1 i] using this)
    refine ⟨s1, h1, ?_, ?_, ?_, ?_, ?_⟩
    · rw [hcalls]; simp only []; omega
    · intro i hi
      cases i with
      | zero =>
        rw [hother (p + (offset + 0 * kPageSize)) (fun j _ => by rw [hps]; omega)]
        simp
      | succ j =>
        have := hpages j (by omega)
        simp only [] at this
        rw [show p + (offset + (j + 1) * kPageSize) = p + (offset + kPageSize + j * kPageSize)
          by ring]
        rw [this]
        congr 2
        omega
    · intro v hv
      rw [hother v (fun j hj => by
        have := hv (j + 1) (by omega)
        rw [show p + (offset + (j + 1) * kPageSize) = p + (offset + kPageSize + j * kPageSize)
          by ring] at this
        exact this)]
      have hv0 := hv 0 (by omega)
      simp only [Nat.zero_mul, Nat.add_zero] at hv0
      simp [hv0]
    · rw [hfreed]
      simp [framesFreed_append, framesFreed]
    · rw [halloc]
      simp only [framesAllocated_append, framesAllocated, List.append_nil, List.append_assoc]
      rw [List.range_succ_eq_map, List.map_cons, List.map_map]
      simp only [List.singleton_append, Nat.add_zero]
      congr 2
      apply List.map_congr_left
      intro i _
      simp only [Function.comp]
      congr 1
      omega


theorem unmapLoop_ok (address length : Nat) :
    ∀ (k fuel offset : Nat) (s : KernelMemory) (g : Nat → Nat),
      offset + k * kPageSize = length → k < fuel →
      (∀ i, i < k → s.pageSpace (address + (offset + i * kPageSize)) = some (g i)) →
      ∃ s1, unmapLoop address length fuel offset s = MemResult.ok s1 ∧
        s1.arena = s.arena ∧ s1.pending = s.pending ∧ s1.allocCalls = s.allocCalls ∧
        framesAllocated s1.events = framesAllocated s.events ∧
        framesFreed s1.events = framesFreed s.events ++ (List.range k).map g := by
  intro k
  induction k with
  | zero =>
    intro fuel offset s g hlen hf _
    obtain ⟨n, rfl⟩ : ∃ n, fuel = n + 1 := ⟨fuel - 1, by omega⟩
    have hnlt : ¬ offset < length := by omega
    exact ⟨s, by simp only [unmapLoop, if_neg hnlt], rfl, rfl, rfl, rfl, by simp⟩
  | succ k ih =>
    intro fuel offset s g hlen hf hpages
    obtain ⟨n, rfl⟩ : ∃ n, fuel = n + 1 := ⟨fuel - 1, by omega⟩
    have hps : kPageSize = 4096 := rfl
    have hlt : offset < length := by rw [hps] at hlen; omega
    have hp0 : s.pageSpace (address + offset) = some (g 0) := by
      have := hpages 0 (by omega)
      simpa using this
    simp only [unmapLoop, if_pos hlt, hp0]
    obtain ⟨s1, h1, harena, hpend, hcalls, halloc, hfreed⟩ := ih n (offset + kPageSize)
      { s with
        pageSpace := fun v => if v = address + offset then none else s.pageSpace v,
        events := s.events ++ [MemEvent.unmapSingle4k (address + offset) (g 0),
          MemEvent.frameFree (g 0)] }
      (fun i => g (i + 1))
      (by rw [← hlen]; ring) (by omega)
      (fun i hi => by
        have := hpages (i + 1) (by omega)
        rw [show address + (offset + (i + 1) * kPageSize) =
          address + (offset + kPageSize + i * kPageSize) by ring] at this
        have hne : ¬ address + (offset + kPageSize + i * kPageSize) = address + offset := by
          rw [hps]; omega
        simp only [hne, if_false]
        exact this)
    refine ⟨s1, h1, harena, hpend, hcalls, ?_, ?_⟩
    · rw [halloc]
      simp [framesAllocated_append, framesAllocated]
    · rw [hfreed]
      simp only [framesFreed_append, framesFreed, List.append_nil, List.append_assoc]
      rw [List.range_succ_eq_map, List.map_cons, List.map_map]
      simp only [List.singleton_append]
      congr 2

theorem mapLoop_fatal (frames : Nat → Nat) (p length : Nat) :
    ∀ (i fuel offset : Nat) (s : KernelMemory), offset + i * kPageSize < length → i < fuel →
      frames (s.allocCalls + i) = physicalSentinel →
      ∃ s1, mapLoop frames p length fuel offset s = MemResult.fatal s1 := by
  intro i
  induction i with
  | zero =>
    intro fuel offset s hlt hf hfr
    obtain ⟨n, rfl⟩ : ∃ n, fuel = n + 1 := ⟨fuel - 1, by omega⟩
    have hlt0 : offset < length := by omega
    have hf0 : frames s.allocCalls = physicalSentinel := by simpa using hfr
    refine ⟨({ s with
      allocCalls := s.allocCalls + 1,
      events := s.events ++ [MemEvent.frameAllocate (frames s.allocCalls)] } : KernelMemory), ?_⟩
    simp only [mapLoop, if_pos hlt0]
    rw [if_pos hf0]
  | succ i ih =>
    intro fuel offset s hlt hf hfr
    obtain ⟨n, rfl⟩ : ∃ n, fuel = n + 1 := ⟨fuel - 1, by omega⟩
    have hps : kPageSize = 4096 := rfl
    have hlt0 : offset < length := by rw [hps] at hlt; omega
    simp only [mapLoop, if_pos hlt0]
    by_cases hf0 : frames s.allocCalls = physicalSentinel
    · exact ⟨({ s with
        allocCalls := s.allocCalls + 1,
        events := s.events ++ [MemEvent.frameAllocate (frames s.allocCalls)] } : KernelMemory),
        by rw [if_pos hf0]⟩
    · rw [if_neg hf0]
      exact ih n (offset + kPageSize) _ (by rw [hps] at hlt ⊢; omega) (by omega)
        (by
          show frames (s.allocCalls + 1 + i) = physicalSentinel
          rw [← hfr]; congr 1; omega)

theorem map_ok (frames : Nat → Nat) (s s1 : KernelMemory) (length address pointer : Nat)
    (h : map frames s length address = MapResult.ok pointer s1) :
    ∃ a s0, s.arena.allocate length address = AllocResult.ok pointer a ∧
      mapLoop frames pointer length (length / kPageSize + 2) 0 { s with arena := a } =
        MemResult.ok s0 ∧
      s1 = { s0 with arena := { s0.arena with
        kernelMemoryUsage := (s0.arena.kernelMemoryUsage + length) % wordSize } } := by
  unfold map at h
  cases ha : s.arena.allocate length address with
  | diverged => rw [ha] at h; cases h
  | fatal a => rw [ha] at h; cases h
  | ok p a =>
    rw [ha] at h
    simp only [] at h
    cases hl : mapLoop frames p length (length / kPageSize + 2) 0 { s with arena := a } with
    | diverged => rw [hl] at h; cases h
    | fatal s0 => rw [hl] at h; cases h
    | ok s0 =>
      rw [hl] at h
      injection h with h1 h2
      subst h1
      exact ⟨a, s0, rfl, hl, h2.symm⟩

theorem deallocate_ok (a a1 : KernelVirtualMemory) (pointer length : Nat)
    (h : a.deallocate pointer length = ArenaResult.ok a1) :
    ∃ order, computeOrder length = some order ∧
      shiftOne (kPageShift + order) ≤ a.kernelVirtualUsage ∧
      a1 = { a with
        blocks := a.blocks.erase (pointer, order),
        kernelVirtualUsage := a.kernelVirtualUsage - shiftOne (kPageShift + order) } := by
  unfold KernelVirtualMemory.deallocate at h
  cases hc : computeOrder length with
  | none => rw [hc] at h; cases h
  | some order =>
    rw [hc] at h
    simp only [] at h
    by_cases hge : a.kernelVirtualUsage ≥ shiftOne (kPageShift + order)
    · rw [if_neg (by simpa using hge)] at h
      injection h with h
      exact ⟨order, rfl, hge, h.symm⟩
    · rw [if_pos (by simpa using hge)] at h
      cases h

theorem complete_ok (c : Closure) (s s1 : KernelMemory)
    (h : complete c s = MemResult.ok s1) :
    ∃ a, s.arena.deallocate c.address c.size = ArenaResult.ok a ∧
      s1 = { s with arena := a,
                    events := s.events ++ [MemEvent.deallocate c.address c.size,
                      MemEvent.frameFree c.thisPage] } := by
  unfold complete at h
  cases hd : s.arena.deallocate c.address c.size with
  | diverged => rw [hd] at h; cases h
  | fatal a => rw [hd] at h; cases h
  | ok a =>
    rw [hd] at h
    injection h with h
    exact ⟨a, rfl, h.symm⟩

theorem unmap_ok (frames : Nat → Nat) (s s1 : KernelMemory) (address length : Nat)
    (shootdownDone : Bool)
    (h : unmap frames s address length shootdownDone = MemResult.ok s1) :
    address % kPageSize = 0 ∧ length % kPageSize = 0 ∧
    ∃ s0, unmapLoop address length (length / kPageSize + 2) 0 s = MemResult.ok s0 ∧
      (shootdownDone = false →
        s1 = { s0 with
          arena := { s0.arena with
            kernelMemoryUsage := (s0.arena.kernelMemoryUsage + wordSize - length) % wordSize },
          allocCalls := s0.allocCalls + 1,
          events := s0.events ++ [MemEvent.frameAllocate (frames s0.allocCalls),
            MemEvent.submitShootdown
              { address := address, size := length, thisPage := frames s0.allocCalls }],
          pending := { address := address, size := length, thisPage := frames s0.allocCalls } ::
            s0.pending }) ∧
      (shootdownDone = true →
        complete { address := address, size := length, thisPage := frames s0.allocCalls }
          { s0 with
            arena := { s0.arena with
              kernelMemoryUsage :=
                (s0.arena.kernelMemoryUsage + wordSize - length) % wordSize },
            allocCalls := s0.allocCalls + 1,
            events := s0.events ++ [MemEvent.frameAllocate (frames s0.allocCalls),
              MemEvent.submitShootdown
                { address := address, size := length, thisPage := frames s0.allocCalls }] } =
          MemResult.ok s1) := by
  unfold unmap at h
  by_cases ha : address % kPageSize = 0
  · by_cases hl : length % kPageSize = 0
    · simp only [ha, hl, ne_eq, not_true_eq_false, if_false] at h
      refine ⟨ha, hl, ?_⟩
      cases hloop : unmapLoop address length (length / kPageSize + 2) 0 s with
      | diverged => rw [hloop] at h; cases h
      | fatal s0 => rw [hloop] at h; cases h
      | ok s0 =>
        rw [hloop] at h
        simp only [] at h
        refine ⟨s0, rfl, ?_, ?_⟩
        · intro hd
          rw [hd] at h
          simp only [Bool.false_eq_true, if_false] at h
          injection h with h
          exact h.symm
        · intro hd
          rw [hd] at h
          simpa using h
    · simp only [ha, ne_eq, not_true_eq_false, if_false, hl, not_false_eq_true, if_true] at h
      cases h
  · simp only [ne_eq, ha, not_false_eq_true, if_true] at h
    cases h

theorem reservedBytes_append (a b : List (Nat × Nat)) :
    reservedBytes (a ++ b) = reservedBytes a + reservedBytes b := by
  induction a with
  | nil => simp [reservedBytes]
  | cons x xs ih =>
    show reservedBytes (x :: (xs ++ b)) = reservedBytes (x :: xs) + reservedBytes b
    simp only [reservedBytes, ih]; omega

theorem reservedBytes_perm (a b : List (Nat × Nat)) (h : List.Perm a b) :
    reservedBytes a = reservedBytes b := by
  induction h with
  | nil => rfl
  | cons x _ ih => simp only [reservedBytes, ih]
  | swap x y l => simp only [reservedBytes]; omega
  | trans _ _ ih1 ih2 => exact ih1.trans ih2

theorem residentBytes_erase (m : Nat × Nat) :
    ∀ live : List (Nat × Nat), m ∈ live →
      residentBytes (live.erase m) + m.2 = residentBytes live := by
  intro live
  induction live with
  | nil => intro h; cases h
  | cons c cs ih =>
    intro h
    by_cases hcm : c = m
    · subst hcm
      simp [residentBytes]
      omega
    · have hmem : m ∈ cs := by
        rcases List.mem_cons.1 h with h | h
        · exact absurd h.symm hcm
        · exact h
      rw [List.erase_cons_tail (by simpa using hcm)]
      simp only [residentBytes]
      have := ih hmem
      omega

theorem orderOf_eq (length order : Nat) (h : computeOrder length = some order) :
    orderOf length = order := by
  simp [orderOf, h]

theorem computeOrder_orderOf (length : Nat) (h : length ≤ 2 ^ 63) :
    computeOrder length = some (orderOf length) ∧ length ≤ 2 ^ (kPageShift + orderOf length) := by
  obtain ⟨k, hk, _, hge, _⟩ := computeOrder_spec length h
  rw [orderOf_eq length k hk]
  exact ⟨hk, hge⟩

theorem resident_le_reserved :
    ∀ live : List (Nat × Nat), (∀ m ∈ live, m.2 ≤ 2 ^ 63) →
      residentBytes live ≤ reservedBytes (live.map blockOfRange) := by
  intro live
  induction live with
  | nil => intro _; simp [residentBytes, reservedBytes]
  | cons m ms ih =>
    intro h
    have hm := (computeOrder_orderOf m.2 (h m (List.mem_cons_self _ _))).2
    have := ih (fun x hx => h x (List.mem_cons_of_mem _ hx))
    simp only [List.map_cons, residentBytes, reservedBytes, blockOfRange]
    omega

theorem MapInv_bounds (live : List (Nat × Nat)) (s : KernelMemory) (h : MapInv live s) :
    s.arena.kernelMemoryUsage ≤ s.arena.kernelVirtualUsage ∧
    s.arena.kernelVirtualUsage ≤ desiredSize ∧
    s.arena.kernelVirtualUsage =
      reservedBytes (live.map blockOfRange) + reservedBytes (s.pending.map blockOfClosure) := by
  obtain ⟨⟨hw, hp, hu⟩, hm, hperm, hl, _⟩ := h
  have h1 := reservedBytes_perm _ _ hperm
  rw [reservedBytes_append] at h1
  have h2 := resident_le_reserved live hl
  have h3 := reservedBytes_le _ hw hp
  refine ⟨by omega, by omega, by omega⟩

theorem ArenaInv_setResident (a : KernelVirtualMemory) (x : Nat) (h : ArenaInv a) :
    ArenaInv { a with kernelMemoryUsage := x } := h

theorem residentBytes_mem_le (m : Nat × Nat) (live : List (Nat × Nat)) (h : m ∈ live) :
    m.2 ≤ residentBytes live := by
  have := residentBytes_erase m live h
  omega

theorem MapInv_map (frames : Nat → Nat) (live : List (Nat × Nat)) (s s1 : KernelMemory)
    (length address pointer : Nat) (hinv : MapInv live s)
    (hb : buddyAnswer s.arena length address)
    (h : map frames s length address = MapResult.ok pointer s1) :
    MapInv ((pointer, length) :: live) s1 ∧
      s1.arena.kernelMemoryUsage = s.arena.kernelMemoryUsage + length ∧
      s1.arena.kernelVirtualUsage =
        s.arena.kernelVirtualUsage + 2 ^ (kPageShift + orderOf length) ∧
      s1.pending = s.pending ∧ pointer % 2 ^ (kPageShift + orderOf length) = 0 ∧
      length ≤ 2 ^ 63 := by
  obtain ⟨a, s0, ha, hloop, hs1⟩ := map_ok frames s s1 length address pointer h
  obtain ⟨hfa, hfp⟩ := mapLoop_frame frames pointer length _ _ _ s0 (Or.inl hloop)
  simp only [] at hfa hfp
  obtain ⟨order, hc, _, hne, hpa, hadef⟩ := allocate_ok s.arena a length address pointer ha
  have hoo := orderOf_eq length order hc
  have hL := (computeOrder_some_bound length order hc).1
  unfold buddyAnswer at hb
  rw [hoo] at hb
  obtain ⟨hainv, hakvu, hablocks⟩ :=
    ArenaInv_allocate s.arena a length order address pointer hinv.1 hc hb.1 ha
  have hbounds := MapInv_bounds live s hinv
  have hakmu : a.kernelMemoryUsage = s.arena.kernelMemoryUsage := by rw [hadef]
  have hlt : desiredSize < wordSize := desiredSize_lt_wordSize
  have hkmu : s1.arena.kernelMemoryUsage = s.arena.kernelMemoryUsage + length := by
    rw [hs1]
    simp only [hfa, hakmu]
    apply Nat.mod_eq_of_lt
    have hd : desiredSize + 2 ^ 63 < wordSize := by decide
    omega
  have hkvu : s1.arena.kernelVirtualUsage = a.kernelVirtualUsage := by
    rw [hs1]; simp only [hfa]
  have hblocks : s1.arena.blocks = a.blocks := by
    rw [hs1]; simp only [hfa]
  have hpend : s1.pending = s.pending := by
    rw [hs1]; simp only [hfp]
  obtain ⟨hinv1, hinv2, hinv3, hinv4, hinv5⟩ := hinv
  refine ⟨⟨?_, ?_, ?_, ?_, ?_⟩, hkmu, ?_, hpend, ?_, hL⟩
  · obtain ⟨hw, hp, hu⟩ := hainv
    exact ⟨by rw [hblocks]; exact hw, by rw [hblocks]; exact hp, by rw [hkvu, hblocks]; exact hu⟩
  · rw [hkmu, hinv2]; simp only [residentBytes]; omega
  · rw [hblocks, hablocks, hpend]
    simp only [List.map_cons, List.cons_append, blockOfRange, hoo]
    exact List.Perm.cons _ hinv3
  · intro m hm
    rcases List.mem_cons.1 hm with rfl | hm
    · exact hL
    · exact hinv4 m hm
  · rw [hpend]; exact hinv5
  · rw [hkvu, hakvu, hoo]
  · rw [hoo]
    rcases hb.2 with hb2 | hb2
    · exact absurd hb2 hne
    · rw [hpa]; exact hb2

theorem pair_perm_cons_erase (m : Nat × Nat) :
    ∀ l : List (Nat × Nat), m ∈ l → List.Perm l (m :: l.erase m) := by
  intro l
  induction l with
  | nil => intro h; cases h
  | cons x xs ih =>
    intro h
    by_cases hx : x = m
    · subst hx
      rw [List.erase_cons_head]
    · have hmem : m ∈ xs := by
        rcases List.mem_cons.1 h with h | h
        · exact absurd h.symm hx
        · exact h
      rw [List.erase_cons_tail (by simpa using hx)]
      exact ((ih hmem).cons x).trans (List.Perm.swap m x _)

theorem pair_perm_erase (l rest : List (Nat × Nat)) (b : Nat × Nat)
    (h : List.Perm l (b :: rest)) : List.Perm (l.erase b) rest := by
  have hmem : b ∈ l := (h.mem_iff).2 (List.mem_cons_self _ _)
  exact ((pair_perm_cons_erase b l hmem).symm.trans h).cons_inv

theorem dealloc_block (a : KernelVirtualMemory) (pointer length : Nat) (hinv : ArenaInv a)
    (hL : length ≤ 2 ^ 63) (hmem : (pointer, orderOf length) ∈ a.blocks) :
    ∃ a1, a.deallocate pointer length = ArenaResult.ok a1 ∧ ArenaInv a1 ∧
      a1.blocks = a.blocks.erase (pointer, orderOf length) ∧
      a1.kernelMemoryUsage = a.kernelMemoryUsage ∧
      2 ^ (kPageShift + orderOf length) ≤ a.kernelVirtualUsage ∧
      a1.kernelVirtualUsage = a.kernelVirtualUsage - 2 ^ (kPageShift + orderOf length) := by
  have hc := (computeOrder_orderOf length hL).1
  obtain ⟨a1, h1, hinv1, hge, hkvu, hblocks⟩ :=
    ArenaInv_deallocate a length (orderOf length) pointer hinv hc hmem
  obtain ⟨order, hc2, _, hdef⟩ := deallocate_ok a a1 pointer length h1
  exact ⟨a1, h1, hinv1, hblocks, by rw [hdef], hge, hkvu⟩

theorem unmap_eq (frames : Nat → Nat) (s s0 : KernelMemory) (address length : Nat)
    (shootdownDone : Bool) (hA : address % kPageSize = 0) (hL : length % kPageSize = 0)
    (hloop : unmapLoop address length (length / kPageSize + 2) 0 s = MemResult.ok s0) :
    unmap frames s address length shootdownDone =
      if shootdownDone then
        complete { address := address, size := length, thisPage := frames s0.allocCalls }
          { s0 with
            arena := { s0.arena with
              kernelMemoryUsage :=
                (s0.arena.kernelMemoryUsage + wordSize - length) % wordSize },
            allocCalls := s0.allocCalls + 1,
            events := s0.events ++ [MemEvent.frameAllocate (frames s0.allocCalls),
              MemEvent.submitShootdown
                { address := address, size := length, thisPage := frames s0.allocCalls }] }
      else
        MemResult.ok
          { s0 with
            arena := { s0.arena with
              kernelMemoryUsage :=
                (s0.arena.kernelMemoryUsage + wordSize - length) % wordSize },
            allocCalls := s0.allocCalls + 1,
            events := s0.events ++ [MemEvent.frameAllocate (frames s0.allocCalls),
              MemEvent.submitShootdown
                { address := address, size := length, thisPage := frames s0.allocCalls }],
            pending := { address := address, size := length,
                         thisPage := frames s0.allocCalls } :: s0.pending } := by
  unfold unmap
  simp only [hA, hL, ne_eq, not_true_eq_false, if_false, hloop]

theorem perm_move_block (blocks : List (Nat × Nat)) (live : List (Nat × Nat))
    (rest : List (Nat × Nat)) (m : Nat × Nat) (hm : m ∈ live)
    (h : List.Perm blocks (live.map blockOfRange ++ rest)) :
    List.Perm blocks (blockOfRange m :: ((live.erase m).map blockOfRange ++ rest)) := by
  have h1 : List.Perm (live.map blockOfRange)
      (blockOfRange m :: (live.erase m).map blockOfRange) :=
    by simpa using (pair_perm_cons_erase m live hm).map blockOfRange
  exact h.trans (h1.append_right rest)

theorem MapInv_unmap (frames : Nat → Nat) (live : List (Nat × Nat)) (s s1 : KernelMemory)
    (address length : Nat) (shootdownDone : Bool) (hinv : MapInv live s)
    (hm : (address, length) ∈ live)
    (h : unmap frames s address length shootdownDone = MemResult.ok s1) :
    MapInv (live.erase (address, length)) s1 ∧
      s1.arena.kernelMemoryUsage + length = s.arena.kernelMemoryUsage ∧
      (shootdownDone = false →
        s1.arena.blocks = s.arena.blocks ∧
        s1.arena.kernelVirtualUsage = s.arena.kernelVirtualUsage ∧
        ∃ c : Closure, c.address = address ∧ c.size = length ∧ s1.pending = c :: s.pending) ∧
      (shootdownDone = true →
        s1.arena.kernelVirtualUsage + 2 ^ (kPageShift + orderOf length) =
          s.arena.kernelVirtualUsage ∧ s1.pending = s.pending) := by
  obtain ⟨hA, hLm, s0, hloop, hfalse, htrue⟩ :=
    unmap_ok frames s s1 address length shootdownDone h
  obtain ⟨hfa, hfp, _, _⟩ := unmapLoop_frame address length _ _ _ s0 (Or.inl hloop)
  have hbounds := MapInv_bounds live s hinv
  obtain ⟨hinv1, hinv2, hinv3, hinv4, hinv5⟩ := hinv
  have hLle : length ≤ s.arena.kernelMemoryUsage := by
    rw [hinv2]; exact residentBytes_mem_le _ live hm
  have hlt : desiredSize < wordSize := desiredSize_lt_wordSize
  have hsub : (s.arena.kernelMemoryUsage + wordSize - length) % wordSize =
      s.arena.kernelMemoryUsage - length := by
    have : s.arena.kernelMemoryUsage + wordSize - length =
        (s.arena.kernelMemoryUsage - length) + wordSize := by omega
    rw [this, Nat.add_mod_right]
    exact Nat.mod_eq_of_lt (by omega)
  have herase := residentBytes_erase (address, length) live hm
  simp only [] at herase
  have hperm := perm_move_block s.arena.blocks live (s.pending.map blockOfClosure)
    (address, length) hm hinv3
  have hL63 := hinv4 _ hm
  cases shootdownDone with
  | false =>
    have hs1 := hfalse rfl
    refine ⟨⟨?_, ?_, ?_, ?_, ?_⟩, ?_, ?_, ?_⟩
    · rw [hs1]; simp only [hfa]; exact hinv1
    · rw [hs1]; simp only [hfa, hsub]; omega
    · rw [hs1]
      simp only [hfa, hfp, List.map_cons]
      exact hperm.trans List.perm_middle.symm
    · intro m hmem; exact hinv4 m (List.mem_of_mem_erase hmem)
    · rw [hs1]
      simp only [hfp]
      intro c hc
      rcases List.mem_cons.1 hc with rfl | hc
      · exact hL63
      · exact hinv5 c hc
    · rw [hs1]; simp only [hfa, hsub]; omega
    · intro _
      rw [hs1]
      exact ⟨by simp only [hfa], by simp only [hfa],
        ({ address := address, size := length, thisPage := frames s0.allocCalls } : Closure),
        rfl, rfl, by simp only [hfp]⟩
    · intro hd; cases hd
  | true =>
    have hcomp := htrue rfl
    obtain ⟨a, hd, hs1⟩ := complete_ok _ _ s1 hcomp
    simp only [hfa] at hd
    have hmemb : (address, orderOf length) ∈ s.arena.blocks :=
      (hperm.mem_iff).2 (List.mem_cons_self _ _)
    obtain ⟨a1, hd1, hainv, hablocks, hakmu, hage, hakvu⟩ :=
      dealloc_block { s.arena with
        kernelMemoryUsage := (s.arena.kernelMemoryUsage + wordSize - length) % wordSize }
        address length hinv1 hL63 hmemb
    rw [hd] at hd1
    injection hd1 with hd1
    subst hd1
    simp only [] at hablocks hakmu hage hakvu
    refine ⟨⟨?_, ?_, ?_, ?_, ?_⟩, ?_, ?_, ?_⟩
    · rw [hs1]; exact hainv
    · rw [hs1]; simp only [hakmu, hsub]; omega
    · rw [hs1]
      simp only [hablocks, hfp]
      exact pair_perm_erase _ _ _ hperm
    · intro m hmem; exact hinv4 m (List.mem_of_mem_erase hmem)
    · rw [hs1]; simp only [hfp]; exact hinv5
    · rw [hs1]; simp only [hakmu, hsub]; omega
    · intro hd; cases hd
    · intro _
      rw [hs1]
      refine ⟨?_, ?_⟩
      · simp only [hakvu]; omega
      · simp only [hfp]

theorem MapInv_complete (live : List (Nat × Nat)) (s s1 : KernelMemory) (c : Closure)
    (hinv : MapInv live s) (hc : c ∈ s.pending)
    (h : shootdownCompletes s c = MemResult.ok s1) :
    MapInv live s1 ∧ s1.arena.kernelMemoryUsage = s.arena.kernelMemoryUsage ∧
      s1.arena.kernelVirtualUsage + 2 ^ (kPageShift + orderOf c.size) =
        s.arena.kernelVirtualUsage ∧
      s1.pending = s.pending.erase c := by
  obtain ⟨hinv1, hinv2, hinv3, hinv4, hinv5⟩ := hinv
  unfold shootdownCompletes at h
  obtain ⟨a, hd, hs1⟩ := complete_ok _ _ s1 h
  simp only [] at hd
  have hperm : List.Perm s.arena.blocks (blockOfClosure c ::
      (live.map blockOfRange ++ (s.pending.erase c).map blockOfClosure)) := by
    have h1 : List.Perm (s.pending.map blockOfClosure)
        (blockOfClosure c :: (s.pending.erase c).map blockOfClosure) :=
      by simpa using (List.perm_cons_erase hc).map blockOfClosure
    exact (hinv3.trans (h1.append_left _)).trans List.perm_middle
  have hmemb : (c.address, orderOf c.size) ∈ s.arena.blocks :=
    (hperm.mem_iff).2 (List.mem_cons_self _ _)
  obtain ⟨a1, hd1, hainv, hablocks, hakmu, hage, hakvu⟩ :=
    dealloc_block s.arena c.address c.size hinv1 (hinv5 c hc) hmemb
  rw [hd] at hd1
  injection hd1 with hd1
  subst hd1
  refine ⟨⟨?_, ?_, ?_, hinv4, ?_⟩, ?_, ?_, ?_⟩
  · rw [hs1]; exact hainv
  · rw [hs1]; simp only [hakmu]; exact hinv2
  · rw [hs1]
    simp only [hablocks]
    exact pair_perm_erase _ _ _ hperm
  · rw [hs1]
    simp only []
    intro x hx
    exact hinv5 x (List.mem_of_mem_erase hx)
  · rw [hs1]; simp only [hakmu]
  · rw [hs1]; simp only [hakvu]; omega
  · rw [hs1]

theorem initialMemory_inv (tableOrder : Nat) : MapInv [] (initialMemory tableOrder) := by
  refine ⟨⟨fun b hb => absurd hb (List.not_mem_nil b), List.Pairwise.nil, rfl⟩, rfl, ?_, ?_, ?_⟩
  · simp [initialMemory, initialArena]
  · intro m hm; cases hm
  · intro c hc; simp [initialMemory] at hc

theorem MapReachable_inv (frames : Nat → Nat) (tableOrder : Nat) (live : List (Nat × Nat))
    (s : KernelMemory) (h : MapReachable frames tableOrder live s) : MapInv live s := by
  induction h with
  | init => exact initialMemory_inv tableOrder
  | map live s s1 length address pointer _ hb hok ih =>
    exact (MapInv_map frames live s s1 length address pointer ih hb hok).1
  | unmap live s s1 address length done _ hm hok ih =>
    exact (MapInv_unmap frames live s s1 address length done ih hm hok).1
  | complete live s s1 c _ hc hok ih =>
    exact (MapInv_complete live s s1 c ih hc hok).1

theorem releases_append (a b : List MemEvent) :
    releases (a ++ b) = releases a ++ releases b := by
  induction a with
  | nil => rfl
  | cons e es ih => cases e <;> simpa [releases] using ih

theorem unmapLoop_releases (address length : Nat) :
    ∀ (fuel offset : Nat) (s s1 : KernelMemory),
      unmapLoop address length fuel offset s = MemResult.ok s1 →
      releases s1.events = releases s.events := by
  intro fuel
  induction fuel with
  | zero => intro offset s s1 h; simp [unmapLoop] at h
  | succ n ih =>
    intro offset s s1 h
    simp only [unmapLoop] at h
    by_cases hlt : offset < length
    · simp only [if_pos hlt] at h
      cases hp : s.pageSpace (address + offset) with
      | none => rw [hp] at h; cases h
      | some physical =>
        rw [hp] at h
        have := ih _ _ _ h
        rw [this]
        simp [releases_append, releases]
    · simp only [if_neg hlt] at h
      injection h with h
      subst h
      rfl

theorem mapLoop_releases (frames : Nat → Nat) (p length : Nat) :
    ∀ (fuel offset : Nat) (s s1 : KernelMemory),
      mapLoop frames p length fuel offset s = MemResult.ok s1 →
      releases s1.events = releases s.events := by
  intro fuel
  induction fuel with
  | zero => intro offset s s1 h; simp [mapLoop] at h
  | succ n ih =>
    intro offset s s1 h
    simp only [mapLoop] at h
    by_cases hlt : offset < length
    · simp only [if_pos hlt] at h
      by_cases hf : frames s.allocCalls = physicalSentinel
      · simp only [if_pos hf] at h
        cases h
      · simp only [if_neg hf] at h
        have := ih _ _ _ h
        rw [this]
        simp [releases_append, releases]
    · simp only [if_neg hlt] at h
      injection h with h
      subst h
      rfl

theorem complete_run (c : Closure) (s : KernelMemory) (a : KernelVirtualMemory)
    (h : s.arena.deallocate c.address c.size = ArenaResult.ok a) :
    complete c s = MemResult.ok
      { s with arena := a,
               events := s.events ++ [MemEvent.deallocate c.address c.size,
                 MemEvent.frameFree c.thisPage] } := by
  unfold complete
  rw [h]

theorem pages_of_length (length : Nat) (h : length % kPageSize = 0) :
    0 + length / kPageSize * kPageSize = length := by
  have hps : kPageSize = 4096 := rfl
  rw [hps] at h ⊢
  omega

theorem map_pages (frames : Nat → Nat) (s s1 : KernelMemory) (length address pointer : Nat)
    (hL : length % kPageSize = 0)
    (h : map frames s length address = MapResult.ok pointer s1) :
    s1.allocCalls = s.allocCalls + length / kPageSize ∧
    (∀ i, i < length / kPageSize →
      s1.pageSpace (pointer + i * kPageSize) = some (frames (s.allocCalls + i))) ∧
    framesFreed s1.events = framesFreed s.events ∧
    framesAllocated s1.events = framesAllocated s.events ++
      (List.range (length / kPageSize)).map (fun i => frames (s.allocCalls + i)) ∧
    releases s1.events = releases s.events ++ [] := by
  obtain ⟨a, s0, _, hloop, hs1⟩ := map_ok frames s s1 length address pointer h
  have hps : kPageSize = 4096 := rfl
  have hk := pages_of_length length hL
  have hframes : ∀ i, i < length / kPageSize →
      frames (({ s with arena := a } : KernelMemory).allocCalls + i) ≠ physicalSentinel := by
    intro i hi hsent
    obtain ⟨sf, hf⟩ := mapLoop_fatal frames pointer length i (length / kPageSize + 2) 0
      { s with arena := a } (by rw [hps] at hk hi ⊢; omega) (by omega) hsent
    rw [hf] at hloop
    cases hloop
  obtain ⟨s0', h0, hcalls, hpages, _, hfreed, halloc⟩ :=
    mapLoop_ok frames pointer length (length / kPageSize) (length / kPageSize + 2) 0
      { s with arena := a } hk (by omega) hframes
  rw [h0] at hloop
  injection hloop with hloop
  subst hloop
  subst hs1
  refine ⟨hcalls, ?_, hfreed, halloc, ?_⟩
  · intro i hi
    have := hpages i hi
    simpa using this
  · simp only [List.append_nil]
    have hr := mapLoop_releases frames pointer length _ _ _ _ h0
    exact hr

theorem unmap_false_form (frames : Nat → Nat) (s s0 : KernelMemory) (address length : Nat)
    (hA : address % kPageSize = 0) (hL : length % kPageSize = 0)
    (hloop : unmapLoop address length (length / kPageSize + 2) 0 s = MemResult.ok s0) :
    ∃ s2, unmap frames s address length false = MemResult.ok s2 ∧
      s2.arena = { s0.arena with
        kernelMemoryUsage := (s0.arena.kernelMemoryUsage + wordSize - length) % wordSize } ∧
      s2.pending =
        { address := address, size := length, thisPage := frames s0.allocCalls } :: s0.pending ∧
      s2.events = s0.events ++ [MemEvent.frameAllocate (frames s0.allocCalls),
        MemEvent.submitShootdown
          { address := address, size := length, thisPage := frames s0.allocCalls }] := by
  rw [unmap_eq frames s s0 address length false hA hL hloop]
  simp only [Bool.false_eq_true, if_false]
  exact ⟨_, rfl, rfl, rfl, rfl⟩

theorem unmap_true_form (frames : Nat → Nat) (s s0 : KernelMemory) (address length : Nat)
    (a : KernelVirtualMemory)
    (hA : address % kPageSize = 0) (hL : length % kPageSize = 0)
    (hloop : unmapLoop address length (length / kPageSize + 2) 0 s = MemResult.ok s0)
    (hd : ({ s0.arena with
      kernelMemoryUsage := (s0.arena.kernelMemoryUsage + wordSize - length) % wordSize } :
      KernelVirtualMemory).deallocate address length = ArenaResult.ok a) :
    ∃ s2, unmap frames s address length true = MemResult.ok s2 ∧ s2.arena = a ∧
      s2.pending = s0.pending ∧
      s2.events = s0.events ++ [MemEvent.frameAllocate (frames s0.allocCalls),
        MemEvent.submitShootdown
          { address := address, size := length, thisPage := frames s0.allocCalls },
        MemEvent.deallocate address length, MemEvent.frameFree (frames s0.allocCalls)] := by
  rw [unmap_eq frames s s0 address length true hA hL hloop]
  simp only [if_true]
  rw [complete_run _ _ a hd]
  exact ⟨_, rfl, rfl, rfl, by simp only [List.append_assoc, List.cons_append, List.nil_append]⟩

theorem shootdown_form (s : KernelMemory) (c : Closure) (a : KernelVirtualMemory)
    (hd : s.arena.deallocate c.address c.size = ArenaResult.ok a) :
    ∃ s3, shootdownCompletes s c = MemResult.ok s3 ∧ s3.arena = a ∧
      s3.pending = s.pending.erase c ∧
      s3.events = s.events ++ [MemEvent.deallocate c.address c.size,
        MemEvent.frameFree c.thisPage] := by
  unfold shootdownCompletes
  rw [complete_run c { s with pending := s.pending.erase c } a hd]
  exact ⟨_, rfl, rfl, rfl, rfl⟩

theorem unmap_run (frames : Nat → Nat) (s : KernelMemory) (address length : Nat)
    (g : Nat → Nat) (hinv : ArenaInv s.arena) (hL63 : length ≤ 2 ^ 63)
    (hmem : (address, orderOf length) ∈ s.arena.blocks)
    (hA : address % kPageSize = 0) (hL : length % kPageSize = 0)
    (hpages : ∀ i, i < length / kPageSize →
      s.pageSpace (address + i * kPageSize) = some (g i)) :
    ∃ s0, unmapLoop address length (length / kPageSize + 2) 0 s = MemResult.ok s0 ∧
      framesAllocated s0.events = framesAllocated s.events ∧
      framesFreed s0.events = framesFreed s.events ++ (List.range (length / kPageSize)).map g ∧
      releases s0.events = releases s.events ∧
      (∃ s2, unmap frames s address length true = MemResult.ok s2 ∧
        s2.events = s0.events ++ [MemEvent.frameAllocate (frames s.allocCalls),
          MemEvent.submitShootdown
            { address := address, size := length, thisPage := frames s.allocCalls },
          MemEvent.deallocate address length, MemEvent.frameFree (frames s.allocCalls)] ∧
        s2.pending = s.pending) ∧
      (∃ s2 s3, unmap frames s address length false = MemResult.ok s2 ∧
        s2.events = s0.events ++ [MemEvent.frameAllocate (frames s.allocCalls),
          MemEvent.submitShootdown
            { address := address, size := length, thisPage := frames s.allocCalls }] ∧
        s2.pending =
          { address := address, size := length, thisPage := frames s.allocCalls } :: s.pending ∧
        shootdownCompletes s2
          { address := address, size := length, thisPage := frames s.allocCalls } =
            MemResult.ok s3 ∧
        s3.events = s2.events ++ [MemEvent.deallocate address length,
          MemEvent.frameFree (frames s.allocCalls)] ∧
        s3.pending = s.pending) := by
  obtain ⟨s0, hloop, harena, hpend, hcalls, halloc, hfreed⟩ :=
    unmapLoop_ok address length (length / kPageSize) (length / kPageSize + 2) 0 s g
      (pages_of_length length hL) (by omega)
      (fun i hi => by simpa using hpages i hi)
  have hrel := unmapLoop_releases address length _ _ _ _ hloop
  obtain ⟨a1, hd1, _⟩ := dealloc_block
    { s.arena with
      kernelMemoryUsage := (s.arena.kernelMemoryUsage + wordSize - length) % wordSize }
    address length hinv hL63 hmem
  have hdead : ({ s0.arena with
      kernelMemoryUsage := (s0.arena.kernelMemoryUsage + wordSize - length) % wordSize } :
      KernelVirtualMemory).deallocate address length = ArenaResult.ok a1 := by
    simp only [harena]; exact hd1
  obtain ⟨t2, ht2, _, ht2p, ht2e⟩ :=
    unmap_true_form frames s s0 address length a1 hA hL hloop hdead
  obtain ⟨f2, hf2, hf2a, hf2p, hf2e⟩ := unmap_false_form frames s s0 address length hA hL hloop
  obtain ⟨f3, hf3, _, hf3p, hf3e⟩ := shootdown_form f2
    { address := address, size := length, thisPage := frames s0.allocCalls } a1
    (by rw [hf2a]; exact hdead)
  rw [hcalls] at ht2e hf2p hf2e hf3 hf3e hf3p
  refine ⟨s0, hloop, halloc, hfreed, hrel, ⟨t2, ht2, ht2e, by rw [ht2p, hpend]⟩,
    ⟨f2, f3, hf2, hf2e, by rw [hf2p, hpend], hf3, hf3e, ?_⟩⟩
  rw [hf3p, hf2p, List.erase_cons_head, hpend]

theorem page_aligned_of_granule (pointer order : Nat)
    (h : pointer % 2 ^ (kPageShift + order) = 0) : pointer % kPageSize = 0 := by
  have hd : kPageSize ∣ 2 ^ (kPageShift + order) := by
    refine ⟨2 ^ order, ?_⟩
    rw [Nat.pow_add]
    rfl
  exact Nat.mod_eq_zero_of_dvd (Nat.dvd_trans hd (Nat.dvd_of_mod_eq_zero h))

theorem fresh_buddyAnswer (tableOrder length : Nat) (h : 2 ^ (kPageShift + orderOf length) ≤ desiredSize)
    (ha : vmBase % 2 ^ (kPageShift + orderOf length) = 0) :
    buddyAnswer (initialMemory tableOrder).arena length vmBase := by
  refine ⟨Or.inr ⟨⟨le_refl _, ?_⟩, fun b hb => absurd hb (List.not_mem_nil b)⟩, Or.inr ha⟩
  show vmBase + 2 ^ (kPageShift + orderOf length) ≤ vmBase + desiredSize
  omega

theorem map_block_present (frames : Nat → Nat) (live : List (Nat × Nat))
    (s s1 : KernelMemory) (length address pointer : Nat) (hinv : MapInv live s)
    (hbuddy : buddyAnswer s.arena length address)
    (hmap : map frames s length address = MapResult.ok pointer s1) :
    MapInv ((pointer, length) :: live) s1 ∧ ArenaInv s1.arena ∧ length ≤ 2 ^ 63 ∧
      (pointer, orderOf length) ∈ s1.arena.blocks ∧ pointer % kPageSize = 0 := by
  obtain ⟨hinv1, _, _, _, halign, hL63⟩ :=
    MapInv_map frames live s s1 length address pointer hinv hbuddy hmap
  refine ⟨hinv1, hinv1.1, hL63, ?_, page_aligned_of_granule _ _ halign⟩
  exact (hinv1.2.2.1.mem_iff).2 (List.mem_append_left _ (List.mem_cons_self _ _))

/-- C11: in every reachable state, when `map(L)` returns `A` for a page-multiple `L`
the resident-bytes counter `kernelMemoryUsage` has grown by `L`, and the immediately
following `unmap(A, L)` whose shootdown completes synchronously returns with
`kernelMemoryUsage` and `kernelVirtualUsage` back at their values before the `map`.
On a fresh arena `map(8192)` leaves 8192 resident bytes and the `unmap` leaves both
counters at 0. -/
theorem C11_map_unmap_restores_counters (frames : Nat → Nat) (tableOrder : Nat)
    (live : List (Nat × Nat)) (s s1 : KernelMemory) (length address pointer : Nat)
    (hreach : MapReachable frames tableOrder live s)
    (hpage : length % kPageSize = 0) (hbuddy : buddyAnswer s.arena length address)
    (hmap : map frames s length address = MapResult.ok pointer s1) :
    s1.arena.kernelMemoryUsage = s.arena.kernelMemoryUsage + length ∧
    (∃ s2, unmap frames s1 pointer length true = MemResult.ok s2 ∧
      s2.arena.kernelMemoryUsage = s.arena.kernelMemoryUsage ∧
      s2.arena.kernelVirtualUsage = s.arena.kernelVirtualUsage) ∧
    (∃ t1 t2, map plentyFrames (initialMemory 19) 8192 vmBase = MapResult.ok vmBase t1 ∧
      t1.arena.kernelMemoryUsage = 8192 ∧
      unmap plentyFrames t1 vmBase 8192 true = MemResult.ok t2 ∧
      t2.arena.kernelMemoryUsage = 0 ∧ t2.arena.kernelVirtualUsage = 0) := by
  have hinv := MapReachable_inv frames tableOrder live s hreach
  obtain ⟨hinv1, hkmu, hkvu, _, _, _⟩ :=
    MapInv_map frames live s s1 length address pointer hinv hbuddy hmap
  obtain ⟨_, harena1, hL63, hmem, hA⟩ :=
    map_block_present frames live s s1 length address pointer hinv hbuddy hmap
  obtain ⟨_, hpages, _, _, _⟩ := map_pages frames s s1 length address pointer hpage hmap
  obtain ⟨_, _, _, _, _, ⟨s2, hs2, _, _⟩, _⟩ :=
    unmap_run frames s1 pointer length (fun i => frames (s.allocCalls + i)) harena1 hL63 hmem
      hA hpage hpages
  obtain ⟨_, hk2, _, hv2⟩ := MapInv_unmap frames _ s1 s2 pointer length true hinv1
    (List.mem_cons_self _ _) hs2
  have hv2' := (hv2 rfl).1
  refine ⟨hkmu, ⟨s2, hs2, by omega, by omega⟩, ⟨_, _, rfl, rfl, rfl, rfl, rfl⟩⟩

/-- Witness for C11: the scenario, `map(8192)` on the fresh arena answered with the base
of the window. -/
theorem C11_map_unmap_restores_counters_witness :
    ∃ s1 s2, map plentyFrames (initialMemory 19) 8192 vmBase = MapResult.ok vmBase s1 ∧
      s1.arena.kernelMemoryUsage = (initialMemory 19).arena.kernelMemoryUsage + 8192 ∧
      unmap plentyFrames s1 vmBase 8192 true = MemResult.ok s2 ∧
      s2.arena.kernelMemoryUsage = (initialMemory 19).arena.kernelMemoryUsage ∧
      s2.arena.kernelVirtualUsage = (initialMemory 19).arena.kernelVirtualUsage := by
  have hmap : map plentyFrames (initialMemory 19) 8192 vmBase = MapResult.ok vmBase _ := rfl
  obtain ⟨h1, ⟨s2, h2, h3, h4⟩, _⟩ := C11_map_unmap_restores_counters plentyFrames 19 []
    (initialMemory 19) _ 8192 vmBase vmBase MapReachable.init (by decide)
    (fresh_buddyAnswer 19 8192 (by decide) (by decide)) hmap
  exact ⟨_, s2, hmap, h1, h2, h3, h4⟩

theorem reach_map_fresh (length : Nat) (s1 : KernelMemory)
    (h : 2 ^ (kPageShift + orderOf length) ≤ desiredSize)
    (ha : vmBase % 2 ^ (kPageShift + orderOf length) = 0)
    (hmap : map plentyFrames (initialMemory 19) length vmBase = MapResult.ok vmBase s1) :
    MapReachable plentyFrames 19 [(vmBase, length)] s1 :=
  MapReachable.map [] (initialMemory 19) s1 length vmBase vmBase MapReachable.init
    (fresh_buddyAnswer 19 length h ha) hmap

/-- C12: in every state reachable from the fresh arena by `map` calls, `unmap` calls
that name a range still mapped, and shootdown completions, the reserved-bytes counter
is at least the resident-bytes counter, also while closures are pending. -/
theorem C12_reserved_at_least_resident (frames : Nat → Nat) (tableOrder : Nat)
    (live : List (Nat × Nat)) (s : KernelMemory)
    (hreach : MapReachable frames tableOrder live s) :
    s.arena.kernelMemoryUsage ≤ s.arena.kernelVirtualUsage :=
  (MapInv_bounds live s (MapReachable_inv frames tableOrder live s hreach)).1

/-- Witness for C12: after `map(8192)` and an `unmap` whose shootdown is still
outstanding, 8192 bytes are reserved and none resident. -/
theorem C12_reserved_at_least_resident_witness :
    ∃ s2, (∃ s1, map plentyFrames (initialMemory 19) 8192 vmBase = MapResult.ok vmBase s1 ∧
        unmap plentyFrames s1 vmBase 8192 false = MemResult.ok s2) ∧
      s2.pending ≠ [] ∧ s2.arena.kernelVirtualUsage = 8192 ∧
      s2.arena.kernelMemoryUsage = 0 ∧
      s2.arena.kernelMemoryUsage ≤ s2.arena.kernelVirtualUsage := by
  have hmap : map plentyFrames (initialMemory 19) 8192 vmBase =
      MapResult.ok vmBase mapped8192 := rfl
  have hunmap : unmap plentyFrames mapped8192 vmBase 8192 false =
      MemResult.ok (unmap plentyFrames mapped8192 vmBase 8192 false).state := rfl
  exact ⟨_, ⟨_, hmap, hunmap⟩, by decide, rfl, rfl,
    C12_reserved_at_least_resident plentyFrames 19 _ _
      (MapReachable.unmap _ _ _ vmBase 8192 false
        (reach_map_fresh 8192 _ (by decide) (by decide) hmap) (List.mem_cons_self _ _) hunmap)⟩

theorem resident_eq_reserved :
    ∀ live : List (Nat × Nat), (∀ m ∈ live, m.2 = 2 ^ (kPageShift + orderOf m.2)) →
      residentBytes live = reservedBytes (live.map blockOfRange) := by
  intro live
  induction live with
  | nil => intro _; rfl
  | cons m ms ih =>
    intro h
    have hm := h m (List.mem_cons_self _ _)
    have := ih (fun x hx => h x (List.mem_cons_of_mem _ hx))
    simp only [List.map_cons, residentBytes, reservedBytes, blockOfRange]
    omega

/-- C13 (as stated, refuted): after `map(12288)` on the fresh arena, with no unmap and
no shootdown outstanding, 16384 bytes are reserved (the order-2 granule) and 12288
resident. -/
theorem C13_reserved_exceeds_resident :
    ¬ (∀ (frames : Nat → Nat) (tableOrder : Nat) (live : List (Nat × Nat)) (s : KernelMemory),
        MapReachable frames tableOrder live s → s.pending = [] →
        s.arena.kernelVirtualUsage = s.arena.kernelMemoryUsage) := by
  intro h
  have hmap : map plentyFrames (initialMemory 19) 12288 vmBase = MapResult.ok vmBase _ := rfl
  have heq := h plentyFrames 19 _ _
    (reach_map_fresh 12288 _ (by decide) (by decide) hmap) rfl
  have hne : (16384 : Nat) ≠ 12288 := by decide
  exact hne heq

/-- C13 (amended): in every reachable state in which no shootdown completion is
outstanding, the reserved-bytes counter is the sum of the order granules
`2^(12 + order(L))` of the mapped ranges and the resident-bytes counter is the sum of
their lengths `L`; so reserved is at least resident, and they are equal when every
mapped length is exactly its granule. -/
theorem C13_counters_without_pending (frames : Nat → Nat) (tableOrder : Nat)
    (live : List (Nat × Nat)) (s : KernelMemory)
    (hreach : MapReachable frames tableOrder live s) (hpending : s.pending = []) :
    s.arena.kernelVirtualUsage = reservedBytes (live.map blockOfRange) ∧
    s.arena.kernelMemoryUsage = residentBytes live ∧
    s.arena.kernelMemoryUsage ≤ s.arena.kernelVirtualUsage ∧
    ((∀ m ∈ live, m.2 = 2 ^ (kPageShift + orderOf m.2)) →
      s.arena.kernelVirtualUsage = s.arena.kernelMemoryUsage) := by
  have hinv := MapReachable_inv frames tableOrder live s hreach
  obtain ⟨hle, _, hsum⟩ := MapInv_bounds live s hinv
  rw [hpending] at hsum
  simp only [List.map_nil, reservedBytes, Nat.add_zero] at hsum
  refine ⟨hsum, hinv.2.1, hle, ?_⟩
  intro hall
  rw [hsum, hinv.2.1, resident_eq_reserved live hall]

/-- Witness for C13: after `map(8192)` on the fresh arena both counters are 8192. -/
theorem C13_counters_without_pending_witness :
    ∃ s1, map plentyFrames (initialMemory 19) 8192 vmBase = MapResult.ok vmBase s1 ∧
      s1.arena.kernelVirtualUsage = reservedBytes ([(vmBase, 8192)].map blockOfRange) ∧
      s1.arena.kernelMemoryUsage = residentBytes [(vmBase, 8192)] ∧
      s1.arena.kernelMemoryUsage ≤ s1.arena.kernelVirtualUsage ∧
      ((∀ m ∈ [(vmBase, 8192)], m.2 = 2 ^ (kPageShift + orderOf m.2)) →
        s1.arena.kernelVirtualUsage = s1.arena.kernelMemoryUsage) := by
  have hmap : map plentyFrames (initialMemory 19) 8192 vmBase = MapResult.ok vmBase _ := rfl
  exact ⟨_, hmap, C13_counters_without_pending plentyFrames 19 _ _
    (reach_map_fresh 8192 _ (by decide) (by decide) hmap) rfl⟩

/-- C14: when `unmap(address, length)` returns after `submitShootdown` reported the
shootdown as not completed, `deallocate` was not called: the blocks handed out by the
arena and `kernelVirtualUsage` are as before the call, so a block allocator keeping its
contract hands no later `allocate` a block overlapping one of them; the closure is
pending, and `deallocate(address, length)` is called when its `complete()` runs. -/
theorem C14_deferred_unmap_keeps_range (frames : Nat → Nat) (s s1 : KernelMemory)
    (address length : Nat)
    (h : unmap frames s address length false = MemResult.ok s1) :
    s1.arena.blocks = s.arena.blocks ∧
    s1.arena.kernelVirtualUsage = s.arena.kernelVirtualUsage ∧
    releases s1.events = releases s.events ∧
    (∀ order answer, buddyContract s1.arena order answer → answer ≠ illegalAddress →
      ∀ b ∈ s.arena.blocks, blocksDisjoint (answer, order) b) ∧
    ∃ c : Closure, c.address = address ∧ c.size = length ∧ s1.pending = c :: s.pending ∧
      ∀ s2, shootdownCompletes s1 c = MemResult.ok s2 →
        releases s2.events = releases s1.events ++ [(address, length)] ∧
        ∃ a, s1.arena.deallocate address length = ArenaResult.ok a ∧ s2.arena = a := by
  obtain ⟨_, _, s0, hloop, hfalse, _⟩ := unmap_ok frames s s1 address length false h
  obtain ⟨hfa, hfp, _, _⟩ := unmapLoop_frame address length _ _ _ s0 (Or.inl hloop)
  have hrel := unmapLoop_releases address length _ _ _ _ hloop
  have hs1 := hfalse rfl
  have hblocks : s1.arena.blocks = s.arena.blocks := by rw [hs1]; simp only [hfa]
  refine ⟨hblocks, by rw [hs1]; simp only [hfa], ?_, ?_,
    { address := address, size := length, thisPage := frames s0.allocCalls }, rfl, rfl,
    by rw [hs1]; simp only [hfp], ?_⟩
  · rw [hs1]
    simp only [releases_append, releases, hrel, List.append_nil]
  · intro order answer hb hne b hmem
    rcases hb with hb | ⟨_, hb⟩
    · exact absurd hb hne
    · exact hb b (by rw [hblocks]; exact hmem)
  · intro s2 h2
    unfold shootdownCompletes at h2
    obtain ⟨a, hd, hs2⟩ := complete_ok _ _ s2 h2
    refine ⟨?_, a, hd, by rw [hs2]⟩
    rw [hs2]
    simp only [releases_append, releases]

/-- Witness for C14: `unmap` of the range mapped by `map(8192)` with the shootdown left
outstanding keeps the block and the 8192 reserved bytes. -/
theorem C14_deferred_unmap_keeps_range_witness :
    (unmap plentyFrames mapped8192 vmBase 8192 false).state.arena.blocks = [(vmBase, 1)] ∧
    (unmap plentyFrames mapped8192 vmBase 8192 false).state.arena.blocks =
      mapped8192.arena.blocks ∧
    (unmap plentyFrames mapped8192 vmBase 8192 false).state.arena.kernelVirtualUsage =
      mapped8192.arena.kernelVirtualUsage :=
  ⟨rfl,
    (C14_deferred_unmap_keeps_range plentyFrames mapped8192 _ vmBase 8192
      (rfl : unmap plentyFrames mapped8192 vmBase 8192 false =
        MemResult.ok (unmap plentyFrames mapped8192 vmBase 8192 false).state)).1,
    (C14_deferred_unmap_keeps_range plentyFrames mapped8192 _ vmBase 8192
      (rfl : unmap plentyFrames mapped8192 vmBase 8192 false =
        MemResult.ok (unmap plentyFrames mapped8192 vmBase 8192 false).state)).2.1⟩

/-- C15: if the frame allocator answers the request for some page of the backing loop
of `map(L)` with its failure sentinel, `map` never returns an address; once the arena
has reserved the range it ends in the fatal assertion, with the resident-bytes counter
as it was. -/
theorem C15_map_fatal_on_frame_exhaustion (frames : Nat → Nat) (s : KernelMemory)
    (length address i : Nat) (hpage : i * kPageSize < length)
    (hfail : frames (s.allocCalls + i) = physicalSentinel) :
    (∀ pointer s1, map frames s length address ≠ MapResult.ok pointer s1) ∧
    (∀ pointer a, s.arena.allocate length address = AllocResult.ok pointer a →
      ∃ s1, map frames s length address = MapResult.fatal s1 ∧
        s1.arena.kernelMemoryUsage = s.arena.kernelMemoryUsage) := by
  have hps : kPageSize = 4096 := rfl
  have hfatal : ∀ pointer a, s.arena.allocate length address = AllocResult.ok pointer a →
      ∃ s1, map frames s length address = MapResult.fatal s1 ∧
        s1.arena.kernelMemoryUsage = s.arena.kernelMemoryUsage := by
    intro pointer a ha
    obtain ⟨s1, h1⟩ := mapLoop_fatal frames pointer length i (length / kPageSize + 2) 0
      { s with arena := a } (by omega) (by rw [hps] at hpage ⊢; omega) hfail
    obtain ⟨hfa, _⟩ := mapLoop_frame frames pointer length _ _ _ s1 (Or.inr h1)
    obtain ⟨order, _, _, _, _, hadef⟩ := allocate_ok s.arena a length address pointer ha
    refine ⟨s1, ?_, ?_⟩
    · unfold map
      rw [ha]
      simp only []
      rw [h1]
    · rw [hfa]
      simp only []
      rw [hadef]
  refine ⟨?_, hfatal⟩
  intro pointer s1 hok
  obtain ⟨a, _, ha, _, _⟩ := map_ok frames s s1 length address pointer hok
  obtain ⟨s2, h2, _⟩ := hfatal pointer a ha
  rw [h2] at hok
  cases hok

/-- Witness for C15: the exhaustion scenario, `map(4096)` with a frame allocator that
always fails, ends fatally with no resident bytes. -/
theorem C15_map_fatal_on_frame_exhaustion_witness :
    ∃ s1, map (fun _ => physicalSentinel) (initialMemory 19) 4096 vmBase =
        MapResult.fatal s1 ∧
      s1.arena.kernelMemoryUsage = (initialMemory 19).arena.kernelMemoryUsage :=
  (C15_map_fatal_on_frame_exhaustion (fun _ => physicalSentinel) (initialMemory 19) 4096
    vmBase 0 (by decide) rfl).2 vmBase _ rfl

theorem unmapThrough_window (frames : Nat → Nat) (s : KernelMemory) (address length : Nat)
    (shootdownDone : Bool) :
    unmapThrough (fun physical => some physical) frames s address length shootdownDone =
      unmap frames s address length shootdownDone := by
  unfold unmapThrough unmap
  by_cases hA : address % kPageSize ≠ 0
  · rw [if_pos hA, if_pos hA]
  · rw [if_neg hA, if_neg hA]
    by_cases hL : length % kPageSize ≠ 0
    · rw [if_pos hL, if_pos hL]
    · rw [if_neg hL, if_neg hL]
      cases hloop : unmapLoop address length (length / kPageSize + 2) 0 s with
      | diverged => rfl
      | fatal s1 => rfl
      | ok s1 =>
        simp only [List.append_assoc, List.cons_append, List.nil_append]

theorem unmapThrough_frame (frames : Nat → Nat) (s : KernelMemory) (address length : Nat)
    (shootdownDone : Bool) (hframe : frames s.allocCalls ≠ physicalSentinel) :
    unmapThrough PageAccessor frames s address length shootdownDone =
      unmap frames s address length shootdownDone := by
  unfold unmapThrough unmap
  by_cases hA : address % kPageSize ≠ 0
  · rw [if_pos hA, if_pos hA]
  · rw [if_neg hA, if_neg hA]
    by_cases hL : length % kPageSize ≠ 0
    · rw [if_pos hL, if_pos hL]
    · rw [if_neg hL, if_neg hL]
      cases hloop : unmapLoop address length (length / kPageSize + 2) 0 s with
      | diverged => rfl
      | fatal s1 => rfl
      | ok s1 =>
        obtain ⟨_, _, hcalls, _⟩ := unmapLoop_frame address length _ _ _ s1 (Or.inl hloop)
        have hne : frames s1.allocCalls ≠ physicalSentinel := by rw [hcalls]; exact hframe
        simp only [PageAccessor, if_neg hne, List.append_assoc, List.cons_append,
          List.nil_append]

/-- C17: in every reachable state, for a page-multiple `L`: `map(L)` returning `A`
obtains `L/4096` frames, frees none and maps page `i` of the range to the `i`-th of
them; the following `unmap(A, L)` hands back exactly these frames, in order, and
obtains one frame for the closure; the run of `complete()`, inline or after a deferred
shootdown, calls `deallocate(A, L)` and only then frees the closure frame.  Over the
whole sequence the frames freed are the frames obtained, each once. -/
theorem C17_frames_freed_exactly_once (frames : Nat → Nat) (tableOrder : Nat)
    (live : List (Nat × Nat)) (s s1 : KernelMemory) (length address pointer : Nat)
    (hreach : MapReachable frames tableOrder live s)
    (hpage : length % kPageSize = 0) (hbuddy : buddyAnswer s.arena length address)
    (hmap : map frames s length address = MapResult.ok pointer s1) :
    framesAllocated s1.events = framesAllocated s.events ++
      (List.range (length / kPageSize)).map (fun i => frames (s.allocCalls + i)) ∧
    framesFreed s1.events = framesFreed s.events ∧
    (∀ i, i < length / kPageSize →
      s1.pageSpace (pointer + i * kPageSize) = some (frames (s.allocCalls + i))) ∧
    (∃ s2 before, unmap frames s1 pointer length true = MemResult.ok s2 ∧
      s2.events = before ++ [MemEvent.deallocate pointer length,
        MemEvent.frameFree (frames (s.allocCalls + length / kPageSize))] ∧
      framesFreed before = framesFreed s.events ++
        (List.range (length / kPageSize)).map (fun i => frames (s.allocCalls + i)) ∧
      framesFreed s2.events = framesFreed s.events ++
        (List.range (length / kPageSize)).map (fun i => frames (s.allocCalls + i)) ++
        [frames (s.allocCalls + length / kPageSize)] ∧
      framesAllocated s2.events = framesAllocated s.events ++
        (List.range (length / kPageSize)).map (fun i => frames (s.allocCalls + i)) ++
        [frames (s.allocCalls + length / kPageSize)]) ∧
    (∃ s2 s3, unmap frames s1 pointer length false = MemResult.ok s2 ∧
      framesFreed s2.events = framesFreed s.events ++
        (List.range (length / kPageSize)).map (fun i => frames (s.allocCalls + i)) ∧
      releases s2.events = releases s.events ∧
      shootdownCompletes s2
        { address := pointer, size := length,
          thisPage := frames (s.allocCalls + length / kPageSize) } = MemResult.ok s3 ∧
      s3.events = s2.events ++ [MemEvent.deallocate pointer length,
        MemEvent.frameFree (frames (s.allocCalls + length / kPageSize))] ∧
      framesFreed s3.events = framesFreed s.events ++
        (List.range (length / kPageSize)).map (fun i => frames (s.allocCalls + i)) ++
        [frames (s.allocCalls + length / kPageSize)] ∧
      framesAllocated s3.events = framesAllocated s.events ++
        (List.range (length / kPageSize)).map (fun i => frames (s.allocCalls + i)) ++
        [frames (s.allocCalls + length / kPageSize)]) := by
  have hinv := MapReachable_inv frames tableOrder live s hreach
  obtain ⟨_, harena1, hL63, hmem, hA⟩ :=
    map_block_present frames live s s1 length address pointer hinv hbuddy hmap
  obtain ⟨hcalls, hpages, hfreed1, halloc1, hrel1⟩ :=
    map_pages frames s s1 length address pointer hpage hmap
  obtain ⟨s0, _, halloc0, hfreed0, hrel0, ⟨t2, ht2, ht2e, _⟩, ⟨f2, f3, hf2, hf2e, _, hf3, hf3e, _⟩⟩ :=
    unmap_run frames s1 pointer length (fun i => frames (s.allocCalls + i)) harena1 hL63 hmem
      hA hpage hpages
  rw [hcalls] at ht2e hf2e hf3 hf3e
  rw [hfreed1] at hfreed0
  rw [halloc1] at halloc0
  simp only [List.append_nil] at hrel1
  rw [hrel1] at hrel0
  refine ⟨halloc1, hfreed1, hpages, ?_, ?_⟩
  · refine ⟨t2, s0.events ++ [MemEvent.frameAllocate (frames (s.allocCalls + length / kPageSize)),
      MemEvent.submitShootdown
        { address := pointer, size := length,
          thisPage := frames (s.allocCalls + length / kPageSize) }], ht2, ?_, ?_, ?_, ?_⟩
    · rw [ht2e]; simp
    · simp [framesFreed_append, framesFreed, hfreed0]
    · rw [ht2e]; simp [framesFreed_append, framesFreed, hfreed0]
    · rw [ht2e]; simp [framesAllocated_append, framesAllocated, halloc0]
  · refine ⟨f2, f3, hf2, ?_, ?_, hf3, hf3e, ?_, ?_⟩
    · rw [hf2e]; simp [framesFreed_append, framesFreed, hfreed0]
    · rw [hf2e]; simp [releases_append, releases, hrel0]
    · rw [hf3e, hf2e]; simp [framesFreed_append, framesFreed, hfreed0]
    · rw [hf3e, hf2e]; simp [framesAllocated_append, framesAllocated, halloc0]

/-- Witness for C17: `map(8192)` on the fresh arena, `unmap` with a synchronous
shootdown; frames 4096 and 8192 back the range, frame 12288 holds the closure, and
these three are freed, once each, the closure frame last. -/
theorem C17_frames_freed_exactly_once_witness :
    ∃ s2, unmap plentyFrames mapped8192 vmBase 8192 true = MemResult.ok s2 ∧
      framesAllocated s2.events = [4096, 8192, 12288] ∧
      framesFreed s2.events = [4096, 8192, 12288] := by
  obtain ⟨_, _, _, ⟨s2, _, h2, _, _, hfreed, halloc⟩, _⟩ :=
    C17_frames_freed_exactly_once plentyFrames 19 [] (initialMemory 19) mapped8192 8192 vmBase
      vmBase MapReachable.init (by decide) (fresh_buddyAnswer 19 8192 (by decide) (by decide))
      rfl
  exact ⟨s2, h2, halloc, hfreed⟩

end Thor
